import Mathlib

/-!
# A discriminated-union container (`variant.h`)

A shallow embedding of `Variant<Types...>`, its recursive storage
`VariadicUnion<Types...>`, the per-alternative mixin `VariantAlternative<T, Types...>`,
the accessors `Get` / `holds_alternative` and the table-driven `Visit`.

Conventions of the embedding.

* A C++ type is an element of a type `Ty` with decidable equality (`std::is_same_v`);
  a template parameter pack `Types...` is a `List Ty`.
* An object of any alternative type is an element of one value domain `Val`.
* `size_t` values are natural numbers; arithmetic that can wrap is taken modulo `2 ^ 64`.
* A raw union is modelled by which member (if any) is within its lifetime.
* Every operation returns `Except Failure _`: besides C++ exceptions, a `Failure` records
  that the instantiation does not compile (`ill_formed`) or that the execution touches an
  object outside its lifetime or indexes an array beyond its bounds
  (`undefined_behaviour`), after which nothing is guaranteed about what the program does.
* A pack expansion over the base classes `VariantAlternative<Types, Types...>...` is a left
  fold over `Types`.
-/

set_option autoImplicit false

namespace variant_util

/-- Number of values of `size_t` (64-bit). -/
def SIZE_MOD : Nat := 2 ^ 64

/-- The sentinel `constexpr size_t NPOS = -1;`. -/
def NPOS : Nat := SIZE_MOD - 1

/-- The trait `get_index_by_type<Index, T, Types...>::value`: the primary template yields
`NPOS`; the partial specialisation compares `T` with the head and otherwise recurses with
`Index + 1` (a `size_t` addition). -/
def get_index_by_type {Ty : Type} [DecidableEq Ty] : Nat → Ty → List Ty → Nat
  | _, _, [] => NPOS
  | Index, T, Head :: Tail =>
    if T = Head then Index else get_index_by_type ((Index + 1) % SIZE_MOD) T Tail

/-- The variable template `get_index_by_type_v<T, Types...>`. -/
def get_index_by_type_v {Ty : Type} [DecidableEq Ty] (T : Ty) (Types : List Ty) : Nat :=
  get_index_by_type 0 T Types

/-- The trait `get_type_by_index<Index, Types...>::type`: the primary template yields the tag
type `Empty`; the specialisation selects the head when `Index == 0` and otherwise the result
for `Index - 1` on the tail. -/
def get_type_by_index {Ty : Type} (Empty : Ty) : Nat → List Ty → Ty
  | _, [] => Empty
  | Index, Head :: Tail =>
    if Index = 0 then Head else get_type_by_index Empty (Index - 1) Tail

end variant_util

open variant_util

/-- An exception object thrown by the constructor of an alternative, identified by a tag. -/
structure Exn where
  tag : Nat
  deriving DecidableEq, Repr

/-- The ways in which an operation fails to produce a result. -/
inductive Failure where
  /-- A `static_assert` fails or a call has no viable candidate: the program does not compile. -/
  | ill_formed
  /-- An object is read, assigned or destroyed outside its lifetime, or an array is indexed
  beyond its bounds: the behaviour of the program is undefined, so that no outcome is
  guaranteed and any may be observed, the report of an error included. -/
  | undefined_behaviour
  /-- The exception `std::runtime_error("Bad variant access!")`. -/
  | bad_variant_access
  /-- An exception raised by the constructor of an alternative. -/
  | thrown (e : Exn)
  deriving DecidableEq, Repr

/-- What the alternative types themselves do: `construct T args` is the outcome of the
constructor call `T(args...)`, `no_args` is the empty argument pack, `moved_from T x` is
the value left in an object of type `T` that held `x` once it has been moved from, and
`assignable T` tells whether the assignment expression `head = value` compiles for a member
`head` of type `T`, which it does not for a const-qualified `T`. Copy construction and copy
assignment of an alternative yield an equal value. -/
structure AlternativeOps (Ty Val Args : Type) where
  construct : Ty → Args → Except Exn Val
  no_args : Args
  moved_from : Ty → Val → Val
  assignable : Ty → Bool

/-- The state of a `union VariadicUnion<Head, Tail...> { Head head; VariadicUnion<Tail...> tail; }`:
no member alive, the member `head` alive with a value, or the nested union `tail` in use. -/
inductive VariadicUnion (Val : Type) where
  | raw : VariadicUnion Val
  | head (x : Val) : VariadicUnion Val
  | tail (u : VariadicUnion Val) : VariadicUnion Val
  deriving DecidableEq, Repr

namespace VariadicUnion

variable {Ty Val : Type} [DecidableEq Ty]

/-- The member `tail` as seen by a member access: it holds something only if it is in use. -/
def tail_member : VariadicUnion Val → VariadicUnion Val
  | .tail u => u
  | _ => .raw

/-- The live object of the storage with its position, if there is one. -/
def live : VariadicUnion Val → Option (Nat × Val)
  | .raw => none
  | .head x => some (0, x)
  | .tail u => (live u).map fun p => (p.1 + 1, p.2)

/-- The member function `get<Index>()`: `head` for `Index == 0`, else `tail.get<Index - 1>()`.
In the empty union `get` returns `void`, from which no reference can be formed. -/
def get : Nat → List Ty → VariadicUnion Val → Except Failure Val
  | _, [], _ => .error .ill_formed
  | Index, _ :: Tail, u =>
    if Index = 0 then
      match u with
      | .head x => .ok x
      | _ => .error .undefined_behaviour
    else get (Index - 1) Tail u.tail_member

/-- A store of `y` through the reference returned by `get<Index>()`. -/
def write : Nat → List Ty → VariadicUnion Val → Val → Except Failure (VariadicUnion Val)
  | _, [], _, _ => .error .ill_formed
  | Index, _ :: Tail, u, y =>
    if Index = 0 then
      match u with
      | .head _ => .ok (.head y)
      | _ => .error .undefined_behaviour
    else (write (Index - 1) Tail u.tail_member y).map .tail

/-- The member function `put<Index, T>(args...)`: placement-new of `Head(args...)` into `head`
when `T` is `Head`, else `tail.put<Index + 1, T>(args...)`. `r` is the outcome of the
constructor call. The empty union only checks `static_assert(Index == 0)`. -/
def put (T : Ty) (r : Except Exn Val) :
    Nat → List Ty → VariadicUnion Val → Except Failure (VariadicUnion Val)
  | Index, [], u => if Index = 0 then .ok u else .error .ill_formed
  | Index, Head :: Tail, u =>
    if T = Head then
      match r with
      | .ok x => .ok (.head x)
      | .error e => .error (.thrown e)
    else (put T r ((Index + 1) % SIZE_MOD) Tail u.tail_member).map .tail

/-- Whether the instantiation of the member function template `assign<Index, T>` compiles:
under `if constexpr` only the branch taken is instantiated, which is the expression
`head = value` when `T` is `Head` and the instantiation of `tail.assign<Index + 1, T>`
otherwise; the empty union checks `static_assert(Index == 0)`. -/
def assign_compiles (assignable : Ty → Bool) (T : Ty) : Nat → List Ty → Bool
  | Index, [] => decide (Index = 0)
  | Index, Head :: Tail =>
    if T = Head then assignable Head
    else assign_compiles assignable T ((Index + 1) % SIZE_MOD) Tail

/-- The member function `assign<Index, T>(value)`: `head = value` when `T` is `Head`, else
`tail.assign<Index + 1, T>(value)`. The expression `head = value` does not compile when
`Head` is not assignable. -/
def assign (assignable : Ty → Bool) (T : Ty) (value : Val) :
    Nat → List Ty → VariadicUnion Val → Except Failure (VariadicUnion Val)
  | Index, [], u => if Index = 0 then .ok u else .error .ill_formed
  | Index, Head :: Tail, u =>
    if T = Head then
      if assignable Head then
        match u with
        | .head _ => .ok (.head value)
        | _ => .error .undefined_behaviour
      else .error .ill_formed
    else (assign assignable T value ((Index + 1) % SIZE_MOD) Tail u.tail_member).map .tail

/-- The member function `destroy<T>()`: `head.~Head()` when `T` is `Head`, else
`tail.destroy<T>()`. The empty union has no such member. -/
def destroy (T : Ty) : List Ty → VariadicUnion Val → Except Failure (VariadicUnion Val)
  | [], _ => .error .ill_formed
  | Head :: Tail, u =>
    if T = Head then
      match u with
      | .head _ => .ok .raw
      | _ => .error .undefined_behaviour
    else (destroy T Tail u.tail_member).map .tail

end VariadicUnion

/-- The data members of `Variant<Types...>`: `VariadicUnion<Types...> storage; size_t idx;`. -/
structure Variant (Val : Type) where
  storage : VariadicUnion Val
  idx : Nat
  deriving DecidableEq, Repr

/-- The memory of a `Variant` before any constructor body has run: the union's constructor does
nothing and `idx` has no initialiser, so it holds whatever `stale` value the memory held. -/
def Variant.fresh {Val : Type} (stale : Nat) : Variant Val :=
  { storage := .raw, idx := stale }

namespace VariantAlternative

variable {Ty Val Args : Type} [DecidableEq Ty]

/-- The constant `static const size_t Index = get_index_by_type_v<T, Types...>;`. -/
def Index (Types : List Ty) (T : Ty) : Nat :=
  get_index_by_type_v T Types

/-- The converting constructors `VariantAlternative(const T&)`, `VariantAlternative(T&&)` and
`VariantAlternative(const char*)`: `put<0, T>(value)` then `idx = Index`. `value` is the
object the argument initialises. -/
def ctor_value (Types : List Ty) (T : Ty) (value : Val) (this : Variant Val) :
    Except Failure (Variant Val) := do
  let st ← VariadicUnion.put T (.ok value) 0 Types this.storage
  pure { storage := st, idx := Index Types T }

/-- The copy constructor `VariantAlternative(const VariantAlternative& other)`. -/
def ctor_copy (Types : List Ty) (T : Ty) (other this : Variant Val) :
    Except Failure (Variant Val) :=
  if other.idx = Index Types T then do
    let x ← VariadicUnion.get (Index Types T) Types other.storage
    let st ← VariadicUnion.put T (.ok x) 0 Types this.storage
    pure { storage := st, idx := Index Types T }
  else pure this

/-- The move constructor `VariantAlternative(VariantAlternative&& other)`; the result is the
pair of the object under construction and the source, whose live object is moved from. -/
def ctor_move (A : AlternativeOps Ty Val Args) (Types : List Ty) (T : Ty)
    (p : Variant Val × Variant Val) : Except Failure (Variant Val × Variant Val) :=
  if p.2.idx = Index Types T then do
    let x ← VariadicUnion.get (Index Types T) Types p.2.storage
    let st ← VariadicUnion.put T (.ok x) 0 Types p.1.storage
    let ost ← VariadicUnion.write (Index Types T) Types p.2.storage (A.moved_from T x)
    pure ({ storage := st, idx := Index Types T }, { p.2 with storage := ost })
  else pure p

/-- The member `VariantAlternative::destroy()`. -/
def destroy (Types : List Ty) (T : Ty) (this : Variant Val) : Except Failure (Variant Val) :=
  if this.idx = Index Types T then do
    let st ← VariadicUnion.destroy T Types this.storage
    pure { this with storage := st }
  else pure this

end VariantAlternative

namespace Variant

variable {Ty Val Args : Type} [DecidableEq Ty]

/-- The private member `Variant::destroy()`: the fold
`(VariantAlternative<Types, Types...>::destroy(), ...)`. -/
def destroy (Types : List Ty) (this : Variant Val) : Except Failure (Variant Val) :=
  Types.foldlM (fun s T => VariantAlternative.destroy Types T s) this

/-- The member `index()`. -/
def index (this : Variant Val) : Nat := this.idx

/-- The member `valueless_by_exception()`. -/
def valueless_by_exception (this : Variant Val) : Bool := decide (this.idx = NPOS)

end Variant

/-- The free functions `Get<Index>(v)` (the four overloads on `const Variant&`, `Variant&`,
`Variant&&` and `const Variant&&` have the same body up to `std::move` of the result): throw
when `v.idx != Index`, else `v.storage.get<Index>()`. -/
def Get {Ty Val : Type} (Index : Nat) (Types : List Ty) (v : Variant Val) :
    Except Failure Val :=
  if v.idx ≠ Index then .error .bad_variant_access
  else VariadicUnion.get Index Types v.storage

/-- The free functions `Get<T>(v)`: `Get<get_index_by_type_v<T, Types...>>(v)`. -/
def Get_by_type {Ty Val : Type} [DecidableEq Ty] (T : Ty) (Types : List Ty)
    (v : Variant Val) : Except Failure Val :=
  Get (get_index_by_type_v T Types) Types v

/-- The free function `holds_alternative<T>(v)`. -/
def holds_alternative {Ty Val : Type} [DecidableEq Ty] (T : Ty) (Types : List Ty)
    (v : Variant Val) : Bool :=
  decide (get_index_by_type_v T Types = v.idx)

namespace VariantAlternative

variable {Ty Val Args : Type} [DecidableEq Ty]

/-- The assignment operators `operator=(const T&)`, `operator=(T&&)` and
`operator=(const char*)`: assign in place when `Index == idx`, else destroy, `put<0, T>(value)`
and `idx = Index`. `value` is the object the argument denotes. The test `Index == idx` is an
ordinary `if`, so the body of the operator instantiates `storage.assign<0, T>` whichever
branch is taken at run time: where that instantiation does not compile, as for a
const-qualified `T`, the assignment `v = value` does not compile, in any state of `v`. -/
def assign_value (assignable : Ty → Bool) (Types : List Ty) (T : Ty) (value : Val)
    (this : Variant Val) : Except Failure (Variant Val) :=
  if VariadicUnion.assign_compiles assignable T 0 Types then
    if Index Types T = this.idx then do
      let st ← VariadicUnion.assign assignable T value 0 Types this.storage
      pure { this with storage := st }
    else do
      let d ← Variant.destroy Types this
      let st ← VariadicUnion.put T (.ok value) 0 Types d.storage
      pure { storage := st, idx := Index Types T }
  else .error .ill_formed

/-- The member `assign(const VariantAlternative& other)` on a store of objects: `this` and
`other` are the addresses of the two containers. -/
def assign_copy (Types : List Ty) (T : Ty) (this other : Nat) (s : Nat → Variant Val) :
    Except Failure (Nat → Variant Val) :=
  if Index Types T ≠ (s other).idx then pure s
  else do
    let x ← Get (Index Types T) Types (s other)
    let st ← VariadicUnion.put T (.ok x) 0 Types (s this).storage
    pure (Function.update s this { storage := st, idx := Index Types T })

/-- The member `assign(VariantAlternative&& other)` on a store of objects: the move constructor
of `T` builds the new object in `this` and leaves the source object moved from, then `idx` is
set. -/
def assign_move (A : AlternativeOps Ty Val Args) (Types : List Ty) (T : Ty)
    (this other : Nat) (s : Nat → Variant Val) : Except Failure (Nat → Variant Val) :=
  if Index Types T ≠ (s other).idx then pure s
  else do
    let x ← Get (Index Types T) Types (s other)
    let st ← VariadicUnion.put T (.ok x) 0 Types (s this).storage
    let s1 := Function.update s this { s this with storage := st }
    let ost ← VariadicUnion.write (Index Types T) Types (s1 other).storage (A.moved_from T x)
    let s2 := Function.update s1 other { s1 other with storage := ost }
    pure (Function.update s2 this { s2 this with idx := Index Types T })

end VariantAlternative

namespace Variant

variable {Ty Val Args : Type} [DecidableEq Ty]

/-- The inherited converting constructors (`using VariantAlternative<Types, Types...>::
VariantAlternative...`): the base for `T` runs on fresh memory, the other bases and the members
are default-initialised, which writes nothing. -/
def ctor_value (Types : List Ty) (T : Ty) (value : Val) (stale : Nat) :
    Except Failure (Variant Val) :=
  VariantAlternative.ctor_value Types T value (Variant.fresh stale)

/-- The default constructor `Variant() : idx(0) { storage.put<0, get_type_by_index_t<0,
Types...>>(); }`. An exception of the alternative's constructor leaves no object. -/
def ctor_default (A : AlternativeOps Ty Val Args) (Empty : Ty) (Types : List Ty) :
    Except Failure (Variant Val) := do
  let T0 := get_type_by_index Empty 0 Types
  let st ← VariadicUnion.put T0 (A.construct T0 A.no_args) 0 Types VariadicUnion.raw
  pure { storage := st, idx := 0 }

/-- The copy constructor `Variant(const Variant& other) :
VariantAlternative<Types, Types...>(other)... {}`. -/
def ctor_copy (Types : List Ty) (other : Variant Val) (stale : Nat) :
    Except Failure (Variant Val) :=
  Types.foldlM (fun this T => VariantAlternative.ctor_copy Types T other this)
    (Variant.fresh stale)

/-- The move constructor `Variant(Variant&& other) :
VariantAlternative<Types, Types...>(std::move(other))... {}`; the result is the new object
and the source after the move. -/
def ctor_move (A : AlternativeOps Ty Val Args) (Types : List Ty) (other : Variant Val)
    (stale : Nat) : Except Failure (Variant Val × Variant Val) :=
  Types.foldlM (fun p T => VariantAlternative.ctor_move A Types T p)
    (Variant.fresh stale, other)

/-- The copy assignment `operator=(const Variant& other)` on a store of objects: `destroy()`,
then the fold `(VariantAlternative<Types, Types...>::assign(other), ...)`. -/
def assign_copy (Types : List Ty) (this other : Nat) (s : Nat → Variant Val) :
    Except Failure (Nat → Variant Val) := do
  let d ← Variant.destroy Types (s this)
  Types.foldlM (fun s1 T => VariantAlternative.assign_copy Types T this other s1)
    (Function.update s this d)

/-- The move assignment `operator=(Variant&& other)` on a store of objects. -/
def assign_move (A : AlternativeOps Ty Val Args) (Types : List Ty) (this other : Nat)
    (s : Nat → Variant Val) : Except Failure (Nat → Variant Val) := do
  let d ← Variant.destroy Types (s this)
  Types.foldlM (fun s1 T => VariantAlternative.assign_move A Types T this other s1)
    (Function.update s this d)

/-- The member `emplace<T>(args...)`: inside `try`, `destroy()`, `put<0, T>(args...)` and
`idx = new_idx`; the handler sets `idx = NPOS` and rethrows; on success the result is
`storage.get<new_idx>()`. The result pairs the state left behind with what the caller
receives: the new value or the propagated exception. -/
def emplace (A : AlternativeOps Ty Val Args) (Types : List Ty) (T : Ty) (args : Args)
    (this : Variant Val) : Except Failure (Variant Val × Except Exn Val) :=
  let new_idx := get_index_by_type_v T Types
  match Variant.destroy Types this with
  | .error (.thrown e) => .ok ({ this with idx := NPOS }, .error e)
  | .error f => .error f
  | .ok d =>
    match VariadicUnion.put T (A.construct T args) 0 Types d.storage with
    | .error (.thrown e) => .ok ({ d with idx := NPOS }, .error e)
    | .error f => .error f
    | .ok st =>
      match VariadicUnion.get new_idx Types st with
      | .ok x => .ok ({ storage := st, idx := new_idx }, .ok x)
      | .error f => .error f

/-- The member `emplace<Index>(args...)`: `emplace<get_type_by_index_t<Index, Types...>>`. -/
def emplace_at (A : AlternativeOps Ty Val Args) (Empty : Ty) (Types : List Ty) (Index : Nat)
    (args : Args) (this : Variant Val) : Except Failure (Variant Val × Except Exn Val) :=
  emplace A Types (get_type_by_index Empty Index Types) args this

end Variant

/-! ## Visitation -/

/-- The value category of an expression that denotes a container or one of its alternatives. -/
inductive Category where
  | lvalue
  | const_lvalue
  | rvalue
  | const_rvalue
  deriving DecidableEq, Repr

/-- One container argument `Vs&& vs` of `Visit`: the value category of the argument expression,
which fixes the reference type `Vs&&`, its alternative list and the state of the container. -/
structure Operand (Ty Val : Type) where
  category : Category
  Types : List Ty
  v : Variant Val

/-- One argument received by the handler: the expression `Get<I>(static_cast<Vs>(vs))` with its
value category, its static type and the object it denotes. -/
structure Argument (Ty Val : Type) where
  category : Category
  ty : Ty
  value : Val
  deriving DecidableEq, Repr

/-- A reference returned by `Get`: its value category and the object it denotes. -/
structure Reference (Val : Type) where
  category : Category
  value : Val
  deriving DecidableEq, Repr

/-- The cast `std::move`: an lvalue becomes an rvalue of the same constness. -/
def std_move {Val : Type} (r : Reference Val) : Reference Val :=
  match r.category with
  | .lvalue => { r with category := .rvalue }
  | .const_lvalue => { r with category := .const_rvalue }
  | .rvalue => r
  | .const_rvalue => r

/-- The overload `const auto& Get<Index>(const Variant<Types...>& v)`. -/
def Get_const_lvalue {Ty Val : Type} (Index : Nat) (Types : List Ty) (v : Variant Val) :
    Except Failure (Reference Val) :=
  if v.idx ≠ Index then .error .bad_variant_access
  else (VariadicUnion.get Index Types v.storage).map fun x =>
    { category := .const_lvalue, value := x }

/-- The overload `auto& Get<Index>(Variant<Types...>& v)`. -/
def Get_lvalue {Ty Val : Type} (Index : Nat) (Types : List Ty) (v : Variant Val) :
    Except Failure (Reference Val) :=
  if v.idx ≠ Index then .error .bad_variant_access
  else (VariadicUnion.get Index Types v.storage).map fun x =>
    { category := .lvalue, value := x }

/-- The overload `auto&& Get<Index>(Variant<Types...>&& v)`, which returns
`std::move(v.storage.get<Index>())`. -/
def Get_rvalue {Ty Val : Type} (Index : Nat) (Types : List Ty) (v : Variant Val) :
    Except Failure (Reference Val) :=
  if v.idx ≠ Index then .error .bad_variant_access
  else (VariadicUnion.get Index Types v.storage).map fun x =>
    std_move { category := .lvalue, value := x }

/-- The overload `const auto&& Get<Index>(const Variant<Types...>&& v)`, which returns
`std::move(v.storage.get<Index>())` on the const storage. -/
def Get_const_rvalue {Ty Val : Type} (Index : Nat) (Types : List Ty) (v : Variant Val) :
    Except Failure (Reference Val) :=
  if v.idx ≠ Index then .error .bad_variant_access
  else (VariadicUnion.get Index Types v.storage).map fun x =>
    std_move { category := .const_lvalue, value := x }

/-- The call `Get<Index>(static_cast<Vs>(vs))` of the leaf dispatcher, where `c` is the value
category of the cast expression: overload resolution selects the overload of `Get<Index>`
whose parameter is a reference of that category. -/
def Get_static_cast {Ty Val : Type} (c : Category) (Index : Nat) (Types : List Ty)
    (v : Variant Val) : Except Failure (Reference Val) :=
  match c with
  | .lvalue => Get_lvalue Index Types v
  | .const_lvalue => Get_const_lvalue Index Types v
  | .rvalue => Get_rvalue Index Types v
  | .const_rvalue => Get_const_rvalue Index Types v

/-- The declared type of the member that `VariadicUnion<Types...>::get<Index>()` returns. -/
def VariadicUnion.member_type {Ty : Type} : Nat → List Ty → Option Ty
  | _, [] => none
  | Index, Head :: Tail => if Index = 0 then some Head else member_type (Index - 1) Tail

/-- The constant `variant_size<Variant<Types...>>::value`, which is `sizeof...(Types)`. -/
def variant_size {Ty : Type} (Types : List Ty) : Nat := Types.length

/-- The table returned by `make_fmatrix`: a pointer to `dispatcher::dispatch` for a fixed index
sequence `Is...`, or a `std::array` of tables. -/
inductive Fmatrix where
  | dispatcher (Is : List Nat) : Fmatrix
  | array (elems : List Fmatrix) : Fmatrix

/-- The two overloads of `make_fmatrix_impl`: with no index sequence left the leaf for `Is...`;
otherwise `make_array` of the tables for `Is..., Js` over the remaining sequences. For an
empty `Js...` the call of `make_array` does not compile; here it is the empty array, every
lookup in which is out of bounds. -/
def make_fmatrix_impl : List Nat → List (List Nat) → Fmatrix
  | Is, [] => .dispatcher Is
  | Is, Js :: Ls => .array (Js.map fun J => make_fmatrix_impl (Is ++ [J]) Ls)

/-- The function `make_fmatrix<F, Vs...>()`, given `variant_size` of each of `Vs...`. -/
def make_fmatrix (sizes : List Nat) : Fmatrix :=
  make_fmatrix_impl [] (sizes.map List.range)

/-- The two overloads of `at_impl`: with no index left the element itself, otherwise
`at_impl(elems[i], is...)`. -/
def at_impl : Fmatrix → List Nat → Except Failure Fmatrix
  | elem, [] => .ok elem
  | .array elems, i :: is =>
    match elems[i]? with
    | some e => at_impl e is
    | none => .error .undefined_behaviour
  | .dispatcher _, _ :: _ => .error .ill_formed

/-- The function `at(elems, is...)`. -/
def at_ (elems : Fmatrix) (is : List Nat) : Except Failure Fmatrix :=
  at_impl elems is

/-- The argument list `Get<Is>(static_cast<Vs>(vs))...` of the leaf dispatcher: each argument
is the reference returned by the selected overload of `Get`, with the value category that
overload gives it and the declared type of the member it refers to. -/
def dispatch_args {Ty Val : Type} :
    List Nat → List (Operand Ty Val) → Except Failure (List (Argument Ty Val))
  | [], [] => .ok []
  | I :: Is, o :: vs => do
    let r ← Get_static_cast o.category I o.Types o.v
    let rest ← dispatch_args Is vs
    match VariadicUnion.member_type I o.Types with
    | some t => pure ({ category := r.category, ty := t, value := r.value } :: rest)
    | none => .error .ill_formed
  | _, _ => .error .ill_formed

/-- The leaf `dispatcher::dispatch(f, vs...)` for the index sequence `Is...`:
`std::invoke(f, Get<Is>(vs)...)`. -/
def dispatch {Ty Val R : Type} (Is : List Nat) (f : List (Argument Ty Val) → R)
    (vs : List (Operand Ty Val)) : Except Failure R := do
  let args ← dispatch_args Is vs
  pure (f args)

/-- The function `Visit(f, vs...)`: the entry `at(fmatrix, vs.index()...)` of the table
`make_fmatrix<F&&, Vs&&...>()` is called with `f` and `vs...`. -/
def Visit {Ty Val R : Type} (f : List (Argument Ty Val) → R) (vs : List (Operand Ty Val)) :
    Except Failure R := do
  let fmatrix := make_fmatrix (vs.map fun o => variant_size o.Types)
  let entry ← at_ fmatrix (vs.map fun o => o.v.index)
  match entry with
  | .dispatcher Is => dispatch Is f vs
  | .array _ => .error .ill_formed

/-! ## Well-formed alternative lists and container states -/

/-- An alternative list for which `Variant<Types...>` can be instantiated: the base classes
`VariantAlternative<Types, Types...>...` are pairwise distinct, and the number of types is
representable below `NPOS`. -/
def TypesOk {Ty : Type} (Types : List Ty) : Prop :=
  Types.Nodup ∧ Types.length < NPOS

/-- The invariant of the data model: `idx == NPOS` exactly when the storage holds no live
object. -/
def Variant.Invariant {Val : Type} (v : Variant Val) : Prop :=
  v.idx = NPOS ↔ v.storage.live = none

/-- The state of a container in which `idx` is the source of truth: either no object is alive
and `idx` is `NPOS`, or the live object sits at position `idx`, a position of the list. -/
def Variant.Valid {Ty Val : Type} (Types : List Ty) (v : Variant Val) : Prop :=
  (v.storage.live = none ∧ v.idx = NPOS) ∨
    (v.idx < Types.length ∧ ∃ x, v.storage.live = some (v.idx, x))

/-! ## Sequences of operations on one container -/

/-- A mutation of a container by its owner: the assignment `v = x` of a value of the
alternative type `T`, or `v.emplace<T>(args...)` whose exception, if any, the caller catches. -/
inductive Op (Ty Val Args : Type) where
  | assign (T : Ty) (x : Val) : Op Ty Val Args
  | emplace (T : Ty) (args : Args) : Op Ty Val Args

/-- The alternative type an operation names. -/
def Op.target {Ty Val Args : Type} : Op Ty Val Args → Ty
  | .assign T _ => T
  | .emplace T _ => T

/-- The state of the container after one operation. -/
def Variant.apply_op {Ty Val Args : Type} [DecidableEq Ty] (A : AlternativeOps Ty Val Args)
    (Types : List Ty) (v : Variant Val) : Op Ty Val Args → Except Failure (Variant Val)
  | .assign T x => VariantAlternative.assign_value A.assignable Types T x v
  | .emplace T args => (Variant.emplace A Types T args v).map Prod.fst

/-- The state of the container after a sequence of operations. -/
def Variant.run {Ty Val Args : Type} [DecidableEq Ty] (A : AlternativeOps Ty Val Args)
    (Types : List Ty) (ops : List (Op Ty Val Args)) (v : Variant Val) :
    Except Failure (Variant Val) :=
  ops.foldlM (Variant.apply_op A Types) v

/-! ## The types, values and handlers of `variant_test.cpp` -/

/-- The C++ types that occur as alternatives or handler parameters in the tests. -/
inductive CppType where
  | Empty | int | unsigned_int | long | long_long | char | bool | float | double
  | string | const_int | const_string | int_ptr | char_ptr | const_int_ptr
  | vector_char | vector_int | LightItem | HeavyItem | FragileItem
  deriving DecidableEq, Repr

/-- The objects of the tests: integers and characters by their number, floating-point numbers
as a fraction, text, sequences, addresses and empty structs. -/
inductive CppVal where
  | num (n : Int)
  | frac (numer denom : Int)
  | text (s : List Char)
  | seq (xs : List Int)
  | addr (a : Nat)
  | item
  deriving DecidableEq, Repr

/-- The alternatives of the tests: the arguments of a constructor call are given by its
outcome, a default-constructed object is empty text, a moved-from string or vector is
empty while a moved-from scalar keeps its value, and every type but the const-qualified
`const int` and `const std::string` is assignable. -/
def CppOps : AlternativeOps CppType CppVal (Except Exn CppVal) where
  construct := fun _ r => r
  no_args := .ok (.text [])
  moved_from := fun T x =>
    match T with
    | .string => .text []
    | .const_string => x
    | .vector_char => .seq []
    | .vector_int => .seq []
    | _ => x
  assignable := fun T =>
    match T with
    | .const_int => false
    | .const_string => false
    | _ => true

/-- The alternative list `char, long, float, int, double, long long` of `TestVisit`. -/
def TestVisit_Types : List CppType :=
  [.char, .long, .float, .int, .double, .long_long]

/-- The initialisers `{5, '2', 5.4, 100ll, 2011l, 3.5f, 2017}` of `TestVisit` with their
types. -/
def TestVisit_values : List (CppType × CppVal) :=
  [(.int, .num 5), (.char, .num 50), (.double, .frac 27 5), (.long_long, .num 100),
   (.long, .num 2011), (.float, .frac 7 2), (.int, .num 2017)]

/-- The handler `visitor` of `TestVisit`: overload resolution over the lambdas taking `char`,
`int`, `unsigned int`, `long int`, `long long int` and `auto` by value picks the exact
non-template match, else the generic lambda. -/
def TestVisit_visitor : List (Argument CppType CppVal) → Nat
  | [a] =>
    match a.ty with
    | .char => 1
    | .int => 2
    | .unsigned_int => 3
    | .long => 4
    | .long_long => 5
    | _ => 6
  | _ => 0

/-- The loop of `TestVisit`: each element is constructed from its initialiser, copied into the
loop variable and visited as an lvalue. -/
def TestVisit_results : List (Except Failure Nat) :=
  TestVisit_values.map fun p => do
    let v ← Variant.ctor_value TestVisit_Types p.1 p.2 0
    let c ← Variant.ctor_copy TestVisit_Types v 0
    Visit TestVisit_visitor [{ category := .lvalue, Types := TestVisit_Types, v := c }]

/-- The alternative list `int*, char*, std::vector<char>, const int*, bool` of
`TestOverloadingSelection`. -/
def TestOverloading_Types : List CppType :=
  [.int_ptr, .char_ptr, .vector_char, .const_int_ptr, .bool]

/-- The alternative list `int, std::string, double` of `BasicTest`. -/
def BasicTest_Types : List CppType :=
  [.int, .string, .double]

/-- The alternative list `std::string, char, std::vector<int>` of
`TestCopyMoveConstructorsAssignments`. -/
def TestCopyMove_Types : List CppType :=
  [.string, .char, .vector_int]

/-- The alternative list `const int, std::string, const std::string, double` of
`TestVariantWithConstType`. -/
def TestConst_Types : List CppType :=
  [.const_int, .string, .const_string, .double]

/-- The container of `TestOverloadingSelection` after `v = &c`: the `char*` alternative, at
position 1, holds the address of `c`. -/
def TestOverloading_char_ptr : Variant CppVal :=
  { storage := .tail (.head (.addr 1)), idx := 1 }

/-- The container of `TestVariantWithConstType` after `v = 1`: the `const int` alternative. -/
def TestConst_one : Variant CppVal :=
  { storage := .head (.num 1), idx := 0 }

/-- A container over the list of `TestCopyMoveConstructorsAssignments` that holds the string
`"ab"`. -/
def TestCopyMove_ab : Variant CppVal :=
  { storage := .head (.text ['a', 'b']), idx := 0 }

/-- The first element of `vecVariant` in `TestVisit`, holding the `int` 5 at position 3, as the
lvalue argument of `Visit`. -/
def TestVisit_operand_five : Operand CppType CppVal where
  category := .lvalue
  Types := TestVisit_Types
  v := { storage := .tail (.tail (.tail (.head (.num 5)))), idx := 3 }

/-- The container `v` of `TestCopyMoveConstructorsAssignments` after
`v = "abcdefgh"`. -/
def TestCopyMove_abcdefgh : Variant CppVal :=
  { storage := .head (.text ['a', 'b', 'c', 'd', 'e', 'f', 'g', 'h']), idx := 0 }

/-- A store of containers over the list of `TestCopyMoveConstructorsAssignments`: the object
at address 1 holds the string `"abcdefgh"`, every other object holds the `char` `'a'`. -/
def TestCopyMove_store : Nat → Variant CppVal :=
  fun l =>
    if l = 1 then TestCopyMove_abcdefgh else { storage := .tail (.head (.num 97)), idx := 1 }

/-- The container left behind by an `emplace<std::vector<int>>` on `TestCopyMove_ab` whose
construction throws: the string has been destroyed and `idx` is `NPOS`. -/
def TestCopyMove_valueless : Variant CppVal :=
  { storage := .raw, idx := NPOS }

/-- A store in which the object at address 1 is valueless and every other object holds the
string `"ab"`. -/
def TestCopyMove_valueless_store : Nat → Variant CppVal :=
  fun l => if l = 1 then TestCopyMove_valueless else TestCopyMove_ab

/-- The operations of `TestOverloadingSelection` after the construction from `true`: the
assignments of a `std::vector<char>`, of `&c`, of `&x` (a `const int*`) and of `&z` (an
`int*`). -/
def TestOverloading_ops : List (Op CppType CppVal (Except Exn CppVal)) :=
  [.assign .vector_char (.seq []), .assign .char_ptr (.addr 1), .assign .const_int_ptr (.addr 2),
   .assign .int_ptr (.addr 3)]

/-! ## The value-category forms of `Get<T>` -/

/-- The overload `const T& Get<T>(const Variant<Types...>& v)`. -/
def Get_by_type_const_lvalue {Ty Val : Type} [DecidableEq Ty] (T : Ty) (Types : List Ty)
    (v : Variant Val) : Except Failure (Reference Val) :=
  Get_const_lvalue (get_index_by_type_v T Types) Types v

/-- The overload `T& Get<T>(Variant<Types...>& v)`. -/
def Get_by_type_lvalue {Ty Val : Type} [DecidableEq Ty] (T : Ty) (Types : List Ty)
    (v : Variant Val) : Except Failure (Reference Val) :=
  Get_lvalue (get_index_by_type_v T Types) Types v

/-- The overload `T&& Get<T>(Variant<Types...>&& v)`, which returns
`std::move(Get<get_index_by_type_v<T, Types...>>(std::move(v)))`. -/
def Get_by_type_rvalue {Ty Val : Type} [DecidableEq Ty] (T : Ty) (Types : List Ty)
    (v : Variant Val) : Except Failure (Reference Val) :=
  (Get_rvalue (get_index_by_type_v T Types) Types v).map std_move

/-- The overload `const T&& Get<T>(const Variant<Types...>&& v)`. -/
def Get_by_type_const_rvalue {Ty Val : Type} [DecidableEq Ty] (T : Ty) (Types : List Ty)
    (v : Variant Val) : Except Failure (Reference Val) :=
  (Get_const_rvalue (get_index_by_type_v T Types) Types v).map std_move

/-! ## Constructor and destructor calls -/

/-- A call of a constructor or of a destructor of an alternative, with the type of the object
and the object. -/
inductive Event (Ty Val : Type) where
  | destroyed (T : Ty) (x : Val) : Event Ty Val
  | constructed (T : Ty) (x : Val) : Event Ty Val
  deriving DecidableEq, Repr

/-- The member function `VariadicUnion::destroy<T>()` together with the destructor call it
makes: `head.~Head()` when `T` is `Head`, else `tail.destroy<T>()`. -/
def VariadicUnion.destroy_traced {Ty Val : Type} [DecidableEq Ty] (T : Ty) :
    List Ty → VariadicUnion Val → Except Failure (VariadicUnion Val × List (Event Ty Val))
  | [], _ => .error .ill_formed
  | Head :: Tail, u =>
    if T = Head then
      match u with
      | .head x => .ok (.raw, [.destroyed Head x])
      | _ => .error .undefined_behaviour
    else (VariadicUnion.destroy_traced T Tail u.tail_member).map fun p => (.tail p.1, p.2)

/-- The member `VariantAlternative::destroy()` on a container and the calls made so far. -/
def VariantAlternative.destroy_traced {Ty Val : Type} [DecidableEq Ty] (Types : List Ty)
    (T : Ty) (p : Variant Val × List (Event Ty Val)) :
    Except Failure (Variant Val × List (Event Ty Val)) :=
  if p.1.idx = VariantAlternative.Index Types T then do
    let r ← VariadicUnion.destroy_traced T Types p.1.storage
    pure ({ p.1 with storage := r.1 }, p.2 ++ r.2)
  else pure p

/-- The private member `Variant::destroy()` together with the destructor calls it makes. -/
def Variant.destroy_traced {Ty Val : Type} [DecidableEq Ty] (Types : List Ty)
    (this : Variant Val) : Except Failure (Variant Val × List (Event Ty Val)) :=
  Types.foldlM (fun p T => VariantAlternative.destroy_traced Types T p) (this, [])

/-- The member `emplace<T>(args...)` together with the constructor and destructor calls it
makes on alternatives, in order: those of `destroy()`, then the construction by `put` when it
succeeds. -/
def Variant.emplace_traced {Ty Val Args : Type} [DecidableEq Ty]
    (A : AlternativeOps Ty Val Args) (Types : List Ty) (T : Ty) (args : Args)
    (this : Variant Val) :
    Except Failure (Variant Val × Except Exn Val × List (Event Ty Val)) :=
  let new_idx := get_index_by_type_v T Types
  match Variant.destroy_traced Types this with
  | .error (.thrown e) => .ok ({ this with idx := NPOS }, .error e, [])
  | .error f => .error f
  | .ok (d, log) =>
    match VariadicUnion.put T (A.construct T args) 0 Types d.storage with
    | .error (.thrown e) => .ok ({ d with idx := NPOS }, .error e, log)
    | .error f => .error f
    | .ok st =>
      match VariadicUnion.get new_idx Types st with
      | .ok x => .ok ({ storage := st, idx := new_idx }, .ok x, log ++ [.constructed T x])
      | .error f => .error f

/-! ## The handlers and containers of `TestMultipleVisit` -/

/-- The alternative list `LightItem, HeavyItem` of `basicPackA`. -/
def TestMultipleVisit_TypesA : List CppType :=
  [.LightItem, .HeavyItem]

/-- The alternative list `LightItem, HeavyItem, FragileItem` of `basicPackB`. -/
def TestMultipleVisit_TypesB : List CppType :=
  [.LightItem, .HeavyItem, .FragileItem]

/-- The first handler of `TestMultipleVisit`: four lambdas taking `LightItem&` or `HeavyItem&`
for each parameter and the generic `[](auto, auto)`. A lambda on non-const lvalue references
is viable only for two non-const lvalues and then wins over the template; in every other case
the generic lambda is called. The handler takes exactly two arguments. -/
def TestMultipleVisit_visitor : List (Argument CppType CppVal) → String
  | [a, b] =>
    if a.category = .lvalue ∧ b.category = .lvalue then
      match a.ty, b.ty with
      | .LightItem, .LightItem => "2 light items"
      | .LightItem, .HeavyItem => "light & heavy items"
      | .HeavyItem, .LightItem => "heavy & light items"
      | .HeavyItem, .HeavyItem => "2 heavy items"
      | _, _ => "another"
    else "another"
  | _ => ""

/-- The result the first test of `TestMultipleVisit` expects for the active positions of
`basicPackA` and `basicPackB`. -/
def TestMultipleVisit_expected : Nat → Nat → String
  | 0, 0 => "2 light items"
  | 0, 1 => "light & heavy items"
  | 1, 0 => "heavy & light items"
  | 1, 1 => "2 heavy items"
  | _, _ => "another"

/-- The second handler of `TestMultipleVisit`: lambdas on `(HeavyItem&, FragileItem&)`,
`(HeavyItem&&, FragileItem&)`, `(const HeavyItem&, const FragileItem&)` and the generic
`[](auto&&, auto&&)`. The generic lambda binds every argument exactly, so a non-template
lambda is called only when it binds both arguments exactly as well. -/
def TestMultipleVisit_category_visitor : List (Argument CppType CppVal) → String
  | [a, b] =>
    match a.ty, a.category, b.ty, b.category with
    | .HeavyItem, .lvalue, .FragileItem, .lvalue => "both lvalue"
    | .HeavyItem, .rvalue, .FragileItem, .lvalue => "rvalue and lvalue"
    | .HeavyItem, .const_lvalue, .FragileItem, .const_lvalue => "both const"
    | _, _, _, _ => "another"
  | _ => ""

/-- The container `basicPackA` after `basicPackA = HeavyItem()`. -/
def TestMultipleVisit_heavy : Variant CppVal :=
  { storage := .tail (.head .item), idx := 1 }

/-- The container `basicPackB` after `basicPackB = FragileItem()`. -/
def TestMultipleVisit_fragile : Variant CppVal :=
  { storage := .tail (.tail (.head .item)), idx := 2 }

/-- The arguments `basicPackA, basicPackB` of a `Visit` of the second test, as expressions of
the given value categories. -/
def TestMultipleVisit_operands (ca cb : Category) : List (Operand CppType CppVal) :=
  [{ category := ca, Types := TestMultipleVisit_TypesA, v := TestMultipleVisit_heavy },
   { category := cb, Types := TestMultipleVisit_TypesB, v := TestMultipleVisit_fragile }]

/-- The five calls of `Visit` of the second test of `TestMultipleVisit`: two lvalues; an rvalue
and an lvalue; two rvalues; two const lvalues; an lvalue and a const lvalue. -/
def TestMultipleVisit_category_results : List (Except Failure String) :=
  [Visit TestMultipleVisit_category_visitor (TestMultipleVisit_operands .lvalue .lvalue),
   Visit TestMultipleVisit_category_visitor (TestMultipleVisit_operands .rvalue .lvalue),
   Visit TestMultipleVisit_category_visitor (TestMultipleVisit_operands .rvalue .rvalue),
   Visit TestMultipleVisit_category_visitor
     (TestMultipleVisit_operands .const_lvalue .const_lvalue),
   Visit TestMultipleVisit_category_visitor (TestMultipleVisit_operands .lvalue .const_lvalue)]

/-- A valueless container over the list of `TestVisit` as the lvalue argument of `Visit`. -/
def TestVisit_operand_valueless : Operand CppType CppVal where
  category := .lvalue
  Types := TestVisit_Types
  v := { storage := .raw, idx := NPOS }

/-! ## A store of containers of one type and the operations on it -/

/-- An operation of a program on containers of type `Variant<Types...>` held at addresses: the
construction of a new object at `l` (from a value, by default, by copy or by move from the
object at `src`), the assignment of a value, an `emplace` whose exception the caller catches,
and the copy or move assignment from the object at `src`. -/
inductive StoreOp (Ty Val Args : Type) where
  | construct_value (l : Nat) (T : Ty) (x : Val) (stale : Nat) : StoreOp Ty Val Args
  | construct_default (l : Nat) : StoreOp Ty Val Args
  | construct_copy (l src : Nat) (stale : Nat) : StoreOp Ty Val Args
  | construct_move (l src : Nat) (stale : Nat) : StoreOp Ty Val Args
  | assign_value (l : Nat) (T : Ty) (x : Val) : StoreOp Ty Val Args
  | emplace (l : Nat) (T : Ty) (args : Args) : StoreOp Ty Val Args
  | assign_copy (l src : Nat) : StoreOp Ty Val Args
  | assign_move (l src : Nat) : StoreOp Ty Val Args

/-- The store after one operation. A default construction that throws creates no object and
leaves the store as it was; a failed `emplace` leaves its container in the store. -/
def Store_step {Ty Val Args : Type} [DecidableEq Ty] (A : AlternativeOps Ty Val Args)
    (Empty : Ty) (Types : List Ty) (s : Nat → Variant Val) :
    StoreOp Ty Val Args → Except Failure (Nat → Variant Val)
  | .construct_value l T x stale =>
    (Variant.ctor_value Types T x stale).map fun v => Function.update s l v
  | .construct_default l =>
    match Variant.ctor_default A Empty Types with
    | .ok v => .ok (Function.update s l v)
    | .error (.thrown _) => .ok s
    | .error f => .error f
  | .construct_copy l src stale =>
    (Variant.ctor_copy Types (s src) stale).map fun v => Function.update s l v
  | .construct_move l src stale =>
    (Variant.ctor_move A Types (s src) stale).map fun p =>
      Function.update (Function.update s src p.2) l p.1
  | .assign_value l T x =>
    (VariantAlternative.assign_value A.assignable Types T x (s l)).map fun v =>
      Function.update s l v
  | .emplace l T args =>
    (Variant.emplace A Types T args (s l)).map fun r => Function.update s l r.1
  | .assign_copy l src => Variant.assign_copy Types l src s
  | .assign_move l src => Variant.assign_move A Types l src s

/-- The operations the reachability of container states ranges over: the types named are
alternatives, a value assignment names an alternative that is assignable (the assignment
compiles), a default construction is over a list with a first alternative, and a copy or a
move has a source that is not valueless and is another object than its destination. -/
def StoreOp.admissible {Ty Val Args : Type} (A : AlternativeOps Ty Val Args) (Types : List Ty)
    (s : Nat → Variant Val) : StoreOp Ty Val Args → Prop
  | .construct_value _ T _ _ => T ∈ Types
  | .construct_default _ => Types ≠ []
  | .construct_copy l src _ => l ≠ src ∧ (s src).valueless_by_exception = false
  | .construct_move l src _ => l ≠ src ∧ (s src).valueless_by_exception = false
  | .assign_value _ T _ => T ∈ Types ∧ A.assignable T = true
  | .emplace _ T _ => T ∈ Types
  | .assign_copy l src => l ≠ src ∧ (s src).valueless_by_exception = false
  | .assign_move l src => l ≠ src ∧ (s src).valueless_by_exception = false

/-- A container state produced by the construction from a value of an alternative type or by
the default construction over a list with a first alternative. -/
def Variant.Constructed {Ty Val Args : Type} [DecidableEq Ty] (A : AlternativeOps Ty Val Args)
    (Empty : Ty) (Types : List Ty) (v : Variant Val) : Prop :=
  (∃ T ∈ Types, ∃ (x : Val) (stale : Nat), Variant.ctor_value Types T x stale = .ok v) ∨
    (Types ≠ [] ∧ Variant.ctor_default A Empty Types = .ok v)

/-- The stores reachable from objects constructed from a value or by default through admissible
operations. -/
inductive Reachable {Ty Val Args : Type} [DecidableEq Ty] (A : AlternativeOps Ty Val Args)
    (Empty : Ty) (Types : List Ty) : (Nat → Variant Val) → Prop where
  | init (s : Nat → Variant Val) (h : ∀ l, Variant.Constructed A Empty Types (s l)) :
    Reachable A Empty Types s
  | step (s s1 : Nat → Variant Val) (op : StoreOp Ty Val Args)
    (hs : Reachable A Empty Types s) (hop : StoreOp.admissible A Types s op)
    (h : Store_step A Empty Types s op = .ok s1) : Reachable A Empty Types s1

/-- The container of `TestCopyMoveConstructorsAssignments` after `v = vec` with
`vec = {1, 2, 3, 4, 5}`: the `std::vector<int>` alternative, at position 2. -/
def TestCopyMove_vector : Variant CppVal :=
  { storage := .tail (.tail (.head (.seq [1, 2, 3, 4, 5]))), idx := 2 }

/-- A store in which every object is the container `TestCopyMove_vector`. -/
def TestCopyMove_vector_store : Nat → Variant CppVal :=
  fun _ => TestCopyMove_vector

/-- A list of types with a repeat. -/
def Repeated_Types : List CppType :=
  [.int, .char, .int, .char]

/-- A store over the list of `TestCopyMoveConstructorsAssignments` in which every object has
been constructed from the string `"ab"`. -/
def TestCopyMove_initial_store : Nat → Variant CppVal :=
  fun _ => TestCopyMove_ab

/-! ## Lemmas on the index traits -/

section IndexLemmas

variable {Ty : Type} [DecidableEq Ty]

theorem NPOS_lt_SIZE_MOD : NPOS < SIZE_MOD := by
  unfold NPOS SIZE_MOD; omega

theorem get_index_by_type_of_mem (T : Ty) :
    ∀ (Types : List Ty) (k : Nat), T ∈ Types → k + Types.length ≤ SIZE_MOD →
      get_index_by_type k T Types = k + Types.indexOf T := by
  intro Types
  induction Types with
  | nil => intro k h; simp at h
  | cons Head Tail ih =>
    intro k hmem hk
    by_cases hT : T = Head
    · subst hT
      simp [get_index_by_type]
    · have hmem2 : T ∈ Tail := by
        rcases List.mem_cons.mp hmem with h | h
        · exact absurd h hT
        · exact h
      have hpos : 0 < Tail.length := List.length_pos_of_mem hmem2
      have hlen : (Head :: Tail).length = Tail.length + 1 := rfl
      have hk1 : (k + 1) % SIZE_MOD = k + 1 := Nat.mod_eq_of_lt (by omega)
      have hne : Head ≠ T := fun h => hT h.symm
      rw [get_index_by_type, if_neg hT, hk1, ih (k + 1) hmem2 (by omega),
        List.indexOf_cons_ne _ hne]
      omega

theorem get_index_by_type_of_not_mem (T : Ty) :
    ∀ (Types : List Ty) (k : Nat), T ∉ Types → get_index_by_type k T Types = NPOS := by
  intro Types
  induction Types with
  | nil => intro k _; rfl
  | cons Head Tail ih =>
    intro k hmem
    have hT : T ≠ Head := fun h => hmem (by simp [h])
    have hmem2 : T ∉ Tail := fun h => hmem (List.mem_cons_of_mem _ h)
    rw [get_index_by_type, if_neg hT, ih _ hmem2]

theorem Index_of_mem {Types : List Ty} {T : Ty} (hlen : Types.length < NPOS)
    (hmem : T ∈ Types) : VariantAlternative.Index Types T = Types.indexOf T := by
  have h := get_index_by_type_of_mem T Types 0 hmem
    (by have := NPOS_lt_SIZE_MOD; omega)
  simpa [VariantAlternative.Index, get_index_by_type_v] using h

theorem Index_lt_length {Types : List Ty} {T : Ty} (hlen : Types.length < NPOS)
    (hmem : T ∈ Types) : VariantAlternative.Index Types T < Types.length := by
  rw [Index_of_mem hlen hmem]
  exact List.indexOf_lt_length.mpr hmem

theorem Index_ne_NPOS {Types : List Ty} {T : Ty} (hlen : Types.length < NPOS)
    (hmem : T ∈ Types) : VariantAlternative.Index Types T ≠ NPOS := by
  have := Index_lt_length hlen hmem
  omega

theorem Index_inj {Types : List Ty} {T U : Ty} (hlen : Types.length < NPOS)
    (hT : T ∈ Types) (hU : U ∈ Types)
    (h : VariantAlternative.Index Types T = VariantAlternative.Index Types U) : T = U := by
  rw [Index_of_mem hlen hT, Index_of_mem hlen hU] at h
  exact (List.indexOf_inj hT hU).mp h

omit [DecidableEq Ty] in
theorem member_type_eq_getElem? :
    ∀ (Types : List Ty) (i : Nat), VariadicUnion.member_type i Types = Types[i]? := by
  intro Types
  induction Types with
  | nil => intro i; simp [VariadicUnion.member_type]
  | cons Head Tail ih =>
    intro i
    cases i with
    | zero => simp [VariadicUnion.member_type]
    | succ n => simp [VariadicUnion.member_type, ih]

end IndexLemmas

/-! ## Lemmas on the storage -/

section StorageLemmas

variable {Ty Val : Type} [DecidableEq Ty]

omit [DecidableEq Ty] in
theorem live_tail_member_succ {u : VariadicUnion Val} {i : Nat} {x : Val}
    (h : u.live = some (i + 1, x)) : u.tail_member.live = some (i, x) := by
  cases u with
  | raw => simp [VariadicUnion.live] at h
  | head y => simp [VariadicUnion.live] at h
  | tail t =>
    simp only [VariadicUnion.live, Option.map_eq_some'] at h
    obtain ⟨p, hp, hq⟩ := h
    obtain ⟨j, y⟩ := p
    simp only [Prod.mk.injEq, Nat.add_right_cancel_iff] at hq
    obtain ⟨rfl, rfl⟩ := hq
    simpa [VariadicUnion.tail_member] using hp

omit [DecidableEq Ty] in
theorem get_of_live :
    ∀ (Types : List Ty) (i : Nat) (u : VariadicUnion Val) (x : Val),
      u.live = some (i, x) → i < Types.length → VariadicUnion.get i Types u = .ok x := by
  intro Types
  induction Types with
  | nil => intro i u x _ hi; simp at hi
  | cons Head Tail ih =>
    intro i u x hl hi
    cases i with
    | zero =>
      cases u with
      | raw => simp [VariadicUnion.live] at hl
      | head y =>
        simp only [VariadicUnion.live, Option.some.injEq, Prod.mk.injEq, true_and] at hl
        simp [VariadicUnion.get, hl]
      | tail t =>
        simp only [VariadicUnion.live, Option.map_eq_some'] at hl
        obtain ⟨p, _, hq⟩ := hl
        simp at hq
    | succ n =>
      have h2 := live_tail_member_succ hl
      have hn : n < Tail.length := by simpa using hi
      simp [VariadicUnion.get, ih n u.tail_member x h2 hn]

omit [DecidableEq Ty] in
theorem live_of_get :
    ∀ (Types : List Ty) (i : Nat) (u : VariadicUnion Val) (x : Val),
      VariadicUnion.get i Types u = .ok x → u.live = some (i, x) ∧ i < Types.length := by
  intro Types
  induction Types with
  | nil => intro i u x h; simp [VariadicUnion.get] at h
  | cons Head Tail ih =>
    intro i u x h
    cases i with
    | zero =>
      cases u with
      | raw => simp [VariadicUnion.get] at h
      | head y =>
        simp only [VariadicUnion.get, if_true, Except.ok.injEq] at h
        simp [VariadicUnion.live, h]
      | tail t => simp [VariadicUnion.get] at h
    | succ n =>
      simp only [VariadicUnion.get, Nat.add_one_ne_zero, if_false, Nat.add_sub_cancel] at h
      obtain ⟨h1, h2⟩ := ih n u.tail_member x h
      constructor
      · cases u with
        | raw => simp [VariadicUnion.tail_member, VariadicUnion.live] at h1
        | head y => simp [VariadicUnion.tail_member, VariadicUnion.live] at h1
        | tail t =>
          simp only [VariadicUnion.tail_member] at h1
          simp [VariadicUnion.live, h1]
      · simpa using h2

theorem put_ok_of_mem (T : Ty) (x : Val) :
    ∀ (Types : List Ty) (j : Nat) (u : VariadicUnion Val), T ∈ Types →
      ∃ u1, VariadicUnion.put T (.ok x) j Types u = .ok u1 ∧
        u1.live = some (Types.indexOf T, x) := by
  intro Types
  induction Types with
  | nil => intro j u h; simp at h
  | cons Head Tail ih =>
    intro j u hmem
    by_cases hT : T = Head
    · subst hT
      exact ⟨.head x, by simp [VariadicUnion.put], by simp [VariadicUnion.live]⟩
    · have hmem2 : T ∈ Tail := by
        rcases List.mem_cons.mp hmem with h | h
        · exact absurd h hT
        · exact h
      obtain ⟨u1, h1, h2⟩ := ih ((j + 1) % SIZE_MOD) u.tail_member hmem2
      have hne : Head ≠ T := fun h => hT h.symm
      refine ⟨.tail u1, ?_, ?_⟩
      · simp [VariadicUnion.put, hT, h1, Except.map]
      · simp [VariadicUnion.live, h2, List.indexOf_cons_ne _ hne]

theorem put_thrown_of_mem (T : Ty) (e : Exn) :
    ∀ (Types : List Ty) (j : Nat) (u : VariadicUnion Val), T ∈ Types →
      VariadicUnion.put T (.error e) j Types u = .error (.thrown e) := by
  intro Types
  induction Types with
  | nil => intro j u h; simp at h
  | cons Head Tail ih =>
    intro j u hmem
    by_cases hT : T = Head
    · subst hT
      simp [VariadicUnion.put]
    · have hmem2 : T ∈ Tail := by
        rcases List.mem_cons.mp hmem with h | h
        · exact absurd h hT
        · exact h
      simp [VariadicUnion.put, hT, ih ((j + 1) % SIZE_MOD) u.tail_member hmem2, Except.map]

theorem assign_compiles_of_mem (assignable : Ty → Bool) (T : Ty) :
    ∀ (Types : List Ty) (j : Nat), T ∈ Types →
      VariadicUnion.assign_compiles assignable T j Types = assignable T := by
  intro Types
  induction Types with
  | nil => intro j h; simp at h
  | cons Head Tail ih =>
    intro j hmem
    by_cases hT : T = Head
    · subst hT
      simp [VariadicUnion.assign_compiles]
    · have hmem2 : T ∈ Tail := by
        rcases List.mem_cons.mp hmem with h | h
        · exact absurd h hT
        · exact h
      simp [VariadicUnion.assign_compiles, hT, ih ((j + 1) % SIZE_MOD) hmem2]

theorem assign_of_live (assignable : Ty → Bool) (T : Ty) (ha : assignable T = true)
    (y : Val) :
    ∀ (Types : List Ty) (j : Nat) (u : VariadicUnion Val) (x : Val), T ∈ Types →
      u.live = some (Types.indexOf T, x) →
      ∃ u1, VariadicUnion.assign assignable T y j Types u = .ok u1 ∧
        u1.live = some (Types.indexOf T, y) := by
  intro Types
  induction Types with
  | nil => intro j u x h; simp at h
  | cons Head Tail ih =>
    intro j u x hmem hl
    by_cases hT : T = Head
    · subst hT
      rw [List.indexOf_cons_self] at hl
      cases u with
      | raw => simp [VariadicUnion.live] at hl
      | head z =>
        exact ⟨.head y, by simp [VariadicUnion.assign, ha], by simp [VariadicUnion.live]⟩
      | tail t =>
        simp only [VariadicUnion.live, Option.map_eq_some'] at hl
        obtain ⟨p, _, hq⟩ := hl
        simp at hq
    · have hmem2 : T ∈ Tail := by
        rcases List.mem_cons.mp hmem with h | h
        · exact absurd h hT
        · exact h
      have hne : Head ≠ T := fun h => hT h.symm
      rw [List.indexOf_cons_ne _ hne] at hl
      obtain ⟨u1, h1, h2⟩ :=
        ih ((j + 1) % SIZE_MOD) u.tail_member x hmem2 (live_tail_member_succ hl)
      refine ⟨.tail u1, ?_, ?_⟩
      · simp [VariadicUnion.assign, hT, h1, Except.map]
      · simp [VariadicUnion.live, h2, List.indexOf_cons_ne _ hne]

theorem destroy_of_live (T : Ty) :
    ∀ (Types : List Ty) (u : VariadicUnion Val) (x : Val), T ∈ Types →
      u.live = some (Types.indexOf T, x) →
      ∃ u1, VariadicUnion.destroy T Types u = .ok u1 ∧ u1.live = none := by
  intro Types
  induction Types with
  | nil => intro u x h; simp at h
  | cons Head Tail ih =>
    intro u x hmem hl
    by_cases hT : T = Head
    · subst hT
      rw [List.indexOf_cons_self] at hl
      cases u with
      | raw => simp [VariadicUnion.live] at hl
      | head z =>
        exact ⟨.raw, by simp [VariadicUnion.destroy], by simp [VariadicUnion.live]⟩
      | tail t =>
        simp only [VariadicUnion.live, Option.map_eq_some'] at hl
        obtain ⟨p, _, hq⟩ := hl
        simp at hq
    · have hmem2 : T ∈ Tail := by
        rcases List.mem_cons.mp hmem with h | h
        · exact absurd h hT
        · exact h
      have hne : Head ≠ T := fun h => hT h.symm
      rw [List.indexOf_cons_ne _ hne] at hl
      obtain ⟨u1, h1, h2⟩ := ih u.tail_member x hmem2 (live_tail_member_succ hl)
      refine ⟨.tail u1, ?_, ?_⟩
      · simp [VariadicUnion.destroy, hT, h1, Except.map]
      · simp [VariadicUnion.live, h2]

omit [DecidableEq Ty] in
theorem write_of_live (y : Val) :
    ∀ (Types : List Ty) (i : Nat) (u : VariadicUnion Val) (x : Val),
      u.live = some (i, x) → i < Types.length →
      ∃ u1, VariadicUnion.write i Types u y = .ok u1 ∧ u1.live = some (i, y) := by
  intro Types
  induction Types with
  | nil => intro i u x _ hi; simp at hi
  | cons Head Tail ih =>
    intro i u x hl hi
    cases i with
    | zero =>
      cases u with
      | raw => simp [VariadicUnion.live] at hl
      | head z =>
        exact ⟨.head y, by simp [VariadicUnion.write], by simp [VariadicUnion.live]⟩
      | tail t =>
        simp only [VariadicUnion.live, Option.map_eq_some'] at hl
        obtain ⟨p, _, hq⟩ := hl
        simp at hq
    | succ n =>
      have hn : n < Tail.length := by simpa using hi
      obtain ⟨u1, h1, h2⟩ := ih n u.tail_member x (live_tail_member_succ hl) hn
      refine ⟨.tail u1, ?_, ?_⟩
      · simp [VariadicUnion.write, h1, Except.map]
      · simp [VariadicUnion.live, h2]

end StorageLemmas

/-! ## Lemmas on the container -/

section VariantLemmas

variable {Ty Val Args : Type} [DecidableEq Ty]

theorem exists_Index_eq {Types : List Ty} (hok : TypesOk Types) {i : Nat}
    (hi : i < Types.length) :
    ∃ T, T ∈ Types ∧ VariantAlternative.Index Types T = i ∧ Types[i]? = some T := by
  refine ⟨Types[i], List.getElem_mem _, ?_, by simp [hi]⟩
  rw [Index_of_mem hok.2 (List.getElem_mem _)]
  exact List.indexOf_getElem hok.1 i hi

omit [DecidableEq Ty] in
theorem invariant_of_valid {Types : List Ty} {v : Variant Val} (hok : TypesOk Types)
    (hv : Variant.Valid Types v) : Variant.Invariant v := by
  unfold Variant.Invariant
  rcases hv with ⟨h1, h2⟩ | ⟨h1, x, h2⟩
  · simp [h1, h2]
  · have := hok.2
    constructor
    · intro h; omega
    · intro h; rw [h2] at h; simp at h

theorem destroy_fold_skip (Types : List Ty) :
    ∀ (L : List Ty) (v : Variant Val),
      (∀ T ∈ L, VariantAlternative.Index Types T ≠ v.idx) →
      L.foldlM (fun s T => VariantAlternative.destroy Types T s) v = .ok v := by
  intro L
  induction L with
  | nil => intro v _; rfl
  | cons T L ih =>
    intro v h
    have h1 : v.idx ≠ VariantAlternative.Index Types T :=
      fun e => h T (List.mem_cons_self _ _) e.symm
    have h2 : ∀ U ∈ L, VariantAlternative.Index Types U ≠ v.idx :=
      fun U hU => h U (List.mem_cons_of_mem _ hU)
    simp only [List.foldlM_cons, VariantAlternative.destroy, if_neg h1]
    simpa [bind, Except.bind, pure, Except.pure] using ih v h2

theorem destroy_fold_live {Types : List Ty} (hok : TypesOk Types) :
    ∀ (L : List Ty) (v : Variant Val) (x : Val), L.Nodup → (∀ T ∈ L, T ∈ Types) →
      v.storage.live = some (v.idx, x) →
      (∃ T ∈ L, VariantAlternative.Index Types T = v.idx) →
      ∃ d, L.foldlM (fun s T => VariantAlternative.destroy Types T s) v = .ok d ∧
        d.idx = v.idx ∧ d.storage.live = none := by
  intro L
  induction L with
  | nil => intro v x _ _ _ h; simp at h
  | cons T L ih =>
    intro v x hnd hsub hl hex
    have hTm : T ∈ Types := hsub T (List.mem_cons_self _ _)
    have hnd2 := List.nodup_cons.mp hnd
    by_cases hT : v.idx = VariantAlternative.Index Types T
    · have hl2 : v.storage.live = some (Types.indexOf T, x) := by
        rw [hl, hT, Index_of_mem hok.2 hTm]
      obtain ⟨u1, hu1, hu2⟩ := destroy_of_live T Types v.storage x hTm hl2
      have hrest : ∀ U ∈ L, VariantAlternative.Index Types U ≠
          (({ v with storage := u1 } : Variant Val)).idx := by
        intro U hU e
        have : U = T := Index_inj hok.2 (hsub U (List.mem_cons_of_mem _ hU)) hTm
          (by simpa [hT] using e)
        exact hnd2.1 (this ▸ hU)
      refine ⟨{ v with storage := u1 }, ?_, rfl, hu2⟩
      simp only [List.foldlM_cons, VariantAlternative.destroy, if_pos hT, hu1]
      simpa [bind, Except.bind, pure, Except.pure] using
        destroy_fold_skip Types L { v with storage := u1 } hrest
    · have hex2 : ∃ U ∈ L, VariantAlternative.Index Types U = v.idx := by
        obtain ⟨U, hU, hUi⟩ := hex
        rcases List.mem_cons.mp hU with h | h
        · subst h; exact absurd hUi.symm hT
        · exact ⟨U, h, hUi⟩
      obtain ⟨d, hd, hd2⟩ := ih v x hnd2.2 (fun U hU => hsub U (List.mem_cons_of_mem _ hU))
        hl hex2
      refine ⟨d, ?_, hd2⟩
      simp only [List.foldlM_cons, VariantAlternative.destroy, if_neg hT]
      simpa [bind, Except.bind, pure, Except.pure] using hd

theorem destroy_of_valid {Types : List Ty} (hok : TypesOk Types) {v : Variant Val}
    (hv : Variant.Valid Types v) :
    ∃ d, Variant.destroy Types v = .ok d ∧ d.idx = v.idx ∧ d.storage.live = none := by
  rcases hv with ⟨h1, h2⟩ | ⟨h1, x, h2⟩
  · refine ⟨v, ?_, rfl, h1⟩
    apply destroy_fold_skip
    intro T hT
    rw [h2]
    exact Index_ne_NPOS hok.2 hT
  · obtain ⟨T, hT, hTi, _⟩ := exists_Index_eq hok h1
    exact destroy_fold_live hok Types v x hok.1 (fun _ h => h) h2 ⟨T, hT, hTi⟩

end VariantLemmas


section VariantLemmas2

variable {Ty Val Args : Type} [DecidableEq Ty]

omit [DecidableEq Ty] in
theorem Get_of_idx_ne {Types : List Ty} {v : Variant Val} {I : Nat} (h : v.idx ≠ I) :
    Get I Types v = .error .bad_variant_access := by
  simp [Get, h]

omit [DecidableEq Ty] in
theorem Get_of_live {Types : List Ty} {v : Variant Val} {x : Val}
    (hl : v.storage.live = some (v.idx, x)) (hi : v.idx < Types.length) :
    Get v.idx Types v = .ok x := by
  simp [Get, get_of_live Types v.idx v.storage x hl hi]

omit [DecidableEq Ty] in
theorem Get_ok_iff {Types : List Ty} {v : Variant Val} {I : Nat} {x : Val} :
    Get I Types v = .ok x ↔ v.idx = I ∧ v.storage.live = some (I, x) ∧ I < Types.length := by
  constructor
  · intro h
    by_cases hI : v.idx = I
    · simp only [Get, hI, ne_eq, not_true_eq_false, if_false] at h
      exact ⟨hI, live_of_get Types I v.storage x h⟩
    · rw [Get_of_idx_ne hI] at h
      simp at h
  · rintro ⟨h1, h2, h3⟩
    subst h1
    exact Get_of_live h2 h3

theorem holds_alternative_iff {Types : List Ty} {T : Ty} {v : Variant Val} :
    holds_alternative T Types v = true ↔ VariantAlternative.Index Types T = v.idx := by
  simp [holds_alternative, VariantAlternative.Index]

/-- A state whose live object sits at the position of `T` is valid and answers the queries. -/
theorem valid_of_live_at {Types : List Ty} {T : Ty} (hok : TypesOk Types) (hT : T ∈ Types)
    {v : Variant Val} {x : Val} (hidx : v.idx = VariantAlternative.Index Types T)
    (hl : v.storage.live = some (Types.indexOf T, x)) :
    Variant.Valid Types v ∧ Get_by_type T Types v = .ok x ∧
      holds_alternative T Types v = true := by
  have hI := Index_of_mem hok.2 hT
  have hlt := Index_lt_length hok.2 hT
  have hl2 : v.storage.live = some (v.idx, x) := by rw [hl, hidx, hI]
  refine ⟨Or.inr ⟨by omega, x, hl2⟩, ?_, holds_alternative_iff.mpr hidx.symm⟩
  have := Get_of_live hl2 (by omega : v.idx < Types.length)
  rw [hidx] at this
  exact this

theorem ctor_value_spec {Types : List Ty} {T : Ty} (hT : T ∈ Types)
    (x : Val) (this : Variant Val) :
    ∃ v, VariantAlternative.ctor_value Types T x this = .ok v ∧
      v.idx = VariantAlternative.Index Types T ∧
      v.storage.live = some (Types.indexOf T, x) := by
  obtain ⟨u1, h1, h2⟩ := put_ok_of_mem T x Types 0 this.storage hT
  exact ⟨{ storage := u1, idx := VariantAlternative.Index Types T },
    by simp [VariantAlternative.ctor_value, h1, bind, Except.bind, pure, Except.pure], rfl, h2⟩

theorem assign_value_spec (assignable : Ty → Bool) {Types : List Ty} (hok : TypesOk Types)
    {T : Ty} (hT : T ∈ Types) (ha : assignable T = true)
    (x : Val) {v : Variant Val} (hv : Variant.Valid Types v) :
    ∃ v1, VariantAlternative.assign_value assignable Types T x v = .ok v1 ∧
      v1.idx = VariantAlternative.Index Types T ∧
      v1.storage.live = some (Types.indexOf T, x) ∧
      (VariantAlternative.Index Types T = v.idx →
        VariadicUnion.assign assignable T x 0 Types v.storage = .ok v1.storage) ∧
      (VariantAlternative.Index Types T ≠ v.idx →
        ∃ d, Variant.destroy Types v = .ok d ∧ d.storage.live = none ∧
          VariadicUnion.put T (.ok x) 0 Types d.storage = .ok v1.storage) := by
  have hI := Index_of_mem hok.2 hT
  have hlt := Index_lt_length hok.2 hT
  have hcomp : VariadicUnion.assign_compiles assignable T 0 Types = true := by
    rw [assign_compiles_of_mem assignable T Types 0 hT, ha]
  by_cases hc : VariantAlternative.Index Types T = v.idx
  · have hl : ∃ y, v.storage.live = some (Types.indexOf T, y) := by
      rcases hv with ⟨_, h2⟩ | ⟨_, y, h2⟩
      · exact absurd (hc.trans h2) (Index_ne_NPOS hok.2 hT)
      · exact ⟨y, by rw [h2, ← hc, hI]⟩
    obtain ⟨y, hy⟩ := hl
    obtain ⟨u1, h1, h2⟩ := assign_of_live assignable T ha x Types 0 v.storage y hT hy
    refine ⟨{ v with storage := u1 }, ?_, hc.symm, h2, fun _ => h1, fun h => absurd hc h⟩
    simp [VariantAlternative.assign_value, hcomp, hc, h1, bind, Except.bind, pure,
      Except.pure]
  · obtain ⟨d, hd, _, hd3⟩ := destroy_of_valid hok hv
    obtain ⟨u1, h1, h2⟩ := put_ok_of_mem T x Types 0 d.storage hT
    refine ⟨{ storage := u1, idx := VariantAlternative.Index Types T }, ?_, rfl, h2,
      fun h => absurd h hc, fun _ => ⟨d, hd, hd3, h1⟩⟩
    simp [VariantAlternative.assign_value, hcomp, hc, hd, h1, bind, Except.bind, pure,
      Except.pure]

theorem assign_value_not_assignable (assignable : Ty → Bool) {Types : List Ty} {T : Ty}
    (hT : T ∈ Types) (ha : assignable T = false) (x : Val) (v : Variant Val) :
    VariantAlternative.assign_value assignable Types T x v = .error .ill_formed := by
  have hcomp : VariadicUnion.assign_compiles assignable T 0 Types = false := by
    rw [assign_compiles_of_mem assignable T Types 0 hT, ha]
  simp [VariantAlternative.assign_value, hcomp]

theorem emplace_ok_spec (A : AlternativeOps Ty Val Args) {Types : List Ty}
    (hok : TypesOk Types) {T : Ty} (hT : T ∈ Types) (args : Args) {x : Val}
    (hx : A.construct T args = .ok x) {v : Variant Val} (hv : Variant.Valid Types v) :
    ∃ v1, Variant.emplace A Types T args v = .ok (v1, .ok x) ∧
      v1.idx = VariantAlternative.Index Types T ∧
      v1.storage.live = some (Types.indexOf T, x) := by
  have hI := Index_of_mem hok.2 hT
  have hlt := Index_lt_length hok.2 hT
  obtain ⟨d, hd, _, _⟩ := destroy_of_valid hok hv
  obtain ⟨u1, h1, h2⟩ := put_ok_of_mem T x Types 0 d.storage hT
  have hg : VariadicUnion.get (get_index_by_type_v T Types) Types u1 = .ok x := by
    have : get_index_by_type_v T Types = Types.indexOf T := hI
    rw [this]
    exact get_of_live Types _ u1 x h2 (by omega)
  exact ⟨{ storage := u1, idx := VariantAlternative.Index Types T },
    by simp [Variant.emplace, hd, hx, h1, hg, VariantAlternative.Index], rfl, h2⟩

theorem emplace_thrown_spec (A : AlternativeOps Ty Val Args) {Types : List Ty}
    (hok : TypesOk Types) {T : Ty} (hT : T ∈ Types) (args : Args) {e : Exn}
    (he : A.construct T args = .error e) {v : Variant Val} (hv : Variant.Valid Types v) :
    ∃ v1, Variant.emplace A Types T args v = .ok (v1, .error e) ∧
      v1.idx = NPOS ∧ v1.storage.live = none := by
  obtain ⟨d, hd, _, hd3⟩ := destroy_of_valid hok hv
  have h1 := put_thrown_of_mem T e Types 0 d.storage hT
  exact ⟨{ d with idx := NPOS }, by simp [Variant.emplace, hd, he, h1], rfl, hd3⟩

end VariantLemmas2

/-! ## Access, assignment and emplacement -/

section Claims

variable {Ty Val Args : Type} [DecidableEq Ty]

/-- C1: on a container that satisfies the invariant of the data model and for a valid
position `I`, `Get<I>` returns the live object when `index() == I` and only then; in every
other case, the valueless one included, it throws the bad-access error. For the type `T` at
position `I`, `Get<T>` is the same call and `holds_alternative<T>` is the same condition. -/
theorem Get_succeeds_iff_index_matches {Types : List Ty} (hok : TypesOk Types)
    (v : Variant Val) (hv : Variant.Valid Types v) (I : Nat) (hI : I < Types.length) :
    (v.index = I → ∃ x, v.storage.live = some (I, x) ∧ Get I Types v = .ok x) ∧
    (∀ x, Get I Types v = .ok x → v.index = I ∧ v.storage.live = some (I, x)) ∧
    (v.index ≠ I → Get I Types v = .error .bad_variant_access) ∧
    (v.valueless_by_exception = true → Get I Types v = .error .bad_variant_access) ∧
    (∀ T ∈ Types, VariantAlternative.Index Types T = I →
      Get_by_type T Types v = Get I Types v ∧
      (holds_alternative T Types v = true ↔ v.index = I)) := by
  have hlen := hok.2
  refine ⟨?_, ?_, ?_, ?_, ?_⟩
  · intro h
    rcases hv with ⟨_, h2⟩ | ⟨h1, x, h2⟩
    · simp only [Variant.index] at h
      omega
    · simp only [Variant.index] at h
      subst h
      exact ⟨x, h2, Get_of_live h2 h1⟩
  · intro x hx
    obtain ⟨h1, h2, _⟩ := Get_ok_iff.mp hx
    exact ⟨h1, h2⟩
  · intro h
    exact Get_of_idx_ne h
  · intro h
    apply Get_of_idx_ne
    simp only [Variant.valueless_by_exception, decide_eq_true_eq] at h
    omega
  · intro T _ hTI
    constructor
    · simp only [Get_by_type]
      rw [← hTI]
      rfl
    · rw [holds_alternative_iff, hTI]
      exact ⟨fun h => h.symm, fun h => h.symm⟩

theorem Get_succeeds_iff_index_matches_witness :
    TypesOk TestOverloading_Types ∧
    Variant.Valid TestOverloading_Types TestOverloading_char_ptr ∧
    1 < TestOverloading_Types.length ∧
    (∃ x, TestOverloading_char_ptr.storage.live = some (1, x) ∧
      Get 1 TestOverloading_Types TestOverloading_char_ptr = .ok x) :=
  have h1 : TypesOk TestOverloading_Types := by unfold TypesOk; decide
  have h2 : Variant.Valid TestOverloading_Types TestOverloading_char_ptr :=
    Or.inr ⟨by decide, .addr 1, rfl⟩
  ⟨h1, h2, by decide,
    (Get_succeeds_iff_index_matches h1 TestOverloading_char_ptr h2 1 (by decide)).1 rfl⟩

/-- C4: on a container in any state of the data model, an `emplace<T>(args...)` whose
construction succeeds leaves `holds_alternative<T>` true and `index()` equal to the index of
`T`, leaves `holds_alternative<U>` false for every other alternative `U`, and returns the new
value, which is the value `Get<T>` then returns. -/
theorem emplace_success_holds_alternative (A : AlternativeOps Ty Val Args) {Types : List Ty}
    (hok : TypesOk Types) (T : Ty) (hT : T ∈ Types) (args : Args) (x : Val)
    (hx : A.construct T args = .ok x) (v : Variant Val) (hv : Variant.Valid Types v) :
    ∃ v1, Variant.emplace A Types T args v = .ok (v1, .ok x) ∧
      holds_alternative T Types v1 = true ∧
      v1.index = get_index_by_type_v T Types ∧
      (∀ U ∈ Types, U ≠ T → holds_alternative U Types v1 = false) ∧
      Get_by_type T Types v1 = .ok x := by
  obtain ⟨v1, h1, h2, h3⟩ := emplace_ok_spec A hok hT args hx hv
  obtain ⟨_, g2, g3⟩ := valid_of_live_at hok hT h2 h3
  refine ⟨v1, h1, g3, h2, ?_, g2⟩
  intro U hU hne
  cases hh : holds_alternative U Types v1 with
  | false => rfl
  | true =>
    have := holds_alternative_iff.mp hh
    exact absurd (Index_inj hok.2 hU hT (this.trans h2)) hne

theorem emplace_success_holds_alternative_witness :
    TypesOk TestConst_Types ∧ CppType.string ∈ TestConst_Types ∧
    CppOps.construct CppType.string (.ok (CppVal.text ['a', 'b', 'c', 'd', 'e'])) =
      .ok (CppVal.text ['a', 'b', 'c', 'd', 'e']) ∧
    Variant.Valid TestConst_Types TestConst_one ∧
    ∃ v1, Variant.emplace CppOps TestConst_Types CppType.string
        (.ok (CppVal.text ['a', 'b', 'c', 'd', 'e'])) TestConst_one =
        .ok (v1, .ok (CppVal.text ['a', 'b', 'c', 'd', 'e'])) ∧
      holds_alternative CppType.string TestConst_Types v1 = true ∧
      holds_alternative CppType.const_string TestConst_Types v1 = false :=
  have h1 : TypesOk TestConst_Types := by unfold TypesOk; decide
  have h2 : Variant.Valid TestConst_Types TestConst_one := Or.inr ⟨by decide, .num 1, rfl⟩
  ⟨h1, by decide, rfl, h2,
    match emplace_success_holds_alternative CppOps h1 CppType.string (by decide)
      (.ok (CppVal.text ['a', 'b', 'c', 'd', 'e'])) (CppVal.text ['a', 'b', 'c', 'd', 'e'])
      rfl TestConst_one h2 with
    | ⟨v1, e1, e2, _, e4, _⟩ =>
      ⟨v1, e1, e2, e4 CppType.const_string (by decide) (by decide)⟩⟩

/-- C5: when the construction of `T` from the arguments of `emplace<T>(args...)` fails, the
caller receives that same exception and the container is left valueless: `index() == NPOS`,
`valueless_by_exception()` is true and no object is alive in the storage. -/
theorem emplace_failure_leaves_valueless (A : AlternativeOps Ty Val Args) {Types : List Ty}
    (hok : TypesOk Types) (T : Ty) (hT : T ∈ Types) (args : Args) (e : Exn)
    (he : A.construct T args = .error e) (v : Variant Val) (hv : Variant.Valid Types v) :
    ∃ v1, Variant.emplace A Types T args v = .ok (v1, .error e) ∧
      v1.index = NPOS ∧ v1.valueless_by_exception = true ∧ v1.storage.live = none := by
  obtain ⟨v1, h1, h2, h3⟩ := emplace_thrown_spec A hok hT args he hv
  exact ⟨v1, h1, h2, by simp [Variant.valueless_by_exception, h2], h3⟩

theorem emplace_failure_leaves_valueless_witness :
    TypesOk TestCopyMove_Types ∧ CppType.vector_int ∈ TestCopyMove_Types ∧
    CppOps.construct CppType.vector_int (Except.error (Exn.mk 7)) = Except.error (Exn.mk 7) ∧
    Variant.Valid TestCopyMove_Types TestCopyMove_ab ∧
    ∃ v1, Variant.emplace CppOps TestCopyMove_Types CppType.vector_int
        (Except.error (Exn.mk 7)) TestCopyMove_ab = .ok (v1, Except.error (Exn.mk 7)) ∧
      v1.index = NPOS ∧ v1.valueless_by_exception = true ∧ v1.storage.live = none :=
  have h1 : TypesOk TestCopyMove_Types := by unfold TypesOk; decide
  have h2 : Variant.Valid TestCopyMove_Types TestCopyMove_ab :=
    Or.inr ⟨by decide, .text ['a', 'b'], rfl⟩
  ⟨h1, by decide, rfl, h2,
    emplace_failure_leaves_valueless CppOps h1 CppType.vector_int (by decide)
      (Except.error (Exn.mk 7)) (Exn.mk 7) rfl TestCopyMove_ab h2⟩

end Claims

/-! ## Visitation -/

section VisitLemmas

variable {Ty Val R : Type}

theorem at_impl_make_fmatrix_impl :
    ∀ (sizes idxs Is : List Nat), List.Forall₂ (fun i n => i < n) idxs sizes →
      at_impl (make_fmatrix_impl Is (sizes.map List.range)) idxs =
        .ok (.dispatcher (Is ++ idxs)) := by
  intro sizes
  induction sizes with
  | nil =>
    intro idxs Is h
    cases h
    simp [make_fmatrix_impl, at_impl]
  | cons n sizes ih =>
    intro idxs Is h
    cases h with
    | cons hin hrest =>
      rename_i i is
      have hget : ((List.range n).map fun J =>
          make_fmatrix_impl (Is ++ [J]) (sizes.map List.range))[i]? =
          some (make_fmatrix_impl (Is ++ [i]) (sizes.map List.range)) := by
        simp [List.getElem?_map, List.getElem?_range hin]
      simp only [List.map_cons, make_fmatrix_impl, at_impl, hget]
      rw [ih is (Is ++ [i]) hrest]
      simp

theorem at_make_fmatrix (sizes idxs : List Nat)
    (h : List.Forall₂ (fun i n => i < n) idxs sizes) :
    at_ (make_fmatrix sizes) idxs = .ok (.dispatcher idxs) := by
  simpa [at_, make_fmatrix] using at_impl_make_fmatrix_impl sizes idxs [] h

theorem Get_static_cast_of_Get (c : Category) {I : Nat} {Types : List Ty} {v : Variant Val}
    {x : Val} (h : Get I Types v = .ok x) :
    Get_static_cast c I Types v = .ok { category := c, value := x } := by
  have hidx : v.idx = I := by
    by_cases hI : v.idx = I
    · exact hI
    · simp [Get, hI] at h
  have hget : VariadicUnion.get I Types v.storage = .ok x := by
    simpa [Get, hidx] using h
  cases c <;>
    simp [Get_static_cast, Get_lvalue, Get_const_lvalue, Get_rvalue, Get_const_rvalue, hidx,
      hget, Except.map, std_move]

theorem dispatch_args_of_live_ref :
    ∀ (vs : List (Operand Ty Val)),
      (∀ o ∈ vs, o.v.idx < o.Types.length ∧ ∃ x, o.v.storage.live = some (o.v.idx, x)) →
      ∃ args, dispatch_args (vs.map fun o => o.v.index) vs = .ok args ∧
        List.Forall₂ (fun o a =>
          Get_static_cast o.category o.v.index o.Types o.v =
            .ok { category := a.category, value := a.value } ∧
          a.category = o.category ∧
          o.Types[o.v.index]? = some a.ty ∧ Get o.v.index o.Types o.v = .ok a.value ∧
          o.v.storage.live = some (o.v.index, a.value)) vs args := by
  intro vs
  induction vs with
  | nil => intro _; exact ⟨[], rfl, List.Forall₂.nil⟩
  | cons o vs ih =>
    intro h
    obtain ⟨hlt, x, hx⟩ := h o (List.mem_cons_self _ _)
    obtain ⟨rest, hr1, hr2⟩ := ih (fun p hp => h p (List.mem_cons_of_mem _ hp))
    have hget : Get o.v.idx o.Types o.v = .ok x := Get_of_live hx hlt
    have hcast := Get_static_cast_of_Get o.category hget
    have hty : VariadicUnion.member_type o.v.idx o.Types = some (o.Types[o.v.idx]) := by
      rw [member_type_eq_getElem?]
      simp [hlt]
    refine ⟨{ category := o.category, ty := o.Types[o.v.idx], value := x } :: rest, ?_, ?_⟩
    · simp only [List.map_cons, dispatch_args, Variant.index, hcast, hty]
      simp only [Variant.index] at hr1
      simp [bind, Except.bind, hr1, pure, Except.pure]
    · refine List.Forall₂.cons ⟨hcast, rfl, ?_, hget, hx⟩ hr2
      simp [Variant.index, hlt]

theorem dispatch_args_of_live :
    ∀ (vs : List (Operand Ty Val)),
      (∀ o ∈ vs, o.v.idx < o.Types.length ∧ ∃ x, o.v.storage.live = some (o.v.idx, x)) →
      ∃ args, dispatch_args (vs.map fun o => o.v.index) vs = .ok args ∧
        List.Forall₂ (fun o a => a.category = o.category ∧
          o.Types[o.v.index]? = some a.ty ∧ Get o.v.index o.Types o.v = .ok a.value ∧
          o.v.storage.live = some (o.v.index, a.value)) vs args := by
  intro vs h
  obtain ⟨args, h1, h2⟩ := dispatch_args_of_live_ref vs h
  exact ⟨args, h1, h2.imp fun _ _ g => g.2⟩

end VisitLemmas

/-! ## Folds over the base classes -/

section FoldLemmas

variable {Ty Val Args : Type} [DecidableEq Ty]

omit [DecidableEq Ty] in
theorem foldlM_skip {σ : Type} (step : σ → Ty → Except Failure σ) (P : σ → Prop) :
    ∀ (L : List Ty), (∀ s T, P s → T ∈ L → step s T = .ok s) → ∀ s, P s →
      L.foldlM step s = .ok s := by
  intro L
  induction L with
  | nil => intro _ s _; rfl
  | cons T L ih =>
    intro hskip s hs
    simp only [List.foldlM_cons, hskip s T hs (List.mem_cons_self _ _)]
    simpa [bind, Except.bind] using
      ih (fun s1 U h1 hU => hskip s1 U h1 (List.mem_cons_of_mem _ hU)) s hs

omit [DecidableEq Ty] in
theorem foldlM_single {σ : Type} (step : σ → Ty → Except Failure σ) (P : σ → Prop)
    (T0 : Ty) :
    ∀ (L : List Ty), L.Nodup → T0 ∈ L →
      (∀ s T, P s → T ∈ L → T ≠ T0 → step s T = .ok s) →
      (∀ s s1, P s → step s T0 = .ok s1 → P s1) → ∀ s, P s →
      L.foldlM step s = step s T0 := by
  intro L
  induction L with
  | nil => intro _ h; simp at h
  | cons T L ih =>
    intro hnd hmem hskip hpres s hs
    have hnd2 := List.nodup_cons.mp hnd
    by_cases hT : T = T0
    · subst hT
      simp only [List.foldlM_cons]
      cases hstep : step s T with
      | error f => simp [bind, Except.bind]
      | ok s1 =>
        have hP1 := hpres s s1 hs hstep
        have := foldlM_skip step P L
          (fun s2 U h2 hU => hskip s2 U h2 (List.mem_cons_of_mem _ hU)
            (fun e => hnd2.1 (e ▸ hU))) s1 hP1
        simpa [bind, Except.bind] using this
    · have hmem2 : T0 ∈ L := by
        rcases List.mem_cons.mp hmem with h | h
        · exact absurd h.symm hT
        · exact h
      simp only [List.foldlM_cons, hskip s T hs (List.mem_cons_self _ _) hT]
      simpa [bind, Except.bind] using
        ih hnd2.2 hmem2 (fun s1 U h1 hU => hskip s1 U h1 (List.mem_cons_of_mem _ hU))
          hpres s hs

theorem ctor_copy_of_valueless {Types : List Ty} (hok : TypesOk Types) (other : Variant Val)
    (hidx : other.idx = NPOS) (stale : Nat) :
    Variant.ctor_copy Types other stale = .ok (Variant.fresh stale) := by
  apply foldlM_skip _ (fun _ => True) Types _ _ trivial
  intro s T _ hT
  have : other.idx ≠ VariantAlternative.Index Types T := by
    rw [hidx]
    exact fun e => Index_ne_NPOS hok.2 hT e.symm
  simp [VariantAlternative.ctor_copy, this, pure, Except.pure]

theorem ctor_move_of_valueless (A : AlternativeOps Ty Val Args) {Types : List Ty}
    (hok : TypesOk Types) (other : Variant Val) (hidx : other.idx = NPOS) (stale : Nat) :
    Variant.ctor_move A Types other stale = .ok (Variant.fresh stale, other) := by
  apply foldlM_skip _ (fun p => p.2 = other) Types _ _ rfl
  intro p T hp hT
  have : p.2.idx ≠ VariantAlternative.Index Types T := by
    rw [hp, hidx]
    exact fun e => Index_ne_NPOS hok.2 hT e.symm
  simp [VariantAlternative.ctor_move, this, pure, Except.pure]

theorem ctor_copy_spec {Types : List Ty} (hok : TypesOk Types) (a : Variant Val)
    (hlt : a.idx < Types.length) (x : Val) (hl : a.storage.live = some (a.idx, x))
    (stale : Nat) :
    ∃ b, Variant.ctor_copy Types a stale = .ok b ∧ b.idx = a.idx ∧
      b.storage.live = some (a.idx, x) := by
  obtain ⟨T0, hT0, hI0, _⟩ := exists_Index_eq hok hlt
  have hfold := foldlM_single
    (fun this T => VariantAlternative.ctor_copy Types T a this) (fun _ => True) T0 Types
    hok.1 hT0
    (by
      intro s T _ hT hne
      have : a.idx ≠ VariantAlternative.Index Types T := by
        rw [← hI0]
        exact fun e => hne (Index_inj hok.2 hT hT0 e.symm)
      simp [VariantAlternative.ctor_copy, this, pure, Except.pure])
    (fun _ _ _ _ => trivial) (Variant.fresh stale) trivial
  have hg : VariadicUnion.get a.idx Types a.storage = .ok x :=
    get_of_live Types a.idx a.storage x hl hlt
  obtain ⟨u1, h1, h2⟩ :=
    put_ok_of_mem T0 x Types 0 (Variant.fresh stale : Variant Val).storage hT0
  refine ⟨{ storage := u1, idx := a.idx }, ?_, rfl, ?_⟩
  · unfold Variant.ctor_copy
    rw [hfold]
    simp [VariantAlternative.ctor_copy, hI0, hg, h1, bind, Except.bind, pure, Except.pure]
  · rw [h2, ← Index_of_mem hok.2 hT0, hI0]

theorem ctor_move_spec (A : AlternativeOps Ty Val Args) {Types : List Ty}
    (hok : TypesOk Types) (a : Variant Val) (hlt : a.idx < Types.length) (x : Val)
    (hl : a.storage.live = some (a.idx, x)) (stale : Nat) :
    ∃ b a1 T0, Variant.ctor_move A Types a stale = .ok (b, a1) ∧ Types[a.idx]? = some T0 ∧
      b.idx = a.idx ∧ b.storage.live = some (a.idx, x) ∧ a1.idx = a.idx ∧
      a1.storage.live = some (a.idx, A.moved_from T0 x) := by
  obtain ⟨T0, hT0, hI0, hget0⟩ := exists_Index_eq hok hlt
  have hfold := foldlM_single
    (fun p T => VariantAlternative.ctor_move A Types T p) (fun p => p.2.idx = a.idx) T0 Types
    hok.1 hT0
    (by
      intro p T hp hT hne
      have : p.2.idx ≠ VariantAlternative.Index Types T := by
        rw [hp, ← hI0]
        exact fun e => hne (Index_inj hok.2 hT hT0 e.symm)
      simp [VariantAlternative.ctor_move, this, pure, Except.pure])
    (by
      intro p p1 hp hstep
      simp only [VariantAlternative.ctor_move] at hstep
      split at hstep
      · cases hg : VariadicUnion.get (VariantAlternative.Index Types T0) Types p.2.storage with
        | error f => simp [hg, bind, Except.bind] at hstep
        | ok y =>
          cases hp1 : VariadicUnion.put T0 (.ok y) 0 Types p.1.storage with
          | error f => simp [hg, hp1, bind, Except.bind] at hstep
          | ok st =>
            cases hw : VariadicUnion.write (VariantAlternative.Index Types T0) Types
                p.2.storage (A.moved_from T0 y) with
            | error f => simp [hg, hp1, hw, bind, Except.bind] at hstep
            | ok ost =>
              simp only [hg, hp1, hw, bind, Except.bind, pure, Except.pure,
                Except.ok.injEq] at hstep
              rw [← hstep]
              exact hp
      · simp only [pure, Except.pure, Except.ok.injEq] at hstep
        rw [← hstep]
        exact hp)
    (Variant.fresh stale, a) rfl
  have hg : VariadicUnion.get a.idx Types a.storage = .ok x :=
    get_of_live Types a.idx a.storage x hl hlt
  obtain ⟨u1, h1, h2⟩ :=
    put_ok_of_mem T0 x Types 0 (Variant.fresh stale : Variant Val).storage hT0
  obtain ⟨w1, hw1, hw2⟩ := write_of_live (A.moved_from T0 x) Types a.idx a.storage x hl hlt
  refine ⟨{ storage := u1, idx := a.idx }, { a with storage := w1 }, T0, ?_, hget0, rfl, ?_,
    rfl, hw2⟩
  · unfold Variant.ctor_move
    rw [hfold]
    simp [VariantAlternative.ctor_move, hI0, hg, h1, hw1, bind, Except.bind, pure,
      Except.pure]
  · rw [h2, ← Index_of_mem hok.2 hT0, hI0]

end FoldLemmas

/-! ## Assignment from another container -/

section StoreLemmas

variable {Ty Val Args : Type} [DecidableEq Ty]

theorem assign_copy_step_frame {Types : List Ty} {T : Ty} {this other : Nat}
    {s s1 : Nat → Variant Val}
    (h : VariantAlternative.assign_copy Types T this other s = .ok s1) :
    ∀ l, l ≠ this → s1 l = s l := by
  intro l hl
  simp only [VariantAlternative.assign_copy] at h
  split at h
  · simp only [pure, Except.pure, Except.ok.injEq] at h
    rw [← h]
  · cases hg : Get (VariantAlternative.Index Types T) Types (s other) with
    | error f => simp [hg, bind, Except.bind] at h
    | ok y =>
      cases hp : VariadicUnion.put T (.ok y) 0 Types (s this).storage with
      | error f => simp [hg, hp, bind, Except.bind] at h
      | ok st =>
        simp only [hg, hp, bind, Except.bind, pure, Except.pure, Except.ok.injEq] at h
        rw [← h, Function.update_noteq hl]

theorem assign_move_step_frame (A : AlternativeOps Ty Val Args) {Types : List Ty} {T : Ty}
    {this other : Nat} {s s1 : Nat → Variant Val}
    (h : VariantAlternative.assign_move A Types T this other s = .ok s1) :
    (∀ l, l ≠ this → l ≠ other → s1 l = s l) ∧
      (other ≠ this → (s1 other).idx = (s other).idx) := by
  simp only [VariantAlternative.assign_move] at h
  split at h
  · simp only [pure, Except.pure, Except.ok.injEq] at h
    rw [← h]
    exact ⟨fun _ _ _ => rfl, fun _ => rfl⟩
  · cases hg : Get (VariantAlternative.Index Types T) Types (s other) with
    | error f => simp [hg, bind, Except.bind] at h
    | ok y =>
      cases hp : VariadicUnion.put T (.ok y) 0 Types (s this).storage with
      | error f => simp [hg, hp, bind, Except.bind] at h
      | ok st =>
        cases hw : VariadicUnion.write (VariantAlternative.Index Types T) Types
            (Function.update s this { s this with storage := st } other).storage
            (A.moved_from T y) with
        | error f => simp [hg, hp, hw, bind, Except.bind] at h
        | ok ost =>
          simp only [hg, hp, hw, bind, Except.bind, pure, Except.pure, Except.ok.injEq] at h
          rw [← h]
          constructor
          · intro l h1 h2
            rw [Function.update_noteq h1, Function.update_noteq h2, Function.update_noteq h1]
          · intro hne
            rw [Function.update_noteq hne, Function.update_same, Function.update_noteq hne]

theorem assign_copy_spec {Types : List Ty} (hok : TypesOk Types) (this other : Nat)
    (hne : this ≠ other) (s : Nat → Variant Val) (hv : Variant.Valid Types (s this))
    (hlt : (s other).idx < Types.length) (x : Val)
    (hl : (s other).storage.live = some ((s other).idx, x)) :
    ∃ s1, Variant.assign_copy Types this other s = .ok s1 ∧
      (s1 this).idx = (s other).idx ∧
      (s1 this).storage.live = some ((s other).idx, x) ∧
      ∀ l, l ≠ this → s1 l = s l := by
  obtain ⟨T0, hT0, hI0, _⟩ := exists_Index_eq hok hlt
  obtain ⟨d, hd, _, _⟩ := destroy_of_valid hok hv
  have hne2 : other ≠ this := fun e => hne e.symm
  have hfold := foldlM_single
    (fun s1 T => VariantAlternative.assign_copy Types T this other s1)
    (fun s1 => s1 other = s other) T0 Types hok.1 hT0
    (by
      intro s1 T hp hT hTne
      have : VariantAlternative.Index Types T ≠ (s1 other).idx := by
        rw [hp, ← hI0]
        exact fun e => hTne (Index_inj hok.2 hT hT0 e)
      simp [VariantAlternative.assign_copy, this, pure, Except.pure])
    (by
      intro s1 s2 hp hstep
      rw [assign_copy_step_frame hstep other hne2]
      exact hp)
    (Function.update s this d) (Function.update_noteq hne2 _ _)
  have hg : Get (s other).idx Types (s other) = .ok x := Get_of_live hl hlt
  obtain ⟨u1, h1, h2⟩ := put_ok_of_mem T0 x Types 0 d.storage hT0
  refine ⟨Function.update (Function.update s this d) this { storage := u1, idx := (s other).idx },
    ?_, by simp, ?_, ?_⟩
  · unfold Variant.assign_copy
    simp only [hd, bind, Except.bind]
    rw [hfold]
    simp [VariantAlternative.assign_copy, hI0, Function.update_noteq hne2, hg, h1, bind,
      Except.bind, pure, Except.pure]
  · simp only [Function.update_same]
    rw [h2, ← Index_of_mem hok.2 hT0, hI0]
  · intro l hl2
    simp [Function.update_noteq hl2]

theorem assign_move_spec (A : AlternativeOps Ty Val Args) {Types : List Ty}
    (hok : TypesOk Types) (this other : Nat) (hne : this ≠ other) (s : Nat → Variant Val)
    (hv : Variant.Valid Types (s this)) (hlt : (s other).idx < Types.length) (x : Val)
    (hl : (s other).storage.live = some ((s other).idx, x)) :
    ∃ s1 T0, Variant.assign_move A Types this other s = .ok s1 ∧
      Types[(s other).idx]? = some T0 ∧
      (s1 this).idx = (s other).idx ∧
      (s1 this).storage.live = some ((s other).idx, x) ∧
      (s1 other).idx = (s other).idx ∧
      (s1 other).storage.live = some ((s other).idx, A.moved_from T0 x) ∧
      ∀ l, l ≠ this → l ≠ other → s1 l = s l := by
  obtain ⟨T0, hT0, hI0, hget0⟩ := exists_Index_eq hok hlt
  obtain ⟨d, hd, _, _⟩ := destroy_of_valid hok hv
  have hne2 : other ≠ this := fun e => hne e.symm
  have hfold := foldlM_single
    (fun s1 T => VariantAlternative.assign_move A Types T this other s1)
    (fun s1 => (s1 other).idx = (s other).idx) T0 Types hok.1 hT0
    (by
      intro s1 T hp hT hTne
      have : VariantAlternative.Index Types T ≠ (s1 other).idx := by
        rw [hp, ← hI0]
        exact fun e => hTne (Index_inj hok.2 hT hT0 e)
      simp [VariantAlternative.assign_move, this, pure, Except.pure])
    (by
      intro s1 s2 hp hstep
      rw [(assign_move_step_frame A hstep).2 hne2]
      exact hp)
    (Function.update s this d) (by simp only [Function.update_noteq hne2])
  have hg : Get (s other).idx Types (s other) = .ok x := Get_of_live hl hlt
  obtain ⟨u1, h1, h2⟩ := put_ok_of_mem T0 x Types 0 d.storage hT0
  obtain ⟨w1, hw1, hw2⟩ :=
    write_of_live (A.moved_from T0 x) Types (s other).idx (s other).storage x hl hlt
  refine ⟨Function.update (Function.update (Function.update (Function.update s this d) this
      { d with storage := u1 }) other { s other with storage := w1 }) this
      { storage := u1, idx := (s other).idx }, T0, ?_, hget0, by simp, ?_, ?_, ?_, ?_⟩
  · unfold Variant.assign_move
    simp only [hd, bind, Except.bind]
    rw [hfold]
    simp [VariantAlternative.assign_move, hI0, Function.update_noteq hne2,
      Function.update_noteq hne, hg, h1, hw1, bind, Except.bind, pure, Except.pure]
  · simp only [Function.update_same]
    rw [h2, ← Index_of_mem hok.2 hT0, hI0]
  · simp [Function.update_noteq hne2]
  · simp [Function.update_noteq hne2, hw2]
  · intro l hl1 hl2
    simp [Function.update_noteq hl1, Function.update_noteq hl2]

theorem assign_copy_of_valueless {Types : List Ty} (hok : TypesOk Types) (this other : Nat)
    (hne : this ≠ other) (s : Nat → Variant Val) (hv : Variant.Valid Types (s this))
    (hidx : (s other).idx = NPOS) :
    ∃ d, Variant.destroy Types (s this) = .ok d ∧ d.idx = (s this).idx ∧
      d.storage.live = none ∧
      Variant.assign_copy Types this other s = .ok (Function.update s this d) := by
  obtain ⟨d, hd, hd2, hd3⟩ := destroy_of_valid hok hv
  have hne2 : other ≠ this := fun e => hne e.symm
  refine ⟨d, hd, hd2, hd3, ?_⟩
  unfold Variant.assign_copy
  simp only [hd, bind, Except.bind]
  apply foldlM_skip _ (fun s1 => s1 other = s other) Types _ _ (Function.update_noteq hne2 _ _)
  intro s1 T hp hT
  have : VariantAlternative.Index Types T ≠ (s1 other).idx := by
    rw [hp, hidx]
    exact Index_ne_NPOS hok.2 hT
  simp [VariantAlternative.assign_copy, this, pure, Except.pure]

end StoreLemmas

/-- C2: for every handler `f` and every list of containers none of which is valueless (each
in a state of the data model), `Visit(f, v1, ..., vK)` returns `f` applied once to the
arguments `Get<i1>(v1), ..., Get<iK>(vK)` with `ij = vj.index()`, in argument order: argument
`j` has the value category of container `j`, the type at position `ij` of its list, and
denotes its live object. On the containers of `TestVisit`, built from `5, '2', 5.4, 100ll,
2011l, 3.5f, 2017`, the handler of the test yields `2, 1, 6, 5, 4, 6, 2`. -/
theorem Visit_applies_handler_to_active_alternatives {Ty Val R : Type} [DecidableEq Ty]
    (f : List (Argument Ty Val) → R) (vs : List (Operand Ty Val))
    (hvs : ∀ o ∈ vs, TypesOk o.Types ∧ Variant.Valid o.Types o.v ∧
      o.v.valueless_by_exception = false) :
    ∃ args, dispatch_args (vs.map fun o => o.v.index) vs = .ok args ∧
      Visit f vs = .ok (f args) ∧
      List.Forall₂ (fun o a => a.category = o.category ∧
        o.Types[o.v.index]? = some a.ty ∧ Get o.v.index o.Types o.v = .ok a.value ∧
        o.v.storage.live = some (o.v.index, a.value)) vs args ∧
      TestVisit_results = [.ok 2, .ok 1, .ok 6, .ok 5, .ok 4, .ok 6, .ok 2] := by
  have hlive : ∀ o ∈ vs, o.v.idx < o.Types.length ∧
      ∃ x, o.v.storage.live = some (o.v.idx, x) := by
    intro o ho
    obtain ⟨_, hv, hnv⟩ := hvs o ho
    rcases hv with ⟨_, h2⟩ | h
    · simp [Variant.valueless_by_exception, h2] at hnv
    · exact h
  obtain ⟨args, h1, h2⟩ := dispatch_args_of_live vs hlive
  refine ⟨args, h1, ?_, h2, rfl⟩
  have hbound : List.Forall₂ (fun i n => i < n) (vs.map fun o => o.v.index)
      (vs.map fun o => variant_size o.Types) := by
    rw [List.forall₂_map_left_iff, List.forall₂_map_right_iff]
    exact List.forall₂_same.mpr fun o ho => (hlive o ho).1
  simp only [Visit, at_make_fmatrix _ _ hbound, dispatch, h1, bind, Except.bind, pure,
    Except.pure]

theorem Visit_applies_handler_to_active_alternatives_witness :
    (∀ o ∈ [TestVisit_operand_five],
      TypesOk o.Types ∧ Variant.Valid o.Types o.v ∧ o.v.valueless_by_exception = false) ∧
    Visit TestVisit_visitor [TestVisit_operand_five] = .ok 2 :=
  have h : ∀ o ∈ [TestVisit_operand_five],
      TypesOk o.Types ∧ Variant.Valid o.Types o.v ∧ o.v.valueless_by_exception = false := by
    intro o ho
    rw [List.mem_singleton] at ho
    subst ho
    exact ⟨by unfold TypesOk; decide, Or.inr ⟨by decide, .num 5, rfl⟩, by decide⟩
  ⟨h,
    match Visit_applies_handler_to_active_alternatives TestVisit_visitor _ h with
    | ⟨_, e1, e2, _⟩ => by
      rw [e2]
      cases e1
      rfl⟩

/-! ## Copy and move between containers -/

section CopyMoveClaims

variable {Ty Val Args : Type} [DecidableEq Ty]

omit [DecidableEq Ty] in
theorem live_of_not_valueless {Types : List Ty} {a : Variant Val}
    (ha : Variant.Valid Types a) (hnv : a.valueless_by_exception = false) :
    a.idx < Types.length ∧ ∃ x, a.storage.live = some (a.idx, x) := by
  rcases ha with ⟨_, h2⟩ | h
  · simp [Variant.valueless_by_exception, h2] at hnv
  · exact h

/-- C8: for a source `a` that is not valueless and a distinct destination `b` in any state of
the data model, copy construction from `a` and the copy assignment `b = a` both return with
`b.index() == a.index()` and `Get<a.index()>(b)` equal to the live value of `a`; the
assignment leaves `a` as it was; afterwards, whatever state `a` is changed to, the value read
through `b` is the same, and whatever state `b` is changed to, the value read through `a` is
the same. -/
theorem copy_gives_equal_and_independent_value {Types : List Ty} (hok : TypesOk Types)
    (this other : Nat) (hne : this ≠ other) (s : Nat → Variant Val)
    (hb : Variant.Valid Types (s this)) (ha : Variant.Valid Types (s other))
    (hnv : (s other).valueless_by_exception = false) (stale : Nat) :
    ∃ x, Get (s other).index Types (s other) = .ok x ∧
      (∃ b, Variant.ctor_copy Types (s other) stale = .ok b ∧
        b.index = (s other).index ∧ Get (s other).index Types b = .ok x) ∧
      (∃ s1, Variant.assign_copy Types this other s = .ok s1 ∧
        (s1 this).index = (s other).index ∧
        Get (s other).index Types (s1 this) = .ok x ∧
        s1 other = s other ∧
        (∀ w, Get (s other).index Types (Function.update s1 other w this) = .ok x) ∧
        (∀ w, Get (s other).index Types (Function.update s1 this w other) = .ok x)) := by
  obtain ⟨hlt, x, hl⟩ := live_of_not_valueless ha hnv
  have hne2 : other ≠ this := fun e => hne e.symm
  have hg : Get (s other).idx Types (s other) = .ok x := Get_of_live hl hlt
  refine ⟨x, hg, ?_, ?_⟩
  · obtain ⟨b, h1, h2, h3⟩ := ctor_copy_spec hok (s other) hlt x hl stale
    refine ⟨b, h1, h2, ?_⟩
    rw [← h2] at h3 hlt
    have := Get_of_live h3 hlt
    rwa [h2] at this
  · obtain ⟨s1, h1, h2, h3, h4⟩ := assign_copy_spec hok this other hne s hb hlt x hl
    have hgb : Get (s other).idx Types (s1 this) = .ok x := by
      rw [← h2] at h3 hlt
      have := Get_of_live h3 hlt
      rwa [h2] at this
    refine ⟨s1, h1, h2, hgb, h4 other hne2, ?_, ?_⟩
    · intro w
      rw [Function.update_noteq hne]
      exact hgb
    · intro w
      rw [Function.update_noteq hne2, h4 other hne2]
      exact hg

theorem copy_gives_equal_and_independent_value_witness :
    TypesOk TestCopyMove_Types ∧ (0 : Nat) ≠ 1 ∧
    Variant.Valid TestCopyMove_Types (TestCopyMove_store 0) ∧
    Variant.Valid TestCopyMove_Types (TestCopyMove_store 1) ∧
    (TestCopyMove_store 1).valueless_by_exception = false ∧
    ∃ s1, Variant.assign_copy TestCopyMove_Types 0 1 TestCopyMove_store = .ok s1 ∧
      (s1 0).index = 0 ∧
      Get 0 TestCopyMove_Types (s1 0) =
        .ok (CppVal.text ['a', 'b', 'c', 'd', 'e', 'f', 'g', 'h']) ∧
      s1 1 = TestCopyMove_store 1 :=
  have h1 : TypesOk TestCopyMove_Types := by unfold TypesOk; decide
  have h2 : Variant.Valid TestCopyMove_Types (TestCopyMove_store 0) :=
    Or.inr ⟨by decide, .num 97, rfl⟩
  have h3 : Variant.Valid TestCopyMove_Types (TestCopyMove_store 1) :=
    Or.inr ⟨by decide, .text ['a', 'b', 'c', 'd', 'e', 'f', 'g', 'h'], rfl⟩
  ⟨h1, by decide, h2, h3, by decide,
    match copy_gives_equal_and_independent_value h1 0 1 (by decide) TestCopyMove_store h2 h3
      (by decide) 0 with
    | ⟨_, e0, _, s1, e1, e2, e3, e4, _⟩ => ⟨s1, e1, e2, by
        have e5 : Get 0 TestCopyMove_Types (TestCopyMove_store 1) =
          .ok (CppVal.text ['a', 'b', 'c', 'd', 'e', 'f', 'g', 'h']) := rfl
        have e6 : (TestCopyMove_store 1).index = 0 := rfl
        rw [e6] at e0 e3
        rw [e3, ← e0, e5], e4⟩⟩

/-- C9: for a source `a` that is not valueless and a distinct destination `b` in any state of
the data model, move construction from `a` and the move assignment `b = std::move(a)` both
return with `b.index()` equal to the index of `a` and `Get` on `b` returning the value `a`
held before; `a.index()` is unchanged and `Get` at that index on `a` still succeeds, now
returning the moved-from value of the alternative. -/
theorem move_transfers_value_and_keeps_source_index (A : AlternativeOps Ty Val Args)
    {Types : List Ty} (hok : TypesOk Types) (this other : Nat) (hne : this ≠ other)
    (s : Nat → Variant Val) (hb : Variant.Valid Types (s this))
    (ha : Variant.Valid Types (s other))
    (hnv : (s other).valueless_by_exception = false) (stale : Nat) :
    ∃ x T0, Get (s other).index Types (s other) = .ok x ∧
      Types[(s other).index]? = some T0 ∧
      (∃ b a1, Variant.ctor_move A Types (s other) stale = .ok (b, a1) ∧
        b.index = (s other).index ∧ Get (s other).index Types b = .ok x ∧
        a1.index = (s other).index ∧
        Get (s other).index Types a1 = .ok (A.moved_from T0 x)) ∧
      (∃ s1, Variant.assign_move A Types this other s = .ok s1 ∧
        (s1 this).index = (s other).index ∧
        Get (s other).index Types (s1 this) = .ok x ∧
        (s1 other).index = (s other).index ∧
        Get (s other).index Types (s1 other) = .ok (A.moved_from T0 x)) := by
  obtain ⟨hlt, x, hl⟩ := live_of_not_valueless ha hnv
  have hg : Get (s other).idx Types (s other) = .ok x := Get_of_live hl hlt
  have key : ∀ (c : Variant Val) (y : Val), c.idx = (s other).idx →
      c.storage.live = some ((s other).idx, y) → Get (s other).idx Types c = .ok y := by
    intro c y h1 h2
    rw [← h1] at h2 hlt ⊢
    exact Get_of_live h2 hlt
  obtain ⟨b, a1, T0, h1, h2, h3, h4, h5, h6⟩ := ctor_move_spec A hok (s other) hlt x hl stale
  obtain ⟨s1, T1, g1, g2, g3, g4, g5, g6, _⟩ :=
    assign_move_spec A hok this other hne s hb hlt x hl
  have hT : T1 = T0 := by
    rw [h2] at g2
    exact (Option.some.inj g2).symm
  subst hT
  exact ⟨x, T1, hg, h2, ⟨b, a1, h1, h3, key b x h3 h4, h5, key a1 _ h5 h6⟩,
    ⟨s1, g1, g3, key _ x g3 g4, g5, key _ _ g5 g6⟩⟩

theorem move_transfers_value_and_keeps_source_index_witness :
    TypesOk TestCopyMove_Types ∧ (0 : Nat) ≠ 1 ∧
    Variant.Valid TestCopyMove_Types (TestCopyMove_store 0) ∧
    Variant.Valid TestCopyMove_Types (TestCopyMove_store 1) ∧
    (TestCopyMove_store 1).valueless_by_exception = false ∧
    ∃ s1, Variant.assign_move CppOps TestCopyMove_Types 0 1 TestCopyMove_store = .ok s1 ∧
      (s1 0).index = 0 ∧ (s1 1).index = 0 ∧
      Get 0 TestCopyMove_Types (s1 1) = .ok (CppVal.text []) :=
  have h1 : TypesOk TestCopyMove_Types := by unfold TypesOk; decide
  have h2 : Variant.Valid TestCopyMove_Types (TestCopyMove_store 0) :=
    Or.inr ⟨by decide, .num 97, rfl⟩
  have h3 : Variant.Valid TestCopyMove_Types (TestCopyMove_store 1) :=
    Or.inr ⟨by decide, .text ['a', 'b', 'c', 'd', 'e', 'f', 'g', 'h'], rfl⟩
  ⟨h1, by decide, h2, h3, by decide,
    match move_transfers_value_and_keeps_source_index CppOps h1 0 1 (by decide)
      TestCopyMove_store h2 h3 (by decide) 0 with
    | ⟨x, T0, e0, eT, _, s1, e1, e2, _, e4, e5⟩ => ⟨s1, e1, e2, e4, by
        have hx : CppVal.text ['a', 'b', 'c', 'd', 'e', 'f', 'g', 'h'] = x :=
          Except.ok.inj e0
        have hT : CppType.string = T0 := Option.some.inj eT
        subst hx
        subst hT
        exact e5⟩⟩

end CopyMoveClaims

/-! ## Sequences of operations and the invariant -/

section SequenceClaims

variable {Ty Val Args : Type} [DecidableEq Ty]

theorem ctor_value_valid {Types : List Ty} (hok : TypesOk Types) {T : Ty} (hT : T ∈ Types)
    (x : Val) (stale : Nat) :
    ∃ v, Variant.ctor_value Types T x stale = .ok v ∧ Variant.Valid Types v := by
  obtain ⟨v, h1, h2, h3⟩ := ctor_value_spec hT x (Variant.fresh stale)
  exact ⟨v, h1, (valid_of_live_at hok hT h2 h3).1⟩

theorem ctor_default_valid (A : AlternativeOps Ty Val Args) (Empty : Ty) {Types : List Ty}
    (hne : Types ≠ []) {x : Val}
    (hx : A.construct (get_type_by_index Empty 0 Types) A.no_args = .ok x) :
    ∃ v, Variant.ctor_default A Empty Types = .ok v ∧ v.idx = 0 ∧
      v.storage.live = some (0, x) ∧ Variant.Valid Types v := by
  cases Types with
  | nil => exact absurd rfl hne
  | cons Head Tail =>
    simp only [get_type_by_index, if_true] at hx
    refine ⟨{ storage := .head x, idx := 0 }, ?_, rfl, rfl, Or.inr ⟨by simp, x, rfl⟩⟩
    simp [Variant.ctor_default, get_type_by_index, VariadicUnion.put, hx, bind, Except.bind,
      pure, Except.pure]

theorem apply_op_valid (A : AlternativeOps Ty Val Args) {Types : List Ty}
    (hok : TypesOk Types) (op : Op Ty Val Args) (hop : op.target ∈ Types)
    (hasg : ∀ T x, op = .assign T x → A.assignable T = true) {v : Variant Val}
    (hv : Variant.Valid Types v) :
    ∃ v1, Variant.apply_op A Types v op = .ok v1 ∧ Variant.Valid Types v1 := by
  cases op with
  | assign T x =>
    have hop : T ∈ Types := hop
    obtain ⟨v1, h1, h2, h3, _⟩ := assign_value_spec A.assignable hok hop (hasg T x rfl) x hv
    exact ⟨v1, h1, (valid_of_live_at hok hop h2 h3).1⟩
  | emplace T args =>
    have hop : T ∈ Types := hop
    cases hc : A.construct T args with
    | ok x =>
      obtain ⟨v1, h1, h2, h3⟩ := emplace_ok_spec A hok hop args hc hv
      exact ⟨v1, by simp [Variant.apply_op, h1, Except.map],
        (valid_of_live_at hok hop h2 h3).1⟩
    | error e =>
      obtain ⟨v1, h1, h2, h3⟩ := emplace_thrown_spec A hok hop args hc hv
      exact ⟨v1, by simp [Variant.apply_op, h1, Except.map], Or.inl ⟨h3, h2⟩⟩

theorem run_valid (A : AlternativeOps Ty Val Args) {Types : List Ty} (hok : TypesOk Types) :
    ∀ (ops : List (Op Ty Val Args)), (∀ op ∈ ops, op.target ∈ Types) →
      (∀ T x, Op.assign T x ∈ ops → A.assignable T = true) →
      ∀ v, Variant.Valid Types v →
      ∃ v1, Variant.run A Types ops v = .ok v1 ∧ Variant.Valid Types v1 := by
  intro ops
  induction ops with
  | nil => intro _ _ v hv; exact ⟨v, rfl, hv⟩
  | cons op ops ih =>
    intro hops hasg v hv
    obtain ⟨v1, h1, h2⟩ := apply_op_valid A hok op (hops op (List.mem_cons_self _ _))
      (fun T x h => hasg T x (h ▸ List.mem_cons_self _ _)) hv
    obtain ⟨v2, h3, h4⟩ := ih (fun o ho => hops o (List.mem_cons_of_mem _ ho))
      (fun T x h => hasg T x (List.mem_cons_of_mem _ h)) v1 h2
    refine ⟨v2, ?_, h4⟩
    simp only [Variant.run, List.foldlM_cons, h1, bind, Except.bind]
    exact h3

theorem run_not_assignable (A : AlternativeOps Ty Val Args) {Types : List Ty}
    (hok : TypesOk Types) :
    ∀ (ops : List (Op Ty Val Args)), (∀ op ∈ ops, op.target ∈ Types) →
      (∃ T x, Op.assign T x ∈ ops ∧ A.assignable T = false) →
      ∀ v, Variant.Valid Types v →
      Variant.run A Types ops v = .error .ill_formed := by
  intro ops
  induction ops with
  | nil =>
    rintro _ ⟨T, x, h, _⟩
    simp at h
  | cons op ops ih =>
    rintro hops ⟨T, x, hmem, hT⟩ v hv
    have hops2 : ∀ o ∈ ops, o.target ∈ Types := fun o ho => hops o (List.mem_cons_of_mem _ ho)
    by_cases hbad : ∃ U y, op = .assign U y ∧ A.assignable U = false
    · obtain ⟨U, y, rfl, hU⟩ := hbad
      have hmemU : U ∈ Types := hops _ (List.mem_cons_self _ _)
      have h1 : Variant.apply_op A Types v (.assign U y) = .error .ill_formed :=
        assign_value_not_assignable A.assignable hmemU hU y v
      simp only [Variant.run, List.foldlM_cons, h1, bind, Except.bind]
    · have hasg : ∀ U y, op = .assign U y → A.assignable U = true := by
        intro U y h
        cases hU : A.assignable U with
        | true => rfl
        | false => exact absurd ⟨U, y, h, hU⟩ hbad
      obtain ⟨v1, h1, h2⟩ := apply_op_valid A hok op (hops op (List.mem_cons_self _ _))
        hasg hv
      have htail : Op.assign T x ∈ ops := by
        rcases List.mem_cons.mp hmem with h | h
        · have := hasg T x h.symm
          rw [hT] at this
          cases this
        · exact h
      have h3 := ih hops2 ⟨T, x, htail, hT⟩ v1 h2
      simp only [Variant.run, List.foldlM_cons, h1, bind, Except.bind]
      exact h3

theorem holds_exactly_one_of_valid {Types : List Ty} (hok : TypesOk Types) {v : Variant Val}
    (hv : Variant.Valid Types v) (hnv : v.valueless_by_exception = false) :
    ∃ T, Types[v.index]? = some T ∧ T ∈ Types ∧ holds_alternative T Types v = true ∧
      ∀ U ∈ Types, U ≠ T → holds_alternative U Types v = false := by
  obtain ⟨hlt, _⟩ := live_of_not_valueless hv hnv
  obtain ⟨T, hT, hI, hget⟩ := exists_Index_eq hok hlt
  refine ⟨T, hget, hT, holds_alternative_iff.mpr hI, ?_⟩
  intro U hU hne
  cases hh : holds_alternative U Types v with
  | false => rfl
  | true =>
    have := holds_alternative_iff.mp hh
    exact absurd (Index_inj hok.2 hU hT (this.trans hI.symm)) hne

/-- C7: a container is constructed from a value of an alternative type (or default-constructed
over a non-empty list whose first alternative constructs) and then undergoes any sequence of
value assignments and emplacements, failed ones included. If every value assignment of the
sequence names an assignable alternative, every operation returns, and if the final state is
not valueless then `holds_alternative<T>` is true for the alternative `T` at position
`index()` and false for every other alternative of the list. If some value assignment of the
sequence names an alternative that is not assignable, as a const-qualified one is not, the
sequence does not compile. -/
theorem holds_alternative_exactly_at_index (A : AlternativeOps Ty Val Args) (Empty : Ty)
    {Types : List Ty} (hok : TypesOk Types) (ops : List (Op Ty Val Args))
    (hops : ∀ op ∈ ops, op.target ∈ Types) :
    ((∀ T x, Op.assign T x ∈ ops → A.assignable T = true) →
      (∀ T0 ∈ Types, ∀ (x : Val) (stale : Nat),
        ∃ v0 v, Variant.ctor_value Types T0 x stale = .ok v0 ∧
          Variant.run A Types ops v0 = .ok v ∧
          (v.valueless_by_exception = false →
            ∃ T, Types[v.index]? = some T ∧ T ∈ Types ∧ holds_alternative T Types v = true ∧
              ∀ U ∈ Types, U ≠ T → holds_alternative U Types v = false)) ∧
      (∀ x, Types ≠ [] →
        A.construct (get_type_by_index Empty 0 Types) A.no_args = .ok x →
        ∃ v0 v, Variant.ctor_default A Empty Types = .ok v0 ∧
          Variant.run A Types ops v0 = .ok v ∧
          (v.valueless_by_exception = false →
            ∃ T, Types[v.index]? = some T ∧ T ∈ Types ∧ holds_alternative T Types v = true ∧
              ∀ U ∈ Types, U ≠ T → holds_alternative U Types v = false))) ∧
    ((∃ T x, Op.assign T x ∈ ops ∧ A.assignable T = false) →
      (∀ T0 ∈ Types, ∀ (x : Val) (stale : Nat),
        ∃ v0, Variant.ctor_value Types T0 x stale = .ok v0 ∧
          Variant.run A Types ops v0 = .error .ill_formed) ∧
      (∀ x, Types ≠ [] →
        A.construct (get_type_by_index Empty 0 Types) A.no_args = .ok x →
        ∃ v0, Variant.ctor_default A Empty Types = .ok v0 ∧
          Variant.run A Types ops v0 = .error .ill_formed)) := by
  refine ⟨fun hasg => ⟨?_, ?_⟩, fun hbad => ⟨?_, ?_⟩⟩
  · intro T0 hT0 x stale
    obtain ⟨v0, h1, h2⟩ := ctor_value_valid hok hT0 x stale
    obtain ⟨v, h3, h4⟩ := run_valid A hok ops hops hasg v0 h2
    exact ⟨v0, v, h1, h3, holds_exactly_one_of_valid hok h4⟩
  · intro x hne hx
    obtain ⟨v0, h1, _, _, h2⟩ := ctor_default_valid A Empty hne hx
    obtain ⟨v, h3, h4⟩ := run_valid A hok ops hops hasg v0 h2
    exact ⟨v0, v, h1, h3, holds_exactly_one_of_valid hok h4⟩
  · intro T0 hT0 x stale
    obtain ⟨v0, h1, h2⟩ := ctor_value_valid hok hT0 x stale
    exact ⟨v0, h1, run_not_assignable A hok ops hops hbad v0 h2⟩
  · intro x hne hx
    obtain ⟨v0, h1, _, _, h2⟩ := ctor_default_valid A Empty hne hx
    exact ⟨v0, h1, run_not_assignable A hok ops hops hbad v0 h2⟩

theorem holds_alternative_exactly_at_index_witness :
    TypesOk TestOverloading_Types ∧
    (∀ op ∈ TestOverloading_ops, op.target ∈ TestOverloading_Types) ∧
    (∀ T x, Op.assign T x ∈ TestOverloading_ops → CppOps.assignable T = true) ∧
    ∃ v0 v, Variant.ctor_value TestOverloading_Types CppType.bool (CppVal.num 1) 0 = .ok v0 ∧
      Variant.run CppOps TestOverloading_Types TestOverloading_ops v0 = .ok v ∧
      holds_alternative CppType.int_ptr TestOverloading_Types v = true ∧
      holds_alternative CppType.const_int_ptr TestOverloading_Types v = false :=
  have h1 : TypesOk TestOverloading_Types := by unfold TypesOk; decide
  have h2 : ∀ op ∈ TestOverloading_ops, op.target ∈ TestOverloading_Types := by
    intro op hop
    simp only [TestOverloading_ops, List.mem_cons, List.mem_singleton, List.not_mem_nil,
      or_false] at hop
    rcases hop with rfl | rfl | rfl | rfl <;> decide
  have h3 : ∀ T x, Op.assign T x ∈ TestOverloading_ops → CppOps.assignable T = true := by
    intro T x hop
    simp only [TestOverloading_ops, List.mem_cons, List.mem_singleton, List.not_mem_nil,
      or_false, Op.assign.injEq] at hop
    rcases hop with ⟨rfl, _⟩ | ⟨rfl, _⟩ | ⟨rfl, _⟩ | ⟨rfl, _⟩ <;> rfl
  ⟨h1, h2, h3,
    match ((holds_alternative_exactly_at_index CppOps CppType.Empty h1 TestOverloading_ops
      h2).1 h3).1 CppType.bool (by decide) (CppVal.num 1) 0 with
    | ⟨v0, v, e1, e2, _⟩ => ⟨v0, v, e1, e2, by
        cases e1
        cases e2
        exact ⟨rfl, rfl⟩⟩⟩

end SequenceClaims

/-! ## Valueless sources -/

/-- C6: the invariant `idx == NPOS` iff no object is alive is not preserved by assignment
from a valueless source. The container `a` is left valueless by an `emplace` whose
construction throws, the container `b` holds the string `"ab"`, and both satisfy the
invariant; after `b = a`, and likewise after `b = std::move(a)`, the string of `b` has been
destroyed, no object is alive in `b`, and `b.index()` is still 0, so that the destructor of
`b` destroys the string a second time. -/
theorem assign_from_valueless_breaks_invariant :
    Variant.emplace CppOps TestCopyMove_Types CppType.vector_int (Except.error (Exn.mk 7))
        TestCopyMove_ab = .ok (TestCopyMove_valueless, Except.error (Exn.mk 7)) ∧
    Variant.Invariant (TestCopyMove_valueless_store 0) ∧
    Variant.Invariant (TestCopyMove_valueless_store 1) ∧
    (∃ s1, Variant.assign_copy TestCopyMove_Types 0 1 TestCopyMove_valueless_store = .ok s1 ∧
      (s1 0).index = 0 ∧ (s1 0).valueless_by_exception = false ∧
      (s1 0).storage.live = none ∧ ¬ Variant.Invariant (s1 0) ∧
      Variant.destroy TestCopyMove_Types (s1 0) = .error .undefined_behaviour) ∧
    (∃ s1, Variant.assign_move CppOps TestCopyMove_Types 0 1 TestCopyMove_valueless_store =
        .ok s1 ∧
      (s1 0).index = 0 ∧ (s1 0).valueless_by_exception = false ∧
      (s1 0).storage.live = none ∧ ¬ Variant.Invariant (s1 0) ∧
      Variant.destroy TestCopyMove_Types (s1 0) = .error .undefined_behaviour) := by
  have hinv : ¬ Variant.Invariant ({ storage := .raw, idx := 0 } : Variant CppVal) := by
    intro h
    have h2 := h.mpr rfl
    revert h2
    decide
  refine ⟨rfl, ?_, ?_, ?_, ?_⟩
  · constructor
    · intro h; revert h; decide
    · intro h; simp [TestCopyMove_valueless_store, TestCopyMove_ab, VariadicUnion.live] at h
  · exact ⟨fun _ => rfl, fun _ => rfl⟩
  · exact ⟨Function.update TestCopyMove_valueless_store 0 { storage := .raw, idx := 0 }, rfl,
      rfl, rfl, rfl, hinv, rfl⟩
  · exact ⟨Function.update TestCopyMove_valueless_store 0 { storage := .raw, idx := 0 }, rfl,
      rfl, rfl, rfl, hinv, rfl⟩

/-- C10: copy construction and move construction from a valueless source write nothing to the
new object: no alternative is constructed, and `idx`, which has no initialiser, keeps the
stale content of its memory. Where that content is 0 the new object reports `index() == 0`,
not `NPOS`, and `valueless_by_exception()` is false, so that its destructor destroys a string
that was never constructed. -/
theorem ctor_from_valueless_keeps_stale_idx :
    TestCopyMove_valueless.valueless_by_exception = true ∧
    (∀ stale : Nat, Variant.ctor_copy TestCopyMove_Types TestCopyMove_valueless stale =
      .ok (Variant.fresh stale)) ∧
    (∀ stale : Nat, Variant.ctor_move CppOps TestCopyMove_Types TestCopyMove_valueless stale =
      .ok (Variant.fresh stale, TestCopyMove_valueless)) ∧
    (Variant.fresh 0 : Variant CppVal).index = 0 ∧
    (Variant.fresh 0 : Variant CppVal).index ≠ NPOS ∧
    (Variant.fresh 0 : Variant CppVal).valueless_by_exception = false ∧
    (Variant.fresh 0 : Variant CppVal).storage.live = none ∧
    Variant.destroy TestCopyMove_Types (Variant.fresh 0 : Variant CppVal) =
      .error .undefined_behaviour := by
  have hok : TypesOk TestCopyMove_Types := by unfold TypesOk; decide
  refine ⟨by decide, ?_, ?_, rfl, by decide, by decide, rfl, rfl⟩
  · intro stale
    exact ctor_copy_of_valueless hok TestCopyMove_valueless rfl stale
  · intro stale
    exact ctor_move_of_valueless CppOps hok TestCopyMove_valueless rfl stale


/-! ## Visitation of several containers -/

theorem Visit_of_valid_ref {Ty Val R : Type} (f : List (Argument Ty Val) → R)
    (vs : List (Operand Ty Val))
    (hvs : ∀ o ∈ vs, Variant.Valid o.Types o.v ∧ o.v.valueless_by_exception = false) :
    ∃ args, Visit f vs = .ok (f args) ∧
      List.Forall₂ (fun o a =>
        Get_static_cast o.category o.v.index o.Types o.v =
          .ok { category := a.category, value := a.value } ∧
        a.category = o.category ∧
        o.Types[o.v.index]? = some a.ty ∧ Get o.v.index o.Types o.v = .ok a.value ∧
        o.v.storage.live = some (o.v.index, a.value)) vs args := by
  have hlive : ∀ o ∈ vs, o.v.idx < o.Types.length ∧
      ∃ x, o.v.storage.live = some (o.v.idx, x) :=
    fun o ho => live_of_not_valueless (hvs o ho).1 (hvs o ho).2
  obtain ⟨args, h1, h2⟩ := dispatch_args_of_live_ref vs hlive
  refine ⟨args, ?_, h2⟩
  have hbound : List.Forall₂ (fun i n => i < n) (vs.map fun o => o.v.index)
      (vs.map fun o => variant_size o.Types) := by
    rw [List.forall₂_map_left_iff, List.forall₂_map_right_iff]
    exact List.forall₂_same.mpr fun o ho => (hlive o ho).1
  simp only [Visit, at_make_fmatrix _ _ hbound, dispatch, h1, bind, Except.bind, pure,
    Except.pure]

theorem Visit_of_valid {Ty Val R : Type} (f : List (Argument Ty Val) → R)
    (vs : List (Operand Ty Val))
    (hvs : ∀ o ∈ vs, Variant.Valid o.Types o.v ∧ o.v.valueless_by_exception = false) :
    ∃ args, Visit f vs = .ok (f args) ∧
      List.Forall₂ (fun o a => a.category = o.category ∧
        o.Types[o.v.index]? = some a.ty ∧ Get o.v.index o.Types o.v = .ok a.value ∧
        o.v.storage.live = some (o.v.index, a.value)) vs args := by
  obtain ⟨args, h1, h2⟩ := Visit_of_valid_ref f vs hvs
  exact ⟨args, h1, h2.imp fun _ _ g => g.2⟩

/-- C11: for `basicPackA` over `LightItem, HeavyItem` and `basicPackB` over `LightItem,
HeavyItem, FragileItem`, each in any state that is not valueless, and the handler of the test,
`Visit(visitor, basicPackA, basicPackB)` returns the result of the lambda declared for the
pair (type held by `basicPackA`, type held by `basicPackB`), the first argument coming from
`basicPackA` and the second from `basicPackB`, and the result of the generic lambda when
`basicPackB` holds `FragileItem`. -/
theorem Visit_selects_handler_of_pair (a b : Variant CppVal)
    (ha : Variant.Valid TestMultipleVisit_TypesA a)
    (hb : Variant.Valid TestMultipleVisit_TypesB b)
    (hna : a.valueless_by_exception = false) (hnb : b.valueless_by_exception = false) :
    Visit TestMultipleVisit_visitor
        [{ category := .lvalue, Types := TestMultipleVisit_TypesA, v := a },
         { category := .lvalue, Types := TestMultipleVisit_TypesB, v := b }] =
      .ok (TestMultipleVisit_expected a.index b.index) ∧
    a.index < 2 ∧ b.index < 3 ∧
    (b.index = 2 → TestMultipleVisit_expected a.index b.index = "another") ∧
    (TestMultipleVisit_TypesB[b.index]? = some CppType.FragileItem ↔ b.index = 2) := by
  have hla := (live_of_not_valueless ha hna).1
  have hlb := (live_of_not_valueless hb hnb).1
  have hvs : ∀ o ∈ [({ category := .lvalue, Types := TestMultipleVisit_TypesA, v := a } :
        Operand CppType CppVal),
      { category := .lvalue, Types := TestMultipleVisit_TypesB, v := b }],
      Variant.Valid o.Types o.v ∧ o.v.valueless_by_exception = false := by
    intro o ho
    simp only [List.mem_cons, List.mem_singleton, List.not_mem_nil, or_false] at ho
    rcases ho with rfl | rfl
    · exact ⟨ha, hna⟩
    · exact ⟨hb, hnb⟩
  obtain ⟨args, h1, h2⟩ := Visit_of_valid TestMultipleVisit_visitor _ hvs
  have hA : a.idx < 2 := hla
  have hB : b.idx < 3 := hlb
  refine ⟨?_, hA, hB, ?_, ?_⟩
  · rw [h1]
    cases h2 with
    | cons hx hrest =>
      cases hrest with
      | cons hy hnil =>
        cases hnil
        rename_i x y
        obtain ⟨hx1, hx2, _⟩ := hx
        obtain ⟨hy1, hy2, _⟩ := hy
        simp only [Variant.index] at hx2 hy2 ⊢
        congr 1
        have hidxA : a.idx = 0 ∨ a.idx = 1 := by omega
        have hidxB : b.idx = 0 ∨ b.idx = 1 ∨ b.idx = 2 := by omega
        rcases hidxA with hA0 | hA0 <;> rcases hidxB with hB0 | hB0 | hB0 <;>
          · rw [hA0] at hx2
            rw [hB0] at hy2
            simp only [TestMultipleVisit_TypesA, TestMultipleVisit_TypesB,
              List.getElem?_cons_zero, List.getElem?_cons_succ, Option.some.injEq] at hx2 hy2
            simp [TestMultipleVisit_visitor, TestMultipleVisit_expected, hx1, hy1, ← hx2,
              ← hy2, hA0, hB0]
  · intro h
    simp only [Variant.index] at h ⊢
    have hidxA : a.idx = 0 ∨ a.idx = 1 := by omega
    rcases hidxA with hA0 | hA0 <;> simp [TestMultipleVisit_expected, hA0, h]
  · simp only [Variant.index]
    have hidxB : b.idx = 0 ∨ b.idx = 1 ∨ b.idx = 2 := by omega
    rcases hidxB with hB0 | hB0 | hB0 <;> simp [TestMultipleVisit_TypesB, hB0]

theorem Visit_selects_handler_of_pair_witness :
    Variant.Valid TestMultipleVisit_TypesA TestMultipleVisit_heavy ∧
    Variant.Valid TestMultipleVisit_TypesB TestMultipleVisit_fragile ∧
    TestMultipleVisit_heavy.valueless_by_exception = false ∧
    TestMultipleVisit_fragile.valueless_by_exception = false ∧
    Visit TestMultipleVisit_visitor
      (TestMultipleVisit_operands .lvalue .lvalue) = .ok "another" :=
  have h1 : Variant.Valid TestMultipleVisit_TypesA TestMultipleVisit_heavy :=
    Or.inr ⟨by decide, .item, rfl⟩
  have h2 : Variant.Valid TestMultipleVisit_TypesB TestMultipleVisit_fragile :=
    Or.inr ⟨by decide, .item, rfl⟩
  ⟨h1, h2, by decide, by decide,
    (Visit_selects_handler_of_pair TestMultipleVisit_heavy TestMultipleVisit_fragile h1 h2
      (by decide) (by decide)).1⟩

/-! ## Construction, typed access and emplacement by index -/

section ConstructionClaims

variable {Ty Val Args : Type} [DecidableEq Ty]

/-- C12: for every alternative type `T` of the list and every value `x` of type `T`, the
container constructed from `x` has `index()` equal to the compile-time index of `T`,
`holds_alternative<T>` is true and `Get<T>` returns `x`. -/
theorem ctor_value_holds_its_alternative {Types : List Ty} (hok : TypesOk Types) (T : Ty)
    (hT : T ∈ Types) (x : Val) (stale : Nat) :
    ∃ v, Variant.ctor_value Types T x stale = .ok v ∧
      v.index = get_index_by_type_v T Types ∧
      holds_alternative T Types v = true ∧
      Get_by_type T Types v = .ok x ∧
      v.valueless_by_exception = false := by
  obtain ⟨v, h1, h2, h3⟩ := ctor_value_spec hT x (Variant.fresh stale)
  obtain ⟨_, g2, g3⟩ := valid_of_live_at hok hT h2 h3
  refine ⟨v, h1, h2, g3, g2, ?_⟩
  have := Index_ne_NPOS hok.2 hT
  simp only [Variant.valueless_by_exception, decide_eq_false_iff_not]
  rw [h2]
  exact this

theorem ctor_value_holds_its_alternative_witness :
    TypesOk BasicTest_Types ∧ CppType.int ∈ BasicTest_Types ∧
    ∃ v, Variant.ctor_value BasicTest_Types CppType.int (CppVal.num 5) 0 = .ok v ∧
      v.index = 0 ∧ Get_by_type CppType.int BasicTest_Types v = .ok (CppVal.num 5) :=
  have h1 : TypesOk BasicTest_Types := by unfold TypesOk; decide
  ⟨h1, by decide,
    match ctor_value_holds_its_alternative h1 CppType.int (by decide) (CppVal.num 5) 0 with
    | ⟨v, e1, e2, _, e4, _⟩ => ⟨v, e1, e2, e4⟩⟩

/-- C13: over a list with a first alternative whose default construction yields `x`, the
default-constructed container holds a live alternative: `index() == 0`,
`valueless_by_exception()` is false and `Get<0>` returns `x`. -/
theorem ctor_default_holds_first_alternative (A : AlternativeOps Ty Val Args) (Empty : Ty)
    (Types : List Ty) (hne : Types ≠ []) (x : Val)
    (hx : A.construct (get_type_by_index Empty 0 Types) A.no_args = .ok x) :
    ∃ v, Variant.ctor_default A Empty Types = .ok v ∧
      v.index = 0 ∧ v.valueless_by_exception = false ∧
      v.storage.live = some (0, x) ∧ Get 0 Types v = .ok x ∧
      Types[0]? = some (get_type_by_index Empty 0 Types) := by
  obtain ⟨v, h1, h2, h3, h4⟩ := ctor_default_valid A Empty hne hx
  have hlen : 0 < Types.length := List.length_pos.mpr hne
  refine ⟨v, h1, h2, ?_, h3, ?_, ?_⟩
  · simp only [Variant.valueless_by_exception, h2, decide_eq_false_iff_not]
    unfold NPOS SIZE_MOD
    omega
  · rw [← h2] at h3 ⊢
    exact Get_of_live h3 (by rw [h2]; exact hlen)
  · cases Types with
    | nil => exact absurd rfl hne
    | cons Head Tail => simp [get_type_by_index]

theorem ctor_default_holds_first_alternative_witness :
    TestCopyMove_Types ≠ [] ∧
    CppOps.construct (get_type_by_index CppType.Empty 0 TestCopyMove_Types)
      CppOps.no_args = .ok (CppVal.text []) ∧
    ∃ v, Variant.ctor_default CppOps CppType.Empty TestCopyMove_Types = .ok v ∧
      v.index = 0 ∧ v.valueless_by_exception = false ∧
      Get 0 TestCopyMove_Types v = .ok (CppVal.text []) :=
  ⟨by decide, rfl,
    match ctor_default_holds_first_alternative CppOps CppType.Empty TestCopyMove_Types
      (by decide) (CppVal.text []) rfl with
    | ⟨v, e1, e2, e3, _, e5, _⟩ => ⟨v, e1, e2, e3, e5⟩⟩

omit [DecidableEq Ty] in
theorem get_type_by_index_of_lt (Empty : Ty) :
    ∀ (Types : List Ty) (i : Nat) (h : i < Types.length),
      get_type_by_index Empty i Types = Types[i] := by
  intro Types
  induction Types with
  | nil => intro i h; simp at h
  | cons Head Tail ih =>
    intro i h
    cases i with
    | zero => simp [get_type_by_index]
    | succ n =>
      have hn : n < Tail.length := by simpa using h
      simp [get_type_by_index, ih n hn]

/-- C15: over pairwise distinct alternatives, for every valid index `I` and every state of the
data model, an `emplace<I>(args...)` whose construction succeeds leaves `index() == I` and
`Get<I>` returning the constructed value: the type found at `I` has index `I`. -/
theorem emplace_at_index_lands_on_index (A : AlternativeOps Ty Val Args) (Empty : Ty)
    {Types : List Ty} (hok : TypesOk Types) (I : Nat) (hI : I < Types.length) (args : Args)
    (x : Val) (hx : A.construct (get_type_by_index Empty I Types) args = .ok x)
    (v : Variant Val) (hv : Variant.Valid Types v) :
    ∃ v1, Variant.emplace_at A Empty Types I args v = .ok (v1, .ok x) ∧
      v1.index = I ∧ Get I Types v1 = .ok x ∧
      get_index_by_type_v (get_type_by_index Empty I Types) Types = I := by
  have hty : get_type_by_index Empty I Types = Types[I] := get_type_by_index_of_lt Empty Types I hI
  have hmem : get_type_by_index Empty I Types ∈ Types := by
    rw [hty]
    exact List.getElem_mem _
  have hidx : VariantAlternative.Index Types (get_type_by_index Empty I Types) = I := by
    rw [Index_of_mem hok.2 hmem, hty]
    exact List.indexOf_getElem hok.1 I hI
  obtain ⟨v1, h1, h2, h3⟩ := emplace_ok_spec A hok hmem args hx hv
  have h2I : v1.idx = I := h2.trans hidx
  refine ⟨v1, h1, h2I, ?_, hidx⟩
  have hl : v1.storage.live = some (v1.idx, x) := by
    rw [h3, ← Index_of_mem hok.2 hmem, hidx, h2I]
  have := Get_of_live hl (by rw [h2I]; exact hI)
  rwa [h2I] at this

theorem emplace_at_index_lands_on_index_witness :
    TypesOk TestConst_Types ∧ 0 < TestConst_Types.length ∧
    CppOps.construct (get_type_by_index CppType.Empty 0 TestConst_Types)
      (.ok (CppVal.num 5)) = .ok (CppVal.num 5) ∧
    Variant.Valid TestConst_Types
      { storage := .tail (.head (CppVal.text ['a'])), idx := 1 } ∧
    ∃ v1, Variant.emplace_at CppOps CppType.Empty TestConst_Types 0 (.ok (CppVal.num 5))
        { storage := .tail (.head (CppVal.text ['a'])), idx := 1 } =
        .ok (v1, .ok (CppVal.num 5)) ∧
      v1.index = 0 ∧ Get 0 TestConst_Types v1 = .ok (CppVal.num 5) :=
  have h1 : TypesOk TestConst_Types := by unfold TypesOk; decide
  have h2 : Variant.Valid TestConst_Types
      { storage := .tail (.head (CppVal.text ['a'])), idx := 1 } :=
    Or.inr ⟨by decide, .text ['a'], rfl⟩
  ⟨h1, by decide, rfl, h2,
    match emplace_at_index_lands_on_index CppOps CppType.Empty h1 0 (by decide)
      (.ok (CppVal.num 5)) (CppVal.num 5) rfl _ h2 with
    | ⟨v1, e1, e2, e3, _⟩ => ⟨v1, e1, e2, e3⟩⟩

end ConstructionClaims

/-! ## Typed access in the four value-category forms -/

section GetForms

variable {Ty Val : Type} [DecidableEq Ty]

omit [DecidableEq Ty] in
theorem std_move_std_move (r : Reference Val) : std_move (std_move r) = std_move r := by
  obtain ⟨c, x⟩ := r
  cases c <;> rfl

omit [DecidableEq Ty] in
theorem Get_forms_eq_Get (I : Nat) (Types : List Ty) (v : Variant Val) :
    Get_const_lvalue I Types v =
      (Get I Types v).map (fun x => { category := .const_lvalue, value := x }) ∧
    Get_lvalue I Types v = (Get I Types v).map (fun x => { category := .lvalue, value := x }) ∧
    Get_rvalue I Types v = (Get I Types v).map (fun x => { category := .rvalue, value := x }) ∧
    Get_const_rvalue I Types v =
      (Get I Types v).map (fun x => { category := .const_rvalue, value := x }) := by
  by_cases h : v.idx = I
  · subst h
    cases hg : VariadicUnion.get v.idx Types v.storage <;>
      simp [Get_const_lvalue, Get_lvalue, Get_rvalue, Get_const_rvalue, Get, hg, Except.map,
        std_move]
  · simp [Get_const_lvalue, Get_lvalue, Get_rvalue, Get_const_rvalue, Get, h, Except.map]

omit [DecidableEq Ty] in
theorem map_std_move_Get_rvalue (I : Nat) (Types : List Ty) (v : Variant Val) :
    (Get_rvalue I Types v).map std_move = Get_rvalue I Types v ∧
    (Get_const_rvalue I Types v).map std_move = Get_const_rvalue I Types v := by
  by_cases h : v.idx = I
  · subst h
    cases hg : VariadicUnion.get v.idx Types v.storage <;>
      simp [Get_rvalue, Get_const_rvalue, hg, Except.map, std_move]
  · simp [Get_rvalue, Get_const_rvalue, h, Except.map]

/-- C14: for every alternative type `T` of the list, with `I` its compile-time index, and every
container in a state of the data model, `Get<T>(v)` equals `Get<I>(v)` in each of the four
forms (const lvalue, lvalue, rvalue, const rvalue): either `index() != I` and all eight calls
throw the bad-access error, or the live object `x` sits at `I` and each pair returns a
reference to `x` of its own value category. -/
theorem Get_by_type_eq_Get_at_index {Types : List Ty} (hok : TypesOk Types) (T : Ty)
    (hT : T ∈ Types) (v : Variant Val) (hv : Variant.Valid Types v) :
    Get_by_type_const_lvalue T Types v = Get_const_lvalue (get_index_by_type_v T Types) Types v ∧
    Get_by_type_lvalue T Types v = Get_lvalue (get_index_by_type_v T Types) Types v ∧
    Get_by_type_rvalue T Types v = Get_rvalue (get_index_by_type_v T Types) Types v ∧
    Get_by_type_const_rvalue T Types v = Get_const_rvalue (get_index_by_type_v T Types) Types v ∧
    Get_by_type T Types v = Get (get_index_by_type_v T Types) Types v ∧
    ((v.index ≠ get_index_by_type_v T Types ∧
        Get_const_lvalue (get_index_by_type_v T Types) Types v = .error .bad_variant_access ∧
        Get_lvalue (get_index_by_type_v T Types) Types v = .error .bad_variant_access ∧
        Get_rvalue (get_index_by_type_v T Types) Types v = .error .bad_variant_access ∧
        Get_const_rvalue (get_index_by_type_v T Types) Types v = .error .bad_variant_access) ∨
      (∃ x, v.storage.live = some (get_index_by_type_v T Types, x) ∧
        Get_const_lvalue (get_index_by_type_v T Types) Types v =
          .ok { category := .const_lvalue, value := x } ∧
        Get_lvalue (get_index_by_type_v T Types) Types v =
          .ok { category := .lvalue, value := x } ∧
        Get_rvalue (get_index_by_type_v T Types) Types v =
          .ok { category := .rvalue, value := x } ∧
        Get_const_rvalue (get_index_by_type_v T Types) Types v =
          .ok { category := .const_rvalue, value := x })) := by
  obtain ⟨m1, m2⟩ := map_std_move_Get_rvalue (get_index_by_type_v T Types) Types v
  obtain ⟨f1, f2, f3, f4⟩ := Get_forms_eq_Get (get_index_by_type_v T Types) Types v
  refine ⟨rfl, rfl, m1, m2, rfl, ?_⟩
  have hlt : get_index_by_type_v T Types < Types.length := Index_lt_length hok.2 hT
  by_cases h : v.idx = get_index_by_type_v T Types
  · right
    rcases hv with ⟨_, h2⟩ | ⟨h1, x, h2⟩
    · have := hok.2
      omega
    · have hg : Get (get_index_by_type_v T Types) Types v = .ok x := by
        rw [← h]
        exact Get_of_live h2 h1
      refine ⟨x, by rw [← h]; exact h2, ?_, ?_, ?_, ?_⟩
      · rw [f1, hg]; rfl
      · rw [f2, hg]; rfl
      · rw [f3, hg]; rfl
      · rw [f4, hg]; rfl
  · left
    have hg : Get (get_index_by_type_v T Types) Types v = .error .bad_variant_access :=
      Get_of_idx_ne h
    refine ⟨h, ?_, ?_, ?_, ?_⟩
    · rw [f1, hg]; rfl
    · rw [f2, hg]; rfl
    · rw [f3, hg]; rfl
    · rw [f4, hg]; rfl

theorem Get_by_type_eq_Get_at_index_witness :
    TypesOk TestCopyMove_Types ∧ CppType.string ∈ TestCopyMove_Types ∧
    Variant.Valid TestCopyMove_Types TestCopyMove_abcdefgh ∧
    Get_by_type_rvalue CppType.string TestCopyMove_Types TestCopyMove_abcdefgh =
      Get_rvalue 0 TestCopyMove_Types TestCopyMove_abcdefgh ∧
    Get_by_type_rvalue CppType.string TestCopyMove_Types TestCopyMove_abcdefgh =
      .ok { category := .rvalue,
            value := CppVal.text ['a', 'b', 'c', 'd', 'e', 'f', 'g', 'h'] } :=
  have h1 : TypesOk TestCopyMove_Types := by unfold TypesOk; decide
  have h2 : Variant.Valid TestCopyMove_Types TestCopyMove_abcdefgh :=
    Or.inr ⟨by decide, .text ['a', 'b', 'c', 'd', 'e', 'f', 'g', 'h'], rfl⟩
  ⟨h1, by decide, h2,
    (Get_by_type_eq_Get_at_index h1 CppType.string (by decide) TestCopyMove_abcdefgh h2).2.2.1,
    rfl⟩

end GetForms

/-! ## Destructor calls of `destroy` and `emplace` -/

section TracedLemmas

variable {Ty Val Args : Type} [DecidableEq Ty]

theorem destroy_traced_fst (T : Ty) :
    ∀ (Types : List Ty) (u : VariadicUnion Val),
      (VariadicUnion.destroy_traced T Types u).map Prod.fst =
        VariadicUnion.destroy T Types u := by
  intro Types
  induction Types with
  | nil => intro u; rfl
  | cons Head Tail ih =>
    intro u
    by_cases hT : T = Head
    · subst hT
      cases u <;> simp [VariadicUnion.destroy_traced, VariadicUnion.destroy, Except.map]
    · have h := ih u.tail_member
      simp only [VariadicUnion.destroy_traced, VariadicUnion.destroy, if_neg hT]
      rw [← h]
      cases VariadicUnion.destroy_traced T Tail u.tail_member <;> rfl

theorem alternative_destroy_traced_fst (Types : List Ty) (T : Ty)
    (p : Variant Val × List (Event Ty Val)) :
    (VariantAlternative.destroy_traced Types T p).map Prod.fst =
      VariantAlternative.destroy Types T p.1 := by
  unfold VariantAlternative.destroy_traced VariantAlternative.destroy
  by_cases h : p.1.idx = VariantAlternative.Index Types T
  · simp only [h, if_true]
    rw [← destroy_traced_fst T Types p.1.storage]
    cases VariadicUnion.destroy_traced T Types p.1.storage <;> rfl
  · simp only [h, if_false]
    rfl

theorem destroy_traced_fold_fst (Types : List Ty) :
    ∀ (L : List Ty) (p : Variant Val × List (Event Ty Val)),
      (L.foldlM (fun q T => VariantAlternative.destroy_traced Types T q) p).map Prod.fst =
        L.foldlM (fun s T => VariantAlternative.destroy Types T s) p.1 := by
  intro L
  induction L with
  | nil => intro p; rfl
  | cons T L ih =>
    intro p
    simp only [List.foldlM_cons]
    rw [← alternative_destroy_traced_fst Types T p]
    cases hstep : VariantAlternative.destroy_traced Types T p with
    | error f => rfl
    | ok q => exact ih q

theorem Variant_destroy_traced_fst (Types : List Ty) (v : Variant Val) :
    (Variant.destroy_traced Types v).map Prod.fst = Variant.destroy Types v :=
  destroy_traced_fold_fst Types Types (v, [])

theorem emplace_traced_fst (A : AlternativeOps Ty Val Args) (Types : List Ty) (T : Ty)
    (args : Args) (v : Variant Val) :
    (Variant.emplace_traced A Types T args v).map (fun r => (r.1, r.2.1)) =
      Variant.emplace A Types T args v := by
  have h := Variant_destroy_traced_fst Types v
  unfold Variant.emplace_traced Variant.emplace
  rw [← h]
  cases hd : Variant.destroy_traced Types v with
  | error f => cases f <;> rfl
  | ok q =>
    obtain ⟨d, log⟩ := q
    simp only [Except.map]
    cases hp : VariadicUnion.put T (A.construct T args) 0 Types d.storage with
    | error f => cases f <;> rfl
    | ok st =>
      cases hg : VariadicUnion.get (get_index_by_type_v T Types) Types st <;> simp [hg]

theorem storage_destroy_traced_of_live (T : Ty) :
    ∀ (Types : List Ty) (u : VariadicUnion Val) (x : Val), T ∈ Types →
      u.live = some (Types.indexOf T, x) →
      ∃ u1, VariadicUnion.destroy_traced T Types u = .ok (u1, [.destroyed T x]) ∧
        u1.live = none := by
  intro Types
  induction Types with
  | nil => intro u x h; simp at h
  | cons Head Tail ih =>
    intro u x hmem hl
    by_cases hT : T = Head
    · subst hT
      rw [List.indexOf_cons_self] at hl
      cases u with
      | raw => simp [VariadicUnion.live] at hl
      | head z =>
        simp only [VariadicUnion.live, Option.some.injEq, Prod.mk.injEq, true_and] at hl
        subst hl
        exact ⟨.raw, by simp [VariadicUnion.destroy_traced], by simp [VariadicUnion.live]⟩
      | tail t =>
        simp only [VariadicUnion.live, Option.map_eq_some'] at hl
        obtain ⟨p, _, hq⟩ := hl
        simp at hq
    · have hmem2 : T ∈ Tail := by
        rcases List.mem_cons.mp hmem with h | h
        · exact absurd h hT
        · exact h
      have hne : Head ≠ T := fun h => hT h.symm
      rw [List.indexOf_cons_ne _ hne] at hl
      obtain ⟨u1, h1, h2⟩ := ih u.tail_member x hmem2 (live_tail_member_succ hl)
      refine ⟨.tail u1, ?_, ?_⟩
      · simp [VariadicUnion.destroy_traced, hT, h1, Except.map]
      · simp [VariadicUnion.live, h2]

theorem Variant_destroy_traced_of_valueless {Types : List Ty} (hok : TypesOk Types)
    (v : Variant Val) (hidx : v.idx = NPOS) :
    Variant.destroy_traced Types v = .ok (v, []) := by
  apply foldlM_skip _ (fun p => p.1 = v) Types _ _ rfl
  intro p T hp hT
  have : p.1.idx ≠ VariantAlternative.Index Types T := by
    rw [hp, hidx]
    exact fun e => Index_ne_NPOS hok.2 hT e.symm
  simp [VariantAlternative.destroy_traced, this, pure, Except.pure]

theorem Variant_destroy_traced_of_live {Types : List Ty} (hok : TypesOk Types)
    (v : Variant Val) (hlt : v.idx < Types.length) (x : Val)
    (hl : v.storage.live = some (v.idx, x)) :
    ∃ T0 d, Types[v.idx]? = some T0 ∧ T0 ∈ Types ∧
      Variant.destroy_traced Types v = .ok (d, [.destroyed T0 x]) ∧
      d.idx = v.idx ∧ d.storage.live = none := by
  obtain ⟨T0, hT0, hI0, hget0⟩ := exists_Index_eq hok hlt
  have hl2 : v.storage.live = some (Types.indexOf T0, x) := by
    rw [hl, ← hI0, Index_of_mem hok.2 hT0]
  obtain ⟨u1, hu1, hu2⟩ := storage_destroy_traced_of_live T0 Types v.storage x hT0 hl2
  have hfold := foldlM_single
    (fun p T => VariantAlternative.destroy_traced Types T p)
    (fun p => p.1.idx = v.idx) T0 Types hok.1 hT0
    (by
      intro p T hp hT hne
      have : p.1.idx ≠ VariantAlternative.Index Types T := by
        rw [hp, ← hI0]
        exact fun e => hne (Index_inj hok.2 hT hT0 e.symm)
      simp [VariantAlternative.destroy_traced, this, pure, Except.pure])
    (by
      intro p p1 hp hstep
      simp only [VariantAlternative.destroy_traced] at hstep
      split at hstep
      · cases hg : VariadicUnion.destroy_traced T0 Types p.1.storage with
        | error f => simp [hg, bind, Except.bind] at hstep
        | ok r =>
          simp only [hg, bind, Except.bind, pure, Except.pure, Except.ok.injEq] at hstep
          rw [← hstep]
          exact hp
      · simp only [pure, Except.pure, Except.ok.injEq] at hstep
        rw [← hstep]
        exact hp)
    (v, []) rfl
  refine ⟨T0, { v with storage := u1 }, hget0, hT0, ?_, rfl, hu2⟩
  unfold Variant.destroy_traced
  rw [hfold]
  simp [VariantAlternative.destroy_traced, hI0, hu1, bind, Except.bind, pure, Except.pure]

theorem emplace_traced_of_destroy (A : AlternativeOps Ty Val Args) {Types : List Ty}
    (hok : TypesOk Types) {T : Ty} (hT : T ∈ Types) (args : Args) (v d : Variant Val)
    (log : List (Event Ty Val)) (hd : Variant.destroy_traced Types v = .ok (d, log)) :
    (∀ y, A.construct T args = .ok y →
      ∃ v1, Variant.emplace_traced A Types T args v =
          .ok (v1, .ok y, log ++ [.constructed T y]) ∧
        Get_by_type T Types v1 = .ok y) ∧
    (∀ e, A.construct T args = .error e →
      Variant.emplace_traced A Types T args v = .ok ({ d with idx := NPOS }, .error e, log)) := by
  have hI := Index_of_mem hok.2 hT
  have hlt := Index_lt_length hok.2 hT
  constructor
  · intro y hy
    obtain ⟨u1, h1, h2⟩ := put_ok_of_mem T y Types 0 d.storage hT
    have hg : VariadicUnion.get (get_index_by_type_v T Types) Types u1 = .ok y := by
      have : get_index_by_type_v T Types = Types.indexOf T := hI
      rw [this]
      exact get_of_live Types _ u1 y h2 (by omega)
    refine ⟨{ storage := u1, idx := VariantAlternative.Index Types T }, ?_, ?_⟩
    · simp [Variant.emplace_traced, hd, hy, h1, hg, VariantAlternative.Index]
    · exact (valid_of_live_at hok hT rfl h2).2.1
  · intro e he
    have h1 := put_thrown_of_mem T e Types 0 d.storage hT
    simp [Variant.emplace_traced, hd, he, h1]

end TracedLemmas

/-- C16: on a container in a state of the data model, the container-level `destroy` calls
exactly the destructor of the alternative at position `idx`, on the live object, and no other;
on a valueless container it calls none. `emplace<T>(args...)` makes these calls once, before
the construction: when the construction succeeds the only later call is the construction of
the new value, which is not destroyed, and when it fails there is no later call. -/
theorem emplace_destroys_previous_alternative_once {Ty Val Args : Type} [DecidableEq Ty]
    (A : AlternativeOps Ty Val Args)
    {Types : List Ty} (hok : TypesOk Types) (T : Ty) (hT : T ∈ Types) (args : Args)
    (v : Variant Val) (hv : Variant.Valid Types v) :
    (Variant.emplace_traced A Types T args v).map (fun r => (r.1, r.2.1)) =
      Variant.emplace A Types T args v ∧
    (Variant.destroy_traced Types v).map Prod.fst = Variant.destroy Types v ∧
    ∃ d log, Variant.destroy_traced Types v = .ok (d, log) ∧ d.storage.live = none ∧
      (v.valueless_by_exception = true → log = []) ∧
      (∀ x, v.storage.live = some (v.index, x) →
        ∃ Told, Types[v.index]? = some Told ∧ log = [.destroyed Told x]) ∧
      (∀ y, A.construct T args = .ok y →
        ∃ v1, Variant.emplace_traced A Types T args v =
            .ok (v1, .ok y, log ++ [.constructed T y]) ∧
          Get_by_type T Types v1 = .ok y) ∧
      (∀ e, A.construct T args = .error e →
        ∃ v1, Variant.emplace_traced A Types T args v = .ok (v1, .error e, log)) := by
  refine ⟨emplace_traced_fst A Types T args v, Variant_destroy_traced_fst Types v, ?_⟩
  rcases hv with ⟨h1, h2⟩ | ⟨h1, x, h2⟩
  · have hd := Variant_destroy_traced_of_valueless hok v h2
    obtain ⟨e1, e2⟩ := emplace_traced_of_destroy A hok hT args v v [] hd
    refine ⟨v, [], hd, h1, fun _ => rfl, ?_, e1, fun e he => ⟨_, e2 e he⟩⟩
    intro y hy
    rw [h1] at hy
    simp at hy
  · obtain ⟨T0, d, g1, _, g3, _, g5⟩ := Variant_destroy_traced_of_live hok v h1 x h2
    obtain ⟨e1, e2⟩ := emplace_traced_of_destroy A hok hT args v d _ g3
    refine ⟨d, [.destroyed T0 x], g3, g5, ?_, ?_, e1, fun e he => ⟨_, e2 e he⟩⟩
    · intro hval
      simp only [Variant.valueless_by_exception, decide_eq_true_eq] at hval
      have := hok.2
      omega
    · intro y hy
      simp only [Variant.index] at hy ⊢
      rw [h2] at hy
      simp only [Option.some.injEq, Prod.mk.injEq, true_and] at hy
      subst hy
      exact ⟨T0, g1, rfl⟩

theorem emplace_destroys_previous_alternative_once_witness :
    TypesOk TestConst_Types ∧ CppType.string ∈ TestConst_Types ∧
    Variant.Valid TestConst_Types TestConst_one ∧
    Variant.destroy_traced TestConst_Types TestConst_one =
      .ok ({ storage := .raw, idx := 0 }, [.destroyed CppType.const_int (CppVal.num 1)]) ∧
    (Variant.emplace_traced CppOps TestConst_Types CppType.string
        (.ok (CppVal.text ['a', 'b', 'c', 'd', 'e'])) TestConst_one).map (fun r => r.2.2) =
      .ok [.destroyed CppType.const_int (CppVal.num 1),
        .constructed CppType.string (CppVal.text ['a', 'b', 'c', 'd', 'e'])] ∧
    (Variant.emplace_traced CppOps TestConst_Types CppType.string
        (.ok (CppVal.text ['a', 'b', 'c', 'd', 'e'])) TestConst_one).map (fun r => (r.1, r.2.1)) =
      Variant.emplace CppOps TestConst_Types CppType.string
        (.ok (CppVal.text ['a', 'b', 'c', 'd', 'e'])) TestConst_one :=
  have h1 : TypesOk TestConst_Types := by unfold TypesOk; decide
  have h2 : Variant.Valid TestConst_Types TestConst_one := Or.inr ⟨by decide, .num 1, rfl⟩
  ⟨h1, by decide, h2, rfl, rfl,
    (emplace_destroys_previous_alternative_once CppOps h1 CppType.string (by decide)
      (.ok (CppVal.text ['a', 'b', 'c', 'd', 'e'])) TestConst_one h2).1⟩

/-! ## Visitation of a valueless container -/

theorem at_impl_out_of_bounds {Ty Val : Type} :
    ∀ (vs : List (Operand Ty Val)) (Is : List Nat),
      (∃ o ∈ vs, o.Types.length ≤ o.v.idx) →
      at_impl (make_fmatrix_impl Is ((vs.map fun o => variant_size o.Types).map List.range))
        (vs.map fun o => o.v.index) = .error .undefined_behaviour := by
  intro vs
  induction vs with
  | nil => intro Is h; simp at h
  | cons o vs ih =>
    intro Is h
    by_cases hlt : o.v.idx < o.Types.length
    · have hrest : ∃ p ∈ vs, p.Types.length ≤ p.v.idx := by
        obtain ⟨p, hp, hle⟩ := h
        rcases List.mem_cons.mp hp with e | e
        · subst e; omega
        · exact ⟨p, e, hle⟩
      have hget : ((List.range (variant_size o.Types)).map fun J =>
          make_fmatrix_impl (Is ++ [J])
            ((vs.map fun o => variant_size o.Types).map List.range))[o.v.index]? =
          some (make_fmatrix_impl (Is ++ [o.v.index])
            ((vs.map fun o => variant_size o.Types).map List.range)) := by
        simp [List.getElem?_map, Variant.index, variant_size, List.getElem?_range hlt]
      simp only [List.map_cons, make_fmatrix_impl, at_impl, hget]
      exact ih (Is ++ [o.v.index]) hrest
    · have hget : ((List.range (variant_size o.Types)).map fun J =>
          make_fmatrix_impl (Is ++ [J])
            ((vs.map fun o => variant_size o.Types).map List.range))[o.v.index]? = none := by
        rw [List.getElem?_eq_none]
        simp only [List.length_map, List.length_range, variant_size, Variant.index]
        omega
      simp only [List.map_cons, make_fmatrix_impl, at_impl, hget]

theorem at_impl_first_out_of_bounds {Ty Val : Type} :
    ∀ (vs : List (Operand Ty Val)) (Is : List Nat),
      (∃ o ∈ vs, o.Types.length ≤ o.v.idx) →
      ∃ j elems i, j < vs.length ∧
        at_impl (make_fmatrix_impl Is ((vs.map fun o => variant_size o.Types).map List.range))
          ((vs.map fun o => o.v.index).take j) = .ok (.array elems) ∧
        (vs.map fun o => o.v.index)[j]? = some i ∧ elems.length ≤ i := by
  intro vs
  induction vs with
  | nil => intro Is h; simp at h
  | cons o vs ih =>
    intro Is h
    by_cases hlt : o.v.idx < o.Types.length
    · have hrest : ∃ p ∈ vs, p.Types.length ≤ p.v.idx := by
        obtain ⟨p, hp, hle⟩ := h
        rcases List.mem_cons.mp hp with e | e
        · subst e; omega
        · exact ⟨p, e, hle⟩
      have hget : ((List.range (variant_size o.Types)).map fun J =>
          make_fmatrix_impl (Is ++ [J])
            ((vs.map fun o => variant_size o.Types).map List.range))[o.v.index]? =
          some (make_fmatrix_impl (Is ++ [o.v.index])
            ((vs.map fun o => variant_size o.Types).map List.range)) := by
        simp [List.getElem?_map, Variant.index, variant_size, List.getElem?_range hlt]
      obtain ⟨j, elems, i, hj, h1, h2, h3⟩ := ih (Is ++ [o.v.index]) hrest
      refine ⟨j + 1, elems, i, by simpa using hj, ?_, by simpa using h2, h3⟩
      simp only [List.map_cons, List.take_succ_cons, make_fmatrix_impl, at_impl, hget]
      exact h1
    · refine ⟨0, (List.range (variant_size o.Types)).map fun J =>
          make_fmatrix_impl (Is ++ [J])
            ((vs.map fun o => variant_size o.Types).map List.range), o.v.index,
        by simp, ?_, by simp, ?_⟩
      · simp [make_fmatrix_impl, at_impl]
      · simp only [List.length_map, List.length_range, variant_size, Variant.index]
        omega

/-- C17, as amended: `Visit` makes no check for a valueless container. For every handler and
every argument list in which some container is valueless, the lookup `at(fmatrix,
vs.index()...)` reaches an array of the table that it indexes beyond its bounds, so that the
behaviour of the lookup, and with it of the call of `Visit`, is undefined: neither the report
of an error nor that no handler is invoked is guaranteed. -/
theorem Visit_of_valueless_is_unchecked {Ty Val R : Type} (f : List (Argument Ty Val) → R)
    (vs : List (Operand Ty Val))
    (h : ∃ o ∈ vs, o.Types.length < NPOS ∧ o.v.valueless_by_exception = true) :
    at_ (make_fmatrix (vs.map fun o => variant_size o.Types)) (vs.map fun o => o.v.index) =
      .error .undefined_behaviour ∧
    Visit f vs = .error .undefined_behaviour ∧
    ∃ j elems i, j < vs.length ∧
      at_ (make_fmatrix (vs.map fun o => variant_size o.Types))
        ((vs.map fun o => o.v.index).take j) = .ok (.array elems) ∧
      (vs.map fun o => o.v.index)[j]? = some i ∧ elems.length ≤ i := by
  have hb : ∃ o ∈ vs, o.Types.length ≤ o.v.idx := by
    obtain ⟨o, ho, hlen, hval⟩ := h
    simp only [Variant.valueless_by_exception, decide_eq_true_eq] at hval
    exact ⟨o, ho, by omega⟩
  have hat : at_ (make_fmatrix (vs.map fun o => variant_size o.Types))
      (vs.map fun o => o.v.index) = .error .undefined_behaviour :=
    at_impl_out_of_bounds vs [] hb
  have hv : Visit f vs = .error .undefined_behaviour := by
    simp only [Visit, hat, bind, Except.bind]
  exact ⟨hat, hv, at_impl_first_out_of_bounds vs [] hb⟩

theorem Visit_of_valueless_is_unchecked_witness :
    (∃ o ∈ [TestVisit_operand_five, TestVisit_operand_valueless],
      o.Types.length < NPOS ∧ o.v.valueless_by_exception = true) ∧
    Visit TestVisit_visitor [TestVisit_operand_five, TestVisit_operand_valueless] =
      .error .undefined_behaviour ∧
    (∃ elems, at_ (make_fmatrix [variant_size TestVisit_Types, variant_size TestVisit_Types])
        [TestVisit_operand_five.v.index] = .ok (.array elems) ∧
      elems.length = 6 ∧ TestVisit_operand_valueless.v.index = NPOS ∧
      elems.length ≤ TestVisit_operand_valueless.v.index) :=
  have h : ∃ o ∈ [TestVisit_operand_five, TestVisit_operand_valueless],
      o.Types.length < NPOS ∧ o.v.valueless_by_exception = true :=
    ⟨TestVisit_operand_valueless, by simp, by decide, by decide⟩
  ⟨h, (Visit_of_valueless_is_unchecked TestVisit_visitor _ h).2.1,
    ⟨_, rfl, rfl, rfl, by decide⟩⟩

/-- C17, as stated, fails: in a `Visit` of a valueless container over the list of `TestVisit`
the table lookup is out of bounds, so that the outcome of the call is undefined behaviour and
not the report of the bad-access error or of any other exception. -/
theorem Visit_of_valueless_reports_no_error :
    TestVisit_operand_valueless.v.valueless_by_exception = true ∧
    Visit TestVisit_visitor [TestVisit_operand_valueless] = .error .undefined_behaviour ∧
    ¬ (Visit TestVisit_visitor [TestVisit_operand_valueless] = .error .bad_variant_access ∨
      ∃ e, Visit TestVisit_visitor [TestVisit_operand_valueless] = .error (.thrown e)) := by
  have hv : Visit TestVisit_visitor [TestVisit_operand_valueless] =
      .error .undefined_behaviour := rfl
  refine ⟨by decide, hv, ?_⟩
  rw [hv]
  rintro (e | ⟨_, e⟩) <;> cases e

/-- C18: `holds_alternative<T>` compares the index of `T` with `idx`, and both the index of a
type absent from the list and the `idx` of a valueless container are `NPOS`. On the container
left valueless by a failed `emplace`, `holds_alternative<bool>` over the list `std::string,
char, std::vector<int>` returns true although `bool` is not an alternative. -/
theorem holds_alternative_of_absent_type_on_valueless :
    Variant.emplace CppOps TestCopyMove_Types CppType.vector_int (Except.error (Exn.mk 7))
        TestCopyMove_ab = .ok (TestCopyMove_valueless, Except.error (Exn.mk 7)) ∧
    CppType.bool ∉ TestCopyMove_Types ∧
    get_index_by_type_v CppType.bool TestCopyMove_Types = NPOS ∧
    TestCopyMove_valueless.index = NPOS ∧
    TestCopyMove_valueless.valueless_by_exception = true ∧
    holds_alternative CppType.bool TestCopyMove_Types TestCopyMove_valueless = true ∧
    holds_alternative CppType.bool TestCopyMove_Types TestCopyMove_ab = false :=
  ⟨rfl, by decide, rfl, rfl, by decide, by decide, by decide⟩

/-! ## Value categories in visitation -/

/-- C19: for every handler and every list of containers none of which is valueless, the
argument `Visit` passes for container `j` is the reference returned by the overload of
`Get<Index>` that the cast `static_cast<Vs>(vs)` selects for the value category of the
container expression `j` (`Get(Variant&)` for an lvalue, `Get(const Variant&)` for a const
lvalue, `Get(Variant&&)` with its `std::move` for an rvalue, `Get(const Variant&&)` with its
`std::move` for a const rvalue); that reference has the value category of the container
expression and denotes the active alternative. With `basicPackA` holding `HeavyItem` and
`basicPackB` holding `FragileItem`, the handler of the test returns `both lvalue` for two
lvalues, `rvalue and lvalue` for an rvalue and an lvalue, `another` for two rvalues,
`both const` for two const lvalues and `another` for an lvalue and a const lvalue; over all
sixteen pairs of value categories the lambda on `HeavyItem&&` is called only for an rvalue
with an lvalue and the lambda on const references only for two const lvalues. -/
theorem Visit_passes_value_category {Ty Val R : Type} (f : List (Argument Ty Val) → R)
    (vs : List (Operand Ty Val))
    (hvs : ∀ o ∈ vs, Variant.Valid o.Types o.v ∧ o.v.valueless_by_exception = false) :
    (∃ args, Visit f vs = .ok (f args) ∧
      args.map (fun a => a.category) = vs.map (fun o => o.category) ∧
      List.Forall₂ (fun o a =>
        (match o.category with
          | .lvalue => Get_lvalue o.v.index o.Types o.v
          | .const_lvalue => Get_const_lvalue o.v.index o.Types o.v
          | .rvalue => Get_rvalue o.v.index o.Types o.v
          | .const_rvalue => Get_const_rvalue o.v.index o.Types o.v) =
          .ok { category := a.category, value := a.value } ∧
        a.category = o.category ∧
        o.Types[o.v.index]? = some a.ty ∧
        o.v.storage.live = some (o.v.index, a.value)) vs args) ∧
    TestMultipleVisit_category_results =
      [.ok "both lvalue", .ok "rvalue and lvalue", .ok "another", .ok "both const",
       .ok "another"] ∧
    (∀ ca cb : Category,
      Visit TestMultipleVisit_category_visitor (TestMultipleVisit_operands ca cb) =
        .ok (match ca, cb with
          | .lvalue, .lvalue => "both lvalue"
          | .rvalue, .lvalue => "rvalue and lvalue"
          | .const_lvalue, .const_lvalue => "both const"
          | _, _ => "another")) := by
  obtain ⟨args, h1, h2⟩ := Visit_of_valid_ref f vs hvs
  refine ⟨⟨args, h1, ?_, ?_⟩, rfl, fun ca cb => by cases ca <;> cases cb <;> rfl⟩
  · clear h1 hvs
    induction h2 with
    | nil => rfl
    | cons hx _ ih => simp [hx.2.1, ih]
  · exact h2.imp fun _ _ h => ⟨h.1, h.2.1, h.2.2.1, h.2.2.2.2⟩

theorem Visit_passes_value_category_witness :
    (∀ o ∈ TestMultipleVisit_operands .rvalue .lvalue,
      Variant.Valid o.Types o.v ∧ o.v.valueless_by_exception = false) ∧
    Visit TestMultipleVisit_category_visitor (TestMultipleVisit_operands .rvalue .lvalue) =
      .ok "rvalue and lvalue" :=
  have h : ∀ o ∈ TestMultipleVisit_operands .rvalue .lvalue,
      Variant.Valid o.Types o.v ∧ o.v.valueless_by_exception = false := by
    intro o ho
    simp only [TestMultipleVisit_operands, List.mem_cons, List.mem_singleton,
      List.not_mem_nil, or_false] at ho
    rcases ho with rfl | rfl
    · exact ⟨Or.inr ⟨by decide, .item, rfl⟩, by decide⟩
    · exact ⟨Or.inr ⟨by decide, .item, rfl⟩, by decide⟩
  ⟨h,
    match (Visit_passes_value_category TestMultipleVisit_category_visitor _ h).1 with
    | ⟨_, e1, _, _⟩ => by
      have hv : Visit TestMultipleVisit_category_visitor
          (TestMultipleVisit_operands .rvalue .lvalue) = .ok "rvalue and lvalue" := rfl
      rw [e1] at hv
      rw [e1]
      exact hv⟩

/-! ## The dispatch table -/

theorem at_impl_nil (t : Fmatrix) : at_impl t [] = .ok t := by
  cases t <;> simp [at_impl]

theorem at_impl_prefix :
    ∀ (idxs sizes Is : List Nat), idxs.length ≤ sizes.length →
      List.Forall₂ (fun i n => i < n) idxs (sizes.take idxs.length) →
      at_impl (make_fmatrix_impl Is (sizes.map List.range)) idxs =
        .ok (make_fmatrix_impl (Is ++ idxs) ((sizes.drop idxs.length).map List.range)) := by
  intro idxs
  induction idxs with
  | nil =>
    intro sizes Is _ _
    simp [at_impl_nil]
  | cons i is ih =>
    intro sizes Is hlen h
    cases sizes with
    | nil => simp at hlen
    | cons n sizes =>
      simp only [List.length_cons, List.take_succ_cons] at h
      cases h with
      | cons hin hrest =>
        have hget : ((List.range n).map fun J =>
            make_fmatrix_impl (Is ++ [J]) (sizes.map List.range))[i]? =
            some (make_fmatrix_impl (Is ++ [i]) (sizes.map List.range)) := by
          simp [List.getElem?_map, List.getElem?_range hin]
        have hlen2 : is.length ≤ sizes.length := by simpa using hlen
        simp only [List.map_cons, make_fmatrix_impl, at_impl, hget]
        rw [ih sizes (Is ++ [i]) hlen2 hrest]
        simp

theorem dispatch_args_in_order {Ty Val : Type} :
    ∀ (ps : List (Nat × Operand Ty Val × Argument Ty Val)),
      (∀ p ∈ ps, Get p.1 p.2.1.Types p.2.1.v = .ok p.2.2.value ∧
        VariadicUnion.member_type p.1 p.2.1.Types = some p.2.2.ty ∧
        p.2.2.category = p.2.1.category) →
      dispatch_args (ps.map fun p => p.1) (ps.map fun p => p.2.1) =
        .ok (ps.map fun p => p.2.2) := by
  intro ps
  induction ps with
  | nil => intro _; rfl
  | cons p ps ih =>
    intro h
    obtain ⟨h1, h2, h3⟩ := h p (List.mem_cons_self _ _)
    have hrest := ih (fun q hq => h q (List.mem_cons_of_mem _ hq))
    obtain ⟨i, o, a⟩ := p
    obtain ⟨c, t, x⟩ := a
    simp only at h1 h2 h3
    subst h3
    have hcast := Get_static_cast_of_Get o.category h1
    simp [dispatch_args, hcast, h2, hrest, bind, Except.bind, pure, Except.pure]

/-- C20: for alternative counts `n1, ..., nK`, all positive, the table of `make_fmatrix` has at
nesting depth `j` arrays of exactly `nj` entries; for every index tuple `(i1, ..., iK)` with
`ij < nj` the lookup `at(table, i1, ..., iK)` returns the leaf instantiated with the index
sequence `i1, ..., iK` in that order; that leaf calls `Get<i1>` on the first container, ...,
`Get<iK>` on the last and passes the results to the handler in that order; and for `K = 0`
the table is the single leaf. -/
theorem make_fmatrix_cell_is_dispatcher_of_indices (sizes : List Nat)
    (hpos : ∀ n ∈ sizes, 0 < n) :
    make_fmatrix [] = .dispatcher [] ∧
    (∀ idxs, List.Forall₂ (fun i n => i < n) idxs sizes →
      at_ (make_fmatrix sizes) idxs = .ok (.dispatcher idxs)) ∧
    (∀ (j : Nat) (hj : j < sizes.length) (pre : List Nat), pre.length = j →
      List.Forall₂ (fun i n => i < n) pre (sizes.take j) →
      ∃ elems, at_ (make_fmatrix sizes) pre = .ok (.array elems) ∧
        elems.length = sizes[j] ∧ 0 < elems.length) ∧
    (∀ (Ty Val R : Type) (f : List (Argument Ty Val) → R)
      (ps : List (Nat × Operand Ty Val × Argument Ty Val)),
      (∀ p ∈ ps, Get p.1 p.2.1.Types p.2.1.v = .ok p.2.2.value ∧
        VariadicUnion.member_type p.1 p.2.1.Types = some p.2.2.ty ∧
        p.2.2.category = p.2.1.category) →
      dispatch (ps.map fun p => p.1) f (ps.map fun p => p.2.1) =
        .ok (f (ps.map fun p => p.2.2))) := by
  refine ⟨rfl, fun idxs h => at_make_fmatrix sizes idxs h, ?_, ?_⟩
  · intro j hj pre hlen h
    subst hlen
    have hp := at_impl_prefix pre sizes [] (Nat.le_of_lt hj) h
    have hdrop : sizes.drop pre.length = sizes[pre.length] :: sizes.drop (pre.length + 1) :=
      List.drop_eq_getElem_cons hj
    refine ⟨(List.range sizes[pre.length]).map fun J =>
      make_fmatrix_impl (pre ++ [J]) ((sizes.drop (pre.length + 1)).map List.range), ?_, ?_,
      ?_⟩
    · simp only [at_, make_fmatrix, hp, List.nil_append, hdrop, List.map_cons,
        make_fmatrix_impl]
    · simp
    · simp only [List.length_map, List.length_range]
      exact hpos _ (List.getElem_mem _)
  · intro Ty Val R f ps h
    simp only [dispatch, dispatch_args_in_order ps h, bind, Except.bind, pure, Except.pure]

theorem make_fmatrix_cell_is_dispatcher_of_indices_witness :
    (∀ n ∈ [2, 3], 0 < n) ∧
    at_ (make_fmatrix [2, 3]) [1, 2] = .ok (.dispatcher [1, 2]) ∧
    (∃ elems, at_ (make_fmatrix [2, 3]) [1] = .ok (.array elems) ∧ elems.length = 3) :=
  have h : ∀ n ∈ [2, 3], 0 < n := by decide
  ⟨h,
    (make_fmatrix_cell_is_dispatcher_of_indices [2, 3] h).2.1 [1, 2]
      (List.Forall₂.cons (by decide) (List.Forall₂.cons (by decide) List.Forall₂.nil)),
    match (make_fmatrix_cell_is_dispatcher_of_indices [2, 3] h).2.2.1 1 (by decide) [1] rfl
      (List.Forall₂.cons (by decide) List.Forall₂.nil) with
    | ⟨elems, e1, e2, _⟩ => ⟨elems, e1, e2⟩⟩


/-! ## The recursive storage and the index traits -/

section StorageAndTraits

variable {Ty Val : Type} [DecidableEq Ty]

theorem getElem?_ne_of_lt_indexOf (T : Ty) :
    ∀ (Types : List Ty) (j : Nat), j < Types.indexOf T → Types[j]? ≠ some T := by
  intro Types
  induction Types with
  | nil => intro j h; simp at h
  | cons Head Tail ih =>
    intro j h
    by_cases hT : Head = T
    · subst hT
      simp at h
    · rw [List.indexOf_cons_ne _ hT] at h
      cases j with
      | zero => simpa using hT
      | succ n =>
        simp only [List.getElem?_cons_succ]
        exact ih n (by omega)

/-- C21: in the storage `get<0>` reads the head and `get<i + 1>` reads `get<i>` of the nested
storage; and for every list, every type `T` occurring in it and every value `x`, `put<0, T>`
of `x` into any storage returns a storage in which `get<p>` at `p = get_index_by_type_v<T,
Types...>`, the first position of `T`, returns `x`. -/
theorem put_by_type_then_get_by_index (Types : List Ty) (hlen : Types.length < NPOS)
    (T : Ty) (hT : T ∈ Types) (x : Val) (u : VariadicUnion Val) :
    (∀ (Head : Ty) (Tail : List Ty) (y : Val),
      VariadicUnion.get 0 (Head :: Tail) (VariadicUnion.head y) = .ok y) ∧
    (∀ (Head : Ty) (Tail : List Ty) (i : Nat) (w : VariadicUnion Val),
      VariadicUnion.get (i + 1) (Head :: Tail) w = VariadicUnion.get i Tail w.tail_member ∧
      VariadicUnion.get (i + 1) (Head :: Tail) (VariadicUnion.tail w) =
        VariadicUnion.get i Tail w) ∧
    ∃ u1, VariadicUnion.put T (.ok x) 0 Types u = .ok u1 ∧
      VariadicUnion.get (get_index_by_type_v T Types) Types u1 = .ok x ∧
      get_index_by_type_v T Types = Types.indexOf T ∧
      Types[get_index_by_type_v T Types]? = some T ∧
      (∀ j, j < get_index_by_type_v T Types → Types[j]? ≠ some T) := by
  have hI : get_index_by_type_v T Types = Types.indexOf T := Index_of_mem hlen hT
  have hlt : Types.indexOf T < Types.length := List.indexOf_lt_length.mpr hT
  refine ⟨fun _ _ _ => by simp [VariadicUnion.get], fun _ _ _ _ => ?_, ?_⟩
  · constructor <;> simp [VariadicUnion.get, VariadicUnion.tail_member]
  · obtain ⟨u1, h1, h2⟩ := put_ok_of_mem T x Types 0 u hT
    refine ⟨u1, h1, ?_, hI, ?_, ?_⟩
    · rw [hI]
      exact get_of_live Types _ u1 x h2 hlt
    · rw [hI]
      exact List.getElem?_indexOf hT
    · intro j hj
      rw [hI] at hj
      exact getElem?_ne_of_lt_indexOf T Types j hj

theorem put_by_type_then_get_by_index_witness :
    TestConst_Types.length < NPOS ∧ CppType.const_string ∈ TestConst_Types ∧
    ∃ u1, VariadicUnion.put CppType.const_string (.ok (CppVal.text ['x'])) 0 TestConst_Types
        (VariadicUnion.head (CppVal.num 1)) = .ok u1 ∧
      VariadicUnion.get 2 TestConst_Types u1 = .ok (CppVal.text ['x']) :=
  ⟨by decide, by decide,
    match put_by_type_then_get_by_index TestConst_Types (by decide) CppType.const_string
      (by decide) (CppVal.text ['x']) (VariadicUnion.head (CppVal.num 1)) with
    | ⟨_, _, u1, e1, e2, _⟩ => ⟨u1, e1, e2⟩⟩

/-- C24: on a list of pairwise distinct types the lookups are mutually inverse: the type at
position `i` has index `i`, and the type at the index of `T` is `T`. For a type absent from
the list the index is `NPOS`; on any list, with or without repeats, the index of a type that
occurs is its first position. -/
theorem get_index_by_type_inverse_of_get_type_by_index (Empty : Ty) (Types : List Ty)
    (hlen : Types.length < NPOS) :
    (Types.Nodup → ∀ i, i < Types.length →
      get_index_by_type_v (get_type_by_index Empty i Types) Types = i) ∧
    (∀ T ∈ Types, get_type_by_index Empty (get_index_by_type_v T Types) Types = T) ∧
    (∀ T, T ∉ Types → get_index_by_type_v T Types = NPOS) ∧
    (∀ T ∈ Types, get_index_by_type_v T Types = Types.indexOf T ∧
      Types[get_index_by_type_v T Types]? = some T ∧
      ∀ j, j < get_index_by_type_v T Types → Types[j]? ≠ some T) := by
  refine ⟨?_, ?_, ?_, ?_⟩
  · intro hnd i hi
    have hty := get_type_by_index_of_lt Empty Types i hi
    have hmem : get_type_by_index Empty i Types ∈ Types := by
      rw [hty]
      exact List.getElem_mem _
    have h := Index_of_mem hlen hmem
    simp only [VariantAlternative.Index] at h
    rw [h, hty]
    exact List.indexOf_getElem hnd i hi
  · intro T hT
    have hI : get_index_by_type_v T Types = Types.indexOf T := Index_of_mem hlen hT
    have hlt : Types.indexOf T < Types.length := List.indexOf_lt_length.mpr hT
    rw [hI, get_type_by_index_of_lt Empty Types _ hlt]
    exact List.getElem_indexOf hlt
  · intro T hT
    exact get_index_by_type_of_not_mem T Types 0 hT
  · intro T hT
    have hI : get_index_by_type_v T Types = Types.indexOf T := Index_of_mem hlen hT
    refine ⟨hI, ?_, ?_⟩
    · rw [hI]
      exact List.getElem?_indexOf hT
    · intro j hj
      rw [hI] at hj
      exact getElem?_ne_of_lt_indexOf T Types j hj

theorem get_index_by_type_inverse_of_get_type_by_index_witness :
    Repeated_Types.length < NPOS ∧
    get_index_by_type_v CppType.char Repeated_Types = 1 ∧
    get_type_by_index CppType.Empty (get_index_by_type_v CppType.char Repeated_Types)
      Repeated_Types = CppType.char ∧
    get_index_by_type_v CppType.bool Repeated_Types = NPOS :=
  have h := get_index_by_type_inverse_of_get_type_by_index CppType.Empty Repeated_Types
    (by decide)
  ⟨by decide, (h.2.2.2 CppType.char (by decide)).1.trans (by decide),
    h.2.1 CppType.char (by decide), h.2.2.1 CppType.bool (by decide)⟩

end StorageAndTraits

/-! ## Self-assignment -/

section SelfAssignment

variable {Ty Val : Type} [DecidableEq Ty]

omit [DecidableEq Ty] in
theorem get_of_not_live :
    ∀ (Types : List Ty) (i : Nat) (u : VariadicUnion Val), u.live = none →
      i < Types.length → VariadicUnion.get i Types u = .error .undefined_behaviour := by
  intro Types
  induction Types with
  | nil => intro i u _ hi; simp at hi
  | cons Head Tail ih =>
    intro i u hl hi
    cases i with
    | zero =>
      cases u with
      | raw => simp [VariadicUnion.get]
      | head y => simp [VariadicUnion.live] at hl
      | tail t => simp [VariadicUnion.get]
    | succ n =>
      have hn : n < Tail.length := by simpa using hi
      have hl2 : u.tail_member.live = none := by
        cases u with
        | raw => rfl
        | head y => simp [VariadicUnion.live] at hl
        | tail t => simpa [VariadicUnion.live, VariadicUnion.tail_member] using hl
      simp [VariadicUnion.get, ih n u.tail_member hl2 hn]

theorem assign_copy_self_of_valid {Types : List Ty} (hok : TypesOk Types) (l : Nat)
    (s : Nat → Variant Val) (hv : Variant.Valid Types (s l))
    (hnv : (s l).valueless_by_exception = false) :
    Variant.assign_copy Types l l s = .error .undefined_behaviour := by
  obtain ⟨hlt, _, _⟩ := live_of_not_valueless hv hnv
  obtain ⟨T0, hT0, hI0, _⟩ := exists_Index_eq hok hlt
  obtain ⟨d, hd, hd2, hd3⟩ := destroy_of_valid hok hv
  have hstep : ∀ s1 : Nat → Variant Val, s1 l = d →
      VariantAlternative.assign_copy Types T0 l l s1 = .error .undefined_behaviour := by
    intro s1 h1
    have hg : Get (s l).idx Types d = .error .undefined_behaviour := by
      simp only [Get, hd2, ne_eq, not_true_eq_false, if_false]
      exact get_of_not_live Types _ d.storage hd3 hlt
    simp [VariantAlternative.assign_copy, h1, hI0, hd2, hg, bind, Except.bind]
  have hfold := foldlM_single
    (fun s1 T => VariantAlternative.assign_copy Types T l l s1)
    (fun s1 => s1 l = d) T0 Types hok.1 hT0
    (by
      intro s1 T hp hT hTne
      have : VariantAlternative.Index Types T ≠ (s1 l).idx := by
        rw [hp, hd2, ← hI0]
        exact fun e => hTne (Index_inj hok.2 hT hT0 e)
      simp [VariantAlternative.assign_copy, this, pure, Except.pure])
    (by
      intro s1 s2 hp h
      have h2 : VariantAlternative.assign_copy Types T0 l l s1 = .ok s2 := h
      rw [hstep s1 hp] at h2
      cases h2)
    (Function.update s l d) (Function.update_same _ _ _)
  unfold Variant.assign_copy
  simp only [hd, bind, Except.bind]
  rw [hfold]
  exact hstep _ (Function.update_same _ _ _)

end SelfAssignment

/-- C23: the copy assignment `v = v` of a container that holds a `std::vector<int>` first
destroys the vector by `destroy()` and then copy-constructs the new alternative from
`Get<2>(other)`, which is the vector just destroyed: the assignment reads an object outside its
lifetime and returns no state in which `Get<2>(v)` is the value held before. -/
theorem self_copy_assignment_reads_destroyed_alternative :
    Variant.Valid TestCopyMove_Types (TestCopyMove_vector_store 1) ∧
    (TestCopyMove_vector_store 1).valueless_by_exception = false ∧
    Get 2 TestCopyMove_Types (TestCopyMove_vector_store 1) =
      .ok (CppVal.seq [1, 2, 3, 4, 5]) ∧
    Variant.destroy TestCopyMove_Types (TestCopyMove_vector_store 1) =
      .ok { storage := .tail (.tail .raw), idx := 2 } ∧
    Get 2 TestCopyMove_Types ({ storage := .tail (.tail .raw), idx := 2 } : Variant CppVal) =
      .error .undefined_behaviour ∧
    Variant.assign_copy TestCopyMove_Types 1 1 TestCopyMove_vector_store =
      .error .undefined_behaviour :=
  ⟨Or.inr ⟨by decide, .seq [1, 2, 3, 4, 5], rfl⟩, by decide, rfl, rfl, rfl, rfl⟩

/-! ## Reachable states and the bounds of the dispatch table -/

section ReachableStates

variable {Ty Val Args : Type} [DecidableEq Ty]

omit [DecidableEq Ty] in
theorem valid_update {Types : List Ty} {s : Nat → Variant Val}
    (hs : ∀ l, Variant.Valid Types (s l)) (l : Nat) {v : Variant Val}
    (hv : Variant.Valid Types v) : ∀ k, Variant.Valid Types (Function.update s l v k) := by
  intro k
  by_cases hk : k = l
  · subst hk
    rw [Function.update_same]
    exact hv
  · rw [Function.update_noteq hk]
    exact hs k

omit [DecidableEq Ty] in
theorem valid_of_idx_live {Types : List Ty} {v : Variant Val} {i : Nat} {x : Val}
    (hi : v.idx = i) (hlt : i < Types.length) (hl : v.storage.live = some (i, x)) :
    Variant.Valid Types v := by
  subst hi
  exact Or.inr ⟨hlt, x, hl⟩

theorem ctor_default_cases (A : AlternativeOps Ty Val Args) (Empty : Ty) {Types : List Ty}
    (hne : Types ≠ []) :
    (∃ v, Variant.ctor_default A Empty Types = .ok v ∧ Variant.Valid Types v) ∨
    (∃ e, Variant.ctor_default A Empty Types = .error (.thrown e)) := by
  cases hc : A.construct (get_type_by_index Empty 0 Types) A.no_args with
  | ok x =>
    obtain ⟨v, h1, _, _, h4⟩ := ctor_default_valid A Empty hne hc
    exact Or.inl ⟨v, h1, h4⟩
  | error e =>
    right
    refine ⟨e, ?_⟩
    cases Types with
    | nil => exact absurd rfl hne
    | cons Head Tail =>
      simp only [get_type_by_index, if_true] at hc
      simp [Variant.ctor_default, get_type_by_index, VariadicUnion.put, hc, bind, Except.bind]

theorem Store_step_valid (A : AlternativeOps Ty Val Args) (Empty : Ty) {Types : List Ty}
    (hok : TypesOk Types) (s : Nat → Variant Val) (hs : ∀ l, Variant.Valid Types (s l))
    (op : StoreOp Ty Val Args) (hop : StoreOp.admissible A Types s op) :
    ∃ s1, Store_step A Empty Types s op = .ok s1 ∧ ∀ l, Variant.Valid Types (s1 l) := by
  cases op with
  | construct_value l T x stale =>
    have hT : T ∈ Types := hop
    obtain ⟨v, h1, h2⟩ := ctor_value_valid hok hT x stale
    exact ⟨Function.update s l v, by simp [Store_step, h1, Except.map], valid_update hs l h2⟩
  | construct_default l =>
    have hne : Types ≠ [] := hop
    rcases ctor_default_cases A Empty hne with ⟨v, h1, h2⟩ | ⟨e, h1⟩
    · exact ⟨Function.update s l v, by simp [Store_step, h1], valid_update hs l h2⟩
    · exact ⟨s, by simp [Store_step, h1], hs⟩
  | construct_copy l src stale =>
    obtain ⟨_, hnv⟩ : l ≠ src ∧ (s src).valueless_by_exception = false := hop
    obtain ⟨hlt, x, hl⟩ := live_of_not_valueless (hs src) hnv
    obtain ⟨b, h1, h2, h3⟩ := ctor_copy_spec hok (s src) hlt x hl stale
    exact ⟨Function.update s l b, by simp [Store_step, h1, Except.map],
      valid_update hs l (valid_of_idx_live h2 hlt h3)⟩
  | construct_move l src stale =>
    obtain ⟨_, hnv⟩ : l ≠ src ∧ (s src).valueless_by_exception = false := hop
    obtain ⟨hlt, x, hl⟩ := live_of_not_valueless (hs src) hnv
    obtain ⟨b, a1, T0, h1, _, h3, h4, h5, h6⟩ := ctor_move_spec A hok (s src) hlt x hl stale
    exact ⟨Function.update (Function.update s src a1) l b,
      by simp [Store_step, h1, Except.map],
      valid_update (valid_update hs src (valid_of_idx_live h5 hlt h6)) l
        (valid_of_idx_live h3 hlt h4)⟩
  | assign_value l T x =>
    obtain ⟨hT, ha⟩ : T ∈ Types ∧ A.assignable T = true := hop
    obtain ⟨v1, h1, h2, h3, _⟩ := assign_value_spec A.assignable hok hT ha x (hs l)
    exact ⟨Function.update s l v1, by simp [Store_step, h1, Except.map],
      valid_update hs l (valid_of_live_at hok hT h2 h3).1⟩
  | emplace l T args =>
    have hT : T ∈ Types := hop
    cases hc : A.construct T args with
    | ok x =>
      obtain ⟨v1, h1, h2, h3⟩ := emplace_ok_spec A hok hT args hc (hs l)
      exact ⟨Function.update s l v1, by simp [Store_step, h1, Except.map],
        valid_update hs l (valid_of_live_at hok hT h2 h3).1⟩
    | error e =>
      obtain ⟨v1, h1, h2, h3⟩ := emplace_thrown_spec A hok hT args hc (hs l)
      exact ⟨Function.update s l v1, by simp [Store_step, h1, Except.map],
        valid_update hs l (Or.inl ⟨h3, h2⟩)⟩
  | assign_copy l src =>
    obtain ⟨hne, hnv⟩ : l ≠ src ∧ (s src).valueless_by_exception = false := hop
    obtain ⟨hlt, x, hl⟩ := live_of_not_valueless (hs src) hnv
    obtain ⟨s1, h1, h2, h3, h4⟩ := assign_copy_spec hok l src hne s (hs l) hlt x hl
    refine ⟨s1, h1, fun k => ?_⟩
    by_cases hk : k = l
    · subst hk
      exact valid_of_idx_live h2 hlt h3
    · rw [h4 k hk]
      exact hs k
  | assign_move l src =>
    obtain ⟨hne, hnv⟩ : l ≠ src ∧ (s src).valueless_by_exception = false := hop
    obtain ⟨hlt, x, hl⟩ := live_of_not_valueless (hs src) hnv
    obtain ⟨s1, T0, h1, _, h3, h4, h5, h6, h7⟩ :=
      assign_move_spec A hok l src hne s (hs l) hlt x hl
    refine ⟨s1, h1, fun k => ?_⟩
    by_cases hk : k = l
    · subst hk
      exact valid_of_idx_live h3 hlt h4
    · by_cases hk2 : k = src
      · subst hk2
        exact valid_of_idx_live h5 hlt h6
      · rw [h7 k hk hk2]
        exact hs k

theorem constructed_valid (A : AlternativeOps Ty Val Args) (Empty : Ty) {Types : List Ty}
    (hok : TypesOk Types) {v : Variant Val} (h : Variant.Constructed A Empty Types v) :
    Variant.Valid Types v := by
  rcases h with ⟨T, hT, x, stale, h1⟩ | ⟨hne, h1⟩
  · obtain ⟨v1, g1, g2⟩ := ctor_value_valid hok hT x stale
    rw [h1] at g1
    cases g1
    exact g2
  · rcases ctor_default_cases A Empty hne with ⟨v1, g1, g2⟩ | ⟨e, g1⟩
    · rw [h1] at g1
      cases g1
      exact g2
    · rw [h1] at g1
      cases g1

theorem reachable_valid (A : AlternativeOps Ty Val Args) (Empty : Ty) {Types : List Ty}
    (hok : TypesOk Types) {s : Nat → Variant Val} (hs : Reachable A Empty Types s) :
    ∀ l, Variant.Valid Types (s l) := by
  induction hs with
  | init s h => exact fun l => constructed_valid A Empty hok (h l)
  | step s s1 op _ hop h ih =>
    obtain ⟨s2, g1, g2⟩ := Store_step_valid A Empty hok s ih op hop
    rw [h] at g1
    cases g1
    exact g2

end ReachableStates

theorem per_dimension_lookup_in_bounds (sizes idxs : List Nat)
    (h : List.Forall₂ (fun i n => i < n) idxs sizes) (j : Nat) (hj : j < sizes.length) :
    ∃ elems i, at_ (make_fmatrix sizes) (idxs.take j) = .ok (.array elems) ∧
      elems.length = sizes[j] ∧ idxs[j]? = some i ∧ i < elems.length := by
  have hlen : idxs.length = sizes.length := h.length_eq
  have hj2 : j < idxs.length := by omega
  have hpre : (idxs.take j).length = j := by
    rw [List.length_take]
    omega
  have htake : List.Forall₂ (fun i n => i < n) (idxs.take j)
      (sizes.take (idxs.take j).length) := by
    rw [hpre]
    exact List.forall₂_take j h
  have hp := at_impl_prefix (idxs.take j) sizes [] (by omega) htake
  rw [hpre] at hp
  have hdrop : sizes.drop j = sizes[j] :: sizes.drop (j + 1) := List.drop_eq_getElem_cons hj
  have hlt : idxs[j] < sizes[j] := h.get hj2 hj
  refine ⟨(List.range sizes[j]).map fun J =>
    make_fmatrix_impl (idxs.take j ++ [J]) ((sizes.drop (j + 1)).map List.range), idxs[j],
    ?_, by simp, by simp [hj2], by simpa using hlt⟩
  simp only [at_, make_fmatrix, hp, List.nil_append, hdrop, List.map_cons, make_fmatrix_impl]

/-- C22: in a store reachable from objects constructed from a value or by default (over a list
with a first alternative) through value assignment, `emplace` that succeeds or fails, and copy
or move construction or assignment from another object that is not valueless, every operation
returns and every container has `index()` below the number of alternatives or equal to `NPOS`.
The value assignments are those of an assignable alternative; the assignment of a value of an
alternative that is not assignable, as a const-qualified one is not, does not compile and so
reaches no state. Consequently, in a `Visit` of such containers none of which is valueless,
every index is below the size of its dimension, every array lookup of `at` is within the
bounds of its array, and the lookup returns the leaf of the table. -/
theorem reachable_index_within_bounds {Ty Val Args : Type} [DecidableEq Ty]
    (A : AlternativeOps Ty Val Args) (Empty : Ty) {Types : List Ty} (hok : TypesOk Types)
    (s : Nat → Variant Val) (hs : Reachable A Empty Types s) :
    (∀ l, (s l).index < variant_size Types ∨ (s l).index = NPOS) ∧
    (∀ op, StoreOp.admissible A Types s op →
      ∃ s1, Store_step A Empty Types s op = .ok s1 ∧ Reachable A Empty Types s1 ∧
        ∀ l, (s1 l).index < variant_size Types ∨ (s1 l).index = NPOS) ∧
    (∀ l T x, T ∈ Types → A.assignable T = false →
      Store_step A Empty Types s (.assign_value l T x) = .error .ill_formed) ∧
    (∀ vs : List (Operand Ty Val),
      (∀ o ∈ vs, TypesOk o.Types ∧ (∃ t l, Reachable A Empty o.Types t ∧ o.v = t l) ∧
        o.v.valueless_by_exception = false) →
      List.Forall₂ (fun i n => i < n) (vs.map fun o => o.v.index)
        (vs.map fun o => variant_size o.Types) ∧
      at_ (make_fmatrix (vs.map fun o => variant_size o.Types)) (vs.map fun o => o.v.index) =
        .ok (.dispatcher (vs.map fun o => o.v.index)) ∧
      (∀ j, j < vs.length →
        ∃ elems i, at_ (make_fmatrix (vs.map fun o => variant_size o.Types))
            ((vs.map fun o => o.v.index).take j) = .ok (.array elems) ∧
          (vs.map fun o => o.v.index)[j]? = some i ∧ i < elems.length)) := by
  have bound : ∀ (t : Nat → Variant Val), (∀ l, Variant.Valid Types (t l)) →
      ∀ l, (t l).index < variant_size Types ∨ (t l).index = NPOS := by
    intro t ht l
    rcases ht l with ⟨_, h2⟩ | ⟨h1, _⟩
    · exact Or.inr h2
    · exact Or.inl h1
  refine ⟨bound s (reachable_valid A Empty hok hs), ?_, ?_, ?_⟩
  · intro op hop
    obtain ⟨s1, h1, h2⟩ :=
      Store_step_valid A Empty hok s (reachable_valid A Empty hok hs) op hop
    exact ⟨s1, h1, Reachable.step s s1 op hs hop h1, bound s1 h2⟩
  · intro l T x hT ha
    simp [Store_step, assign_value_not_assignable A.assignable hT ha x (s l), Except.map]
  · intro vs hvs
    have hb : List.Forall₂ (fun i n => i < n) (vs.map fun o => o.v.index)
        (vs.map fun o => variant_size o.Types) := by
      rw [List.forall₂_map_left_iff, List.forall₂_map_right_iff]
      refine List.forall₂_same.mpr fun o ho => ?_
      obtain ⟨hok2, ⟨t, l, ht, hv⟩, hnv⟩ := hvs o ho
      have hval : Variant.Valid o.Types o.v := by
        rw [hv]
        exact reachable_valid A Empty hok2 ht l
      exact (live_of_not_valueless hval hnv).1
    refine ⟨hb, at_make_fmatrix _ _ hb, ?_⟩
    intro j hj
    obtain ⟨elems, i, e1, _, e3, e4⟩ :=
      per_dimension_lookup_in_bounds _ _ hb j (by simpa using hj)
    exact ⟨elems, i, e1, e3, e4⟩

theorem reachable_index_within_bounds_witness :
    TypesOk TestCopyMove_Types ∧
    Reachable CppOps CppType.Empty TestCopyMove_Types TestCopyMove_initial_store ∧
    (∀ l, (TestCopyMove_initial_store l).index < variant_size TestCopyMove_Types ∨
      (TestCopyMove_initial_store l).index = NPOS) ∧
    ∃ s1, Store_step CppOps CppType.Empty TestCopyMove_Types TestCopyMove_initial_store
        (.emplace 0 CppType.vector_int (Except.error (Exn.mk 7))) = .ok s1 ∧
      Reachable CppOps CppType.Empty TestCopyMove_Types s1 ∧ (s1 0).index = NPOS :=
  have h1 : TypesOk TestCopyMove_Types := by unfold TypesOk; decide
  have h2 : Reachable CppOps CppType.Empty TestCopyMove_Types TestCopyMove_initial_store :=
    Reachable.init _ fun _ =>
      Or.inl ⟨CppType.string, by decide, CppVal.text ['a', 'b'], 0, rfl⟩
  have h3 := reachable_index_within_bounds CppOps CppType.Empty h1
    TestCopyMove_initial_store h2
  ⟨h1, h2, h3.1,
    match h3.2.1 (.emplace 0 CppType.vector_int (Except.error (Exn.mk 7)))
      (by show CppType.vector_int ∈ TestCopyMove_Types; decide) with
    | ⟨s1, e1, e2, _⟩ => ⟨s1, e1, e2, by
        have e : Store_step CppOps CppType.Empty TestCopyMove_Types TestCopyMove_initial_store
            (.emplace 0 CppType.vector_int (Except.error (Exn.mk 7))) =
            .ok (Function.update TestCopyMove_initial_store 0 TestCopyMove_valueless) := rfl
        rw [e] at e1
        cases e1
        rfl⟩⟩
